import Mathlib

/-!
# The C# program generator (`pkg/codegen/dotnet`)

A shallow embedding of the expression printer of `gen_program_expressions.go`,
of the intrinsics of `gen_intrinsics.go`, and of the pieces of `gen_program.go`
they rest on, followed by theorems about them.

Conventions of the embedding.

* Go strings are Lean strings (sequences of Unicode code points): the strings
  the generator handles are identifiers and cty string values, which are valid
  UTF-8. The text a function writes to its `io.Writer` is the string it
  returns.
* A Go `panic` (`contract.Failf`, `contract.Assert`, a failed type assertion,
  an explicit `panic(v)`) is the error case of `Except Panic`; a function that
  returns normally yields `Except.ok text`.
* The generator's indentation (`g.Indent`) is passed explicitly; `g.Indented`
  extends it by four blanks for the enclosed calls.
* A `%v`/`%o` directive applied to an expression is a `Printer`: the recursive
  call of the formatter on that operand, waiting for the indentation, the verb
  and the precision of the directive.
-/

namespace Dotnet

/-! ## Panics -/

/-- The ways the generator can abort. -/
inductive Panic where
  /-- Failure raised by `contract.Failf`, with the head of its message. -/
  | failf (msg : String)
  /-- Failure raised by `contract.Assert`. -/
  | assertion
  /-- Explicit `panic(v)` of the source; `what` names the value. -/
  | explicit (what : String)
  /-- Failed type assertion `x.(T)`. -/
  | typeAssertion
  /-- Index out of range on a slice. -/
  | indexOutOfRange
  /-- Call of `cty.Value.AsString` on a value that is not a string. -/
  | notAString
  deriving DecidableEq, Repr

deriving instance DecidableEq for Except

/-! ## Types (`model.Type`) -/

/-- Element of the list `GetAnnotations()` returns for a type. -/
inductive SchemaAnn where
  /-- Value of Go type `*schema.ObjectType`, identified by its token. -/
  | objectType (token : String)
  /-- Value of any other Go type. -/
  | other (what : String)
  deriving DecidableEq, Repr

/-- The types of the model package the generator inspects. Object types carry
the schema annotations. -/
inductive Ty where
  | BoolType
  | NumberType
  | StringType
  | DynamicType
  | NoneType
  | ListType (elementType : Ty)
  | MapType (elementType : Ty)
  | TupleType (elementTypes : List Ty)
  | ObjectType (properties : List (String × Ty)) (annotations : List SchemaAnn)
  | OutputType (elementType : Ty)
  | PromiseType (elementType : Ty)
  | UnionType (elementTypes : List Ty)

/-- The method `GetAnnotations` of a type: the annotations of an object type,
none for the other types. -/
def Ty.GetAnnotations : Ty → List SchemaAnn
  | .ObjectType _ anns => anns
  | _ => []

/-- Test `t == model.StringType`. -/
def Ty.isStringType : Ty → Bool
  | .StringType => true
  | _ => false

/-- Source function `isOutputOrPromise`. -/
def isOutputOrPromise : Ty → Bool
  | .OutputType _ => true
  | .PromiseType _ => true
  | _ => false

/-! ## Values (`cty.Value`) and numbers -/

/-- Literal values: null, booleans, numbers (the finite values of a
`big.Float`, as rationals) and strings. -/
inductive Value where
  | null
  | bool (b : Bool)
  | number (q : ℚ)
  | string (s : String)
  deriving DecidableEq

/-- The method `cty.Value.AsString`: it panics on a value that is not a string. -/
def Value.AsString : Value → Except Panic String
  | .string s => .ok s
  | _ => .error .notAString

/-- Type of a literal, derived from its value. -/
def Value.Type : Value → Ty
  | .null => .NoneType
  | .bool _ => .BoolType
  | .number _ => .NumberType
  | .string _ => .StringType

/-- Result accuracy of a `big.Float` conversion. -/
inductive Accuracy where
  | Below
  | Exact
  | Above
  deriving DecidableEq, Repr

/-- Smallest `int64`. -/
def minInt64 : Int := -(2 ^ 63)

/-- Largest `int64`. -/
def maxInt64 : Int := 2 ^ 63 - 1

/-- The method `(*big.Float).Int64`: truncation towards zero, `Exact` exactly
for an integer of the `int64` range, saturating outside the range. -/
def bigFloatInt64 (x : ℚ) : Int × Accuracy :=
  if x < (minInt64 : ℚ) then (minInt64, .Above)
  else if (maxInt64 : ℚ) < x then (maxInt64, .Below)
  else if x.den = 1 then (x.num, .Exact)
  else if x.num < 0 then (-((-x.num) / (x.den : Int)), .Above)
  else (x.num / (x.den : Int), .Below)

/-- An IEEE-754 binary64 value: `mant * 2 ^ exp` with a sign, or an infinity.
Finite non-zero values are kept normalised (`2^52 ≤ mant < 2^53`, or
`exp = -1074` for subnormals). -/
inductive Float64 where
  | finite (neg : Bool) (mant : Nat) (exp : Int)
  | inf (neg : Bool)
  deriving DecidableEq, Repr

/-- Floor of the binary logarithm of `n` (zero for `n < 2`), by halving at most
`fuel` times: the result is exact for `n < 2 ^ (fuel + 1)`. -/
def log2Floor : Nat → Nat → Nat
  | 0, _ => 0
  | fuel + 1, n => if n < 2 then 0 else log2Floor fuel (n / 2) + 1

/-- Whether `2 ^ e * d ≤ n`. -/
def pow2MulLe (n d : Nat) (e : Int) : Bool :=
  if 0 ≤ e then decide (d * 2 ^ e.toNat ≤ n) else decide (d ≤ n * 2 ^ (-e).toNat)

/-- Round the positive rational `n / d` to the nearest binary64 (ties to even).
The binary logarithms are taken with 2200 halvings, beyond every exponent of a
binary64: a `big.Float` of cty's 512-bit precision has a numerator below
`2 ^ 512` or the denominator 1, and past the bound the result is an infinity
or zero whatever the estimate. -/
def roundFloat64 (neg : Bool) (n d : Nat) : Float64 :=
  let e0 : Int := (log2Floor 2200 n : Int) - (log2Floor 2200 d : Int)
  let e : Int := if pow2MulLe n d e0 then e0 else e0 - 1
  let s : Int := max (e - 52) (-1074)
  let num : Nat := if 0 ≤ s then n else n * 2 ^ (-s).toNat
  let den : Nat := if 0 ≤ s then d * 2 ^ s.toNat else d
  let q := num / den
  let r := num % den
  let m := if den < 2 * r then q + 1 else if 2 * r = den then (if q % 2 = 0 then q else q + 1) else q
  let (m, s) := if m = 2 ^ 53 then (2 ^ 52, s + 1) else (m, s)
  if 971 < s then .inf neg else .finite neg m s

/-- The method `(*big.Float).Float64`: the nearest binary64 value. -/
def bigFloatFloat64 (x : ℚ) : Float64 :=
  if x.num = 0 then .finite false 0 0
  else roundFloat64 (decide (x.num < 0)) x.num.natAbs x.den

/-- The verb `%d` of package fmt on an `int64`: decimal digits, with a
leading minus sign for a negative number. -/
def fmtD (i : Int) : String :=
  if i < 0 then "-" ++ Nat.repr i.natAbs else Nat.repr i.toNat

/-! ## Strings -/

/-- The call `strings.Contains(v, "\n")`. -/
def containsNewline (v : String) : Bool :=
  v.data.any (fun c => c == '\n')

/-- Modelled from the spec: `Title`, declared in the dotnet package outside the
files at hand, title-cases an identifier: the first character is upper-cased
and the rest is kept. -/
def Title (s : String) : String :=
  match s.data with
  | [] => ""
  | c :: cs => String.mk (c.toUpper :: cs)

/-- Source function `escapeString`: the loop over the characters of `v`
appends to the builder an escape character where one is due (a quote before a
quote in a verbatim string; a backslash before a quote or a backslash in a
regular string) and then the character itself. -/
def escapeString (v : String) (verbatim : Bool) : String :=
  String.mk (v.data.foldl (fun builder c =>
    let builder :=
      if verbatim then
        (if c = '"' then builder ++ ['"'] else builder)
      else
        (if c = '"' ∨ c = '\\' then builder ++ ['\\'] else builder)
    builder ++ [c]) [])

/-- Source function `genStringLiteral`. -/
def genStringLiteral (v : String) : String :=
  let newlines := containsNewline v
  if !newlines then
    "\"" ++ escapeString v false ++ "\""
  else
    "@\"" ++ escapeString v true ++ "\""

/-! ## Expressions (`model.Expression`) -/

/-- The operations of package hclsyntax; `other` stands for any other pointer
(nil included). -/
inductive Operation where
  | OpLogicalOr
  | OpLogicalAnd
  | OpLogicalNot
  | OpEqual
  | OpNotEqual
  | OpGreaterThan
  | OpGreaterThanOrEqual
  | OpLessThan
  | OpLessThanOrEqual
  | OpAdd
  | OpSubtract
  | OpMultiply
  | OpDivide
  | OpModulo
  | OpNegate
  | other
  deriving DecidableEq, Repr

/-- A source range (`hcl.Range`), without its byte offsets. -/
structure Range where
  filename : String
  startLine : Nat
  startColumn : Nat
  endLine : Nat
  endColumn : Nat
  deriving DecidableEq, Repr

/-- The zero value of `hcl.Range`. -/
def Range.zero : Range := ⟨"", 0, 0, 0, 0⟩

/-- The method `hcl.Range.String`. -/
def Range.String (r : Range) : String :=
  if r.startLine = r.endLine then
    r.filename ++ ":" ++ Nat.repr r.startLine ++ "," ++ Nat.repr r.startColumn ++ "-" ++
      Nat.repr r.endColumn
  else
    r.filename ++ ":" ++ Nat.repr r.startLine ++ "," ++ Nat.repr r.startColumn ++ "-" ++
      Nat.repr r.endLine ++ "," ++ Nat.repr r.endColumn

/-- One step of a traversal (`hcl.Traverser`). -/
inductive Traverser where
  | TraverseRoot (name : String)
  | TraverseAttr (name : String)
  | TraverseIndex (key : Value)
  | TraverseSplat

/-- One part of a bound traversal (`model.Traversable`): whether it is a
`*model.SplatVariable`, and the type `model.GetTraversableType` gives it. -/
structure Traversable where
  isSplatVariable : Bool
  type : Ty

mutual
/-- The expression tree. Every node but a literal and an anonymous function
stores its resolved type. `ForExpression` keeps only its type: the generator
prints none of its parts. -/
inductive Expression where
  | AnonymousFunctionExpression (parameters : List String) (body : Expression)
  | BinaryOpExpression (operation : Operation) (leftOperand rightOperand : Expression) (ty : Ty)
  | ConditionalExpression (condition trueResult falseResult : Expression) (ty : Ty)
  | ForExpression (ty : Ty)
  | FunctionCallExpression (name : String) (args : List Expression) (returnType : Ty)
      (srcRange : Option Range)
  | IndexExpression (collection key : Expression) (ty : Ty)
  | LiteralValueExpression (value : Value)
  | ObjectConsExpression (items : List ObjectConsItem) (ty : Ty)
  | RelativeTraversalExpression (source : Expression) (traversal : List Traverser)
      (parts : List Traversable)
  | ScopeTraversalExpression (rootName : String) (traversal : List Traverser)
      (parts : List Traversable)
  | SplatExpression (source each : Expression) (ty : Ty)
  | TemplateExpression (parts : List Expression) (ty : Ty)
  | TemplateJoinExpression (tuple : Expression) (ty : Ty)
  | TupleConsExpression (expressions : List Expression) (ty : Ty)
  | UnaryOpExpression (operation : Operation) (operand : Expression) (ty : Ty)
/-- One `key = value` item of an object construction. -/
inductive ObjectConsItem where
  | mk (key value : Expression)
end

/-- Type of the last part of a traversal. -/
def lastPartType (parts : List Traversable) : Ty :=
  match parts.getLast? with
  | some p => p.type
  | none => .DynamicType

/-- The method `Type()` of an expression. -/
def Expression.Type : Expression → Ty
  | .AnonymousFunctionExpression _ _ => .DynamicType
  | .BinaryOpExpression _ _ _ t => t
  | .ConditionalExpression _ _ _ t => t
  | .ForExpression t => t
  | .FunctionCallExpression _ _ t _ => t
  | .IndexExpression _ _ t => t
  | .LiteralValueExpression v => v.Type
  | .ObjectConsExpression _ t => t
  | .RelativeTraversalExpression _ _ parts => lastPartType parts
  | .ScopeTraversalExpression _ _ parts => lastPartType parts
  | .SplatExpression _ _ t => t
  | .TemplateExpression _ t => t
  | .TemplateJoinExpression _ t => t
  | .TupleConsExpression _ t => t
  | .UnaryOpExpression _ _ t => t

/-- Name of the await intrinsic (`gen_intrinsics.go`). -/
def intrinsicAwait : String := "__await"

/-- Name of the constructor intrinsic (`gen_intrinsics.go`). -/
def intrinsicConstructor : String := "__constructor"

/-- Name of the apply intrinsic (`hcl2.IntrinsicApply`). -/
def IntrinsicApply : String := "__apply"

/-- Name of the convert intrinsic (`hcl2.IntrinsicConvert`). -/
def IntrinsicConvert : String := "__convert"

/-- Source function `GetPrecedence`. -/
def GetPrecedence : Expression → Except Panic Nat
  | .ConditionalExpression _ _ _ _ => pure 4
  | .BinaryOpExpression op _ _ _ =>
    match op with
    | .OpLogicalOr => pure 5
    | .OpLogicalAnd => pure 6
    | .OpEqual | .OpNotEqual => pure 11
    | .OpGreaterThan | .OpGreaterThanOrEqual | .OpLessThan | .OpLessThanOrEqual => pure 12
    | .OpAdd | .OpSubtract => pure 14
    | .OpMultiply | .OpDivide | .OpModulo => pure 15
    | _ => throw (.failf "unexpected binary expression")
  | .UnaryOpExpression _ _ _ => pure 17
  | .FunctionCallExpression name _ _ _ =>
    if name = intrinsicAwait then pure 17 else pure 20
  | .ForExpression _ | .IndexExpression _ _ _ | .RelativeTraversalExpression _ _ _
  | .SplatExpression _ _ _ | .TemplateJoinExpression _ _ => pure 20
  | .AnonymousFunctionExpression _ _ | .LiteralValueExpression _ | .ObjectConsExpression _ _
  | .ScopeTraversalExpression _ _ _ | .TemplateExpression _ _ | .TupleConsExpression _ _ =>
    pure 22

/-! ## The formatter's directives -/

/-- The two verbs the formatter gives an expression: `%v`, and `%o` for a
right-hand operand. -/
inductive Verb where
  | v
  | o
  deriving DecidableEq, Repr

/-- A `%v`/`%o` directive applied to one expression: given the indentation in
force, the verb and the precision, the text it prints. -/
abbrev Printer := String → Verb → Nat → Except Panic String

/-- An expression handed to `Fgenf`: the expression, the directive that prints
it through the formatter, and the direct call
`genObjectConsExpression(w, arg, destType)` on it (meaningful for an object
construction). -/
structure Operand where
  expr : Expression
  print : Printer
  consAs : Ty → String → Except Panic String

/-- The kinds of conversion between two types (`model.ConversionKind`). -/
inductive ConversionKind where
  | NoConversion
  | UnsafeConversion
  | SafeConversion
  deriving DecidableEq, Repr

/-- What the generator takes from outside the files at hand: the `%g` verb of
package fmt on a binary64, the rendering `%q` gives a character that is not
printable, which characters above `~` are printable, the `%v` rendering of an
expression value inside a placeholder, `hcl2.DecomposeToken` (package, module,
member, diagnostics), the helper `namespaceName` over the namespace table of
a package, and of the model and hcl2 packages `ResolveOutputs`, the traversal
of a type by an attribute name, `RewriteConversions`, `RewriteApplies`,
`InputType` and `ConversionFrom` (destination first). -/
structure Env where
  fmtG : Float64 → String
  quoteNonPrintable : Char → String
  isPrintAbove : Char → Bool
  fmtExpr : Expression → String
  DecomposeToken : String → String × String × String × List String
  namespaces : String → String → Option String
  namespaceName : (String → Option String) → String → String
  ResolveOutputs : Ty → Ty
  Traverse : Ty → String → Ty
  RewriteConversions : Expression → Ty → Expression
  RewriteApplies : Expression → Expression
  InputType : Ty → Ty
  ConversionFrom : Ty → Ty → ConversionKind

/-- The slice index `xs[i]`. -/
def index {α : Type} (xs : List α) (i : Nat) : Except Panic α :=
  match xs.get? i with
  | some x => pure x
  | none => throw .indexOutOfRange

/-- The library call `strings.Replace(s, "/", ".", -1)`: every `/` of `s` becomes
`.`. -/
def replaceSlashes (s : String) : String :=
  String.mk (s.data.map (fun c => if c = '/' then '.' else c))

/-- One step of `g.Indented`: the indentation of the enclosed calls. -/
def indented (indent : String) : String := indent ++ "    "

/-- The verb `%q` on a string: between double quotes, a quote or a backslash
takes a backslash, a printable character stands for itself, any other is
escaped. -/
def fmtQ (env : Env) (s : String) : String :=
  "\"" ++ String.join (s.data.map (fun c =>
    if c = '"' ∨ c = '\\' then String.mk ['\\', c]
    else if (' ' ≤ c ∧ c ≤ '~') ∨ ('~' < c ∧ env.isPrintAbove c) then String.mk [c]
    else env.quoteNonPrintable c)) ++ "\""

/-- Source function `genNYI`, on the reason already formatted by `fmt.Sprintf`. -/
def genNYI (env : Env) (reason : String) : String :=
  "/* TODO (" ++ fmtQ env reason ++ ")*/"

/-! ## The expression generators -/

/-- Source function `GenAnonymousFunctionExpression`; `bindings` is its loop
over the parameters from index `i` on. -/
def GenAnonymousFunctionExpression.bindings (indent : String) : List String → Nat → String
  | [], _ => ""
  | p :: ps, i =>
    indent ++ "var " ++ p ++ " = values.Item" ++ Nat.repr (i + 1) ++ ";\n" ++
      GenAnonymousFunctionExpression.bindings indent ps (i + 1)

/-- Source function `GenAnonymousFunctionExpression`. -/
def GenAnonymousFunctionExpression (parameters : List String) (body : Printer)
    (indent : String) : Except Panic String :=
  match parameters with
  | [] => pure "()"
  | [p] => do
    let b ← body indent .v 0
    pure (p ++ " => " ++ b)
  | ps => do
    let b ← body (indented indent) .v 0
    pure ("values =>\n" ++ indent ++ "\x7b\n" ++
      GenAnonymousFunctionExpression.bindings (indented indent) ps 0 ++
      indented indent ++ "return " ++ b ++ ";\n" ++ indent ++ "\x7d")

/-- Source function `GenBinaryOpExpression`. -/
def GenBinaryOpExpression (expr : Expression) (operation : Operation)
    (leftOperand rightOperand : Printer) (indent : String) : Except Panic String := do
  let p ← GetPrecedence expr
  let (opstr, precedence) :=
    match operation with
    | .OpAdd => ("+", p)
    | .OpDivide => ("/", p)
    | .OpEqual => ("==", p)
    | .OpGreaterThan => (">", p)
    | .OpGreaterThanOrEqual => (">=", p)
    | .OpLessThan => ("<", p)
    | .OpLessThanOrEqual => ("<=", p)
    | .OpLogicalAnd => ("&&", p)
    | .OpLogicalOr => ("||", p)
    | .OpModulo => ("%", p)
    | .OpMultiply => ("*", p)
    | .OpNotEqual => ("!=", p)
    | .OpSubtract => ("-", p)
    | _ => (",", 1)
  let l ← leftOperand indent .v precedence
  let r ← rightOperand indent .o precedence
  pure (l ++ " " ++ opstr ++ " " ++ r)

/-- Source function `GenConditionalExpression`. -/
def GenConditionalExpression (condition trueResult falseResult : Printer)
    (indent : String) : Except Panic String := do
  let c ← condition indent .v 4
  let t ← trueResult indent .v 4
  let f ← falseResult indent .v 4
  pure (c ++ " ? " ++ t ++ " : " ++ f)

/-- Source function `GenForExpression`. -/
def GenForExpression (env : Env) : Except Panic String :=
  pure (genNYI env "ForExpression")

/-- Modelled from the spec: `hcl2.ParseApplyCall`, declared outside the files
at hand, takes a call of the apply intrinsic apart: its arguments are zero or
more reactive-wrapped expressions followed by exactly one continuation, an
anonymous function. Any other shape is a failure of the caller's invariant. -/
def ParseApplyCall (name : String) (args : List Operand) :
    Except Panic (List Operand × Operand) :=
  if name ≠ IntrinsicApply then throw .assertion
  else
    match args.getLast? with
    | none => throw .indexOutOfRange
    | some last =>
      match last.expr with
      | .AnonymousFunctionExpression _ _ => pure (args.dropLast, last)
      | _ => throw .typeAssertion

/-- Loop of `genApply` over the arguments of `Output.Tuple`, from index `i` on:
a separator before every argument but the first, then the argument. -/
def genApply.tupleArgs (indent : String) : List Operand → Nat → Except Panic String
  | [], _ => pure ""
  | o :: os, i => do
    let sep := if i > 0 then ", " else ""
    let t ← o.print indent .v 0
    let rest ← genApply.tupleArgs indent os (i + 1)
    pure (sep ++ t ++ rest)

/-- Source function `genApply`. -/
def genApply (name : String) (args : List Operand) (indent : String) :
    Except Panic String := do
  let (applyArgs, then_) ← ParseApplyCall name args
  if applyArgs.length = 1 then
    let a ← index applyArgs 0
    let head ←
      if isOutputOrPromise a.expr.Type then
        a.print indent .v 20
      else do
        let t ← a.print indent .v 20
        pure ("Output.Create(" ++ t ++ ")")
    let k ← then_.print indent .v 0
    pure (head ++ ".Apply(" ++ k ++ ")")
  else
    let ts ← genApply.tupleArgs indent applyArgs 0
    let k ← then_.print indent .v 0
    pure ("Output.Tuple(" ++ ts ++ ").Apply(" ++ k ++ ")")

/-- Source function `genRange`. -/
def genRange (env : Env) (call : Expression) (entries : Bool) : String :=
  genNYI env ("Range " ++ env.fmtExpr call ++ " " ++ (if entries then "true" else "false"))

/-- Source function `functionName`: the .NET package, module and name for the
token argument of an invoke, with the diagnostics of the decomposition. -/
def functionName (env : Env) (tokenArg : Expression) :
    Except Panic (String × String × String × List String) :=
  match tokenArg with
  | .TemplateExpression parts _ => do
    let part ← index parts 0
    match part with
    | .LiteralValueExpression value => do
      let token ← value.AsString
      let (pkg, module, member, diagnostics) := env.DecomposeToken token
      let namespaces := env.namespaces pkg
      let namespaceKey := replaceSlashes module
      let rootNamespace := env.namespaceName namespaces pkg
      let namespace_ := env.namespaceName namespaces namespaceKey
      pure (rootNamespace, namespace_, Title member, diagnostics)
    | _ => throw .typeAssertion
  | _ => throw .typeAssertion

/-- Body of the loop of `genObjectConsExpression`: the line of one item, at the
indentation inside the braces. -/
def genObjectConsExpression.item (indent : String) (key value : Operand) :
    Except Panic String :=
  match key.expr with
  | .LiteralValueExpression lit => do
    let name ← lit.AsString
    let v ← value.print indent .v 0
    pure (indent ++ Title name ++ " = " ++ v ++ ",\n")
  | _ => do
    let k ← key.print indent .v 0
    let v ← value.print indent .v 0
    pure (indent ++ "\x7b " ++ k ++ ", " ++ v ++ " \x7d,\n")

/-- Loop of `genObjectConsExpression` over the items. -/
def genObjectConsExpression.items (indent : String) :
    List (Operand × Operand) → Except Panic String
  | [] => pure ""
  | (key, value) :: rest => do
    let line ← genObjectConsExpression.item indent key value
    let more ← genObjectConsExpression.items indent rest
    pure (line ++ more)

/-- Source function `genObjectConsExpression`. -/
def genObjectConsExpression (items : List (Operand × Operand)) (destType : Ty)
    (indent : String) : Except Panic String :=
  if items.length = 0 then pure "\x7b\x7d"
  else do
    let annotations := destType.GetAnnotations
    if annotations.length = 1 then
      match annotations with
      | .objectType token :: _ => throw (.explicit token)
      | _ => throw .typeAssertion
    let body ← genObjectConsExpression.items (indented indent) items
    pure ("\n" ++ indent ++ "\x7b\n" ++ body ++ indent ++ "\x7d")

/-- Source function `GenFunctionCallExpression`. -/
def GenFunctionCallExpression (env : Env) (expr : Expression) (name : String)
    (args : List Operand) (returnType : Ty) (srcRange : Option Range) (indent : String) :
    Except Panic String :=
  if name = IntrinsicConvert then do
    let arg ← index args 0
    match arg.expr with
    | .ObjectConsExpression _ _ => arg.consAs returnType indent
    | _ => arg.print indent .v 0
  else if name = IntrinsicApply then
    genApply name args indent
  else if name = intrinsicAwait then do
    let arg ← index args 0
    let t ← arg.print indent .v 17
    pure ("await " ++ t)
  else if name = intrinsicConstructor then do
    let arg ← index args 0
    match arg.expr with
    | .LiteralValueExpression value => do
      let className ← value.AsString
      let obj ← index args 1
      let t ← obj.print indent .v 0
      pure ("new " ++ className ++ t)
    | _ => pure ""
  else if name = "element" then
    pure (genNYI env "element")
  else if name = "entries" then do
    let arg ← index args 0
    let head ←
      match arg.expr.Type with
      | .ListType _ | .TupleType _ =>
        match arg.expr with
        | .FunctionCallExpression "range" _ _ _ => pure (Sum.inl (genRange env arg.expr true))
        | _ => do
          let t ← arg.print indent .v 20
          pure (Sum.inr (t ++ ".Select((v, k)"))
      | .MapType _ | .ObjectType _ _ => pure (Sum.inr (genNYI env "MapOrObjectEntries"))
      | _ => pure (Sum.inr "")
    match head with
    | .inl returned => pure returned
    | .inr written => pure (written ++ " => new \x7b Key = k, Value = v \x7d)")
  else if name = "fileArchive" then do
    let arg ← index args 0
    let t ← arg.print indent .v 0
    pure ("new FileArchive(" ++ t ++ ")")
  else if name = "fileAsset" then do
    let arg ← index args 0
    let t ← arg.print indent .v 0
    pure ("new FileAsset(" ++ t ++ ")")
  else if name = "invoke" then do
    let tokenArg ← index args 0
    let (pkg, module, fn, diags) ← functionName env tokenArg.expr
    if diags.length ≠ 0 then throw .assertion
    let module := if module ≠ "" then "." ++ module else module
    let name := pkg ++ module ++ "." ++ fn
    let optionsBag ←
      if args.length = 3 then do
        let o ← index args 2
        let t ← o.print indent .v 0
        pure (", " ++ t)
      else pure ""
    let a ← index args 1
    let t ← a.print indent .v 0
    pure ("Output.Create(" ++ name ++ ".InvokeAsync(" ++ t ++ optionsBag ++ "))")
  else if name = "length" then do
    let arg ← index args 0
    let t ← arg.print indent .v 20
    pure (t ++ ".Length")
  else if name = "lookup" then
    pure (genNYI env "Lookup")
  else if name = "range" then
    pure (genRange env expr false)
  else if name = "readFile" then
    pure (genNYI env "ReadFile")
  else if name = "readDir" then do
    let arg ← index args 0
    let t ← arg.print indent .v 0
    pure ("Directory.GetFiles(" ++ t ++ ").Select(Path.GetFileName)")
  else if name = "split" then do
    let a1 ← index args 1
    let a0 ← index args 0
    let t1 ← a1.print indent .v 20
    let t0 ← a0.print indent .v 0
    pure (t1 ++ ".Split(" ++ t0 ++ ")")
  else if name = "toJSON" then do
    let arg ← index args 0
    let t ← arg.print indent .v 0
    pure ("JsonSerializer.Serialize(" ++ t ++ ")")
  else
    let rng := match srcRange with
      | some r => r
      | none => Range.zero
    pure (genNYI env ("FunctionCallExpression: " ++ name ++ " (" ++ rng.String ++ ")"))

/-- Source function `GenIndexExpression`. -/
def GenIndexExpression (collection key : Printer) (indent : String) : Except Panic String := do
  let c ← collection indent .v 20
  let k ← key indent .v 0
  pure (c ++ "[" ++ k ++ "]")

/-- Source function `GenLiteralValueExpression`. -/
def GenLiteralValueExpression (env : Env) (value : Value) : Except Panic String :=
  match value with
  | .bool b => pure (if b then "true" else "false")
  | .number bf =>
    let (i, acc) := bigFloatInt64 bf
    if acc = .Exact then pure (fmtD i)
    else pure (env.fmtG (bigFloatFloat64 bf))
  | .string s => pure (genStringLiteral s)
  | .null => throw (.failf "unexpected literal type in GenLiteralValueExpression")

/-- Source function `GenObjectConsExpression`. -/
def GenObjectConsExpression (items : List (Operand × Operand)) (ty : Ty) (indent : String) :
    Except Panic String :=
  genObjectConsExpression items ty indent

/-- Modelled from the spec: `model.IsOptionalType`, declared outside the files
at hand: a type is optional when a value of it may be absent, that is the none
type itself or a union with the none type among its members. -/
def IsOptionalType : Ty → Bool
  | .NoneType => true
  | .UnionType ts => ts.any (fun t => match t with
    | .NoneType => true
    | _ => false)
  | _ => false

/-- Source function `genRelativeTraversal`, from index `i` of the traversal on. -/
def genRelativeTraversal.loop (parts : List Traversable) :
    List Traverser → Nat → Except Panic String
  | [], _ => pure ""
  | part :: rest, i => do
    let key ←
      match part with
      | .TraverseAttr name => pure (Value.string name)
      | .TraverseIndex key => pure key
      | _ => throw (.failf "unexpected traversal part")
    let p ← index parts i
    let guard := if IsOptionalType p.type then "?" else ""
    let step ←
      match key with
      | .string name => pure ("." ++ Title name)
      | .number bf => pure ("[" ++ fmtD (bigFloatInt64 bf).1 ++ "]")
      | _ => throw (.failf "unexpected traversal key")
    let more ← genRelativeTraversal.loop parts rest (i + 1)
    pure (guard ++ step ++ more)

/-- Source function `genRelativeTraversal`. -/
def genRelativeTraversal (traversal : List Traverser) (parts : List Traversable) :
    Except Panic String :=
  genRelativeTraversal.loop parts traversal 0

/-- Source function `GenRelativeTraversalExpression`. -/
def GenRelativeTraversalExpression (source : Printer) (traversal : List Traverser)
    (parts : List Traversable) (indent : String) : Except Panic String := do
  let s ← source indent .v 20
  let t ← genRelativeTraversal traversal parts
  pure (s ++ t)

/-- The relative part of `hcl.Traversal.SimpleSplit`: what follows the root;
the method panics on a traversal that does not start with a root. -/
def simpleSplitRel : List Traverser → Except Panic (List Traverser)
  | .TraverseRoot _ :: rel => pure rel
  | _ => throw (.explicit "can't use SimpleSplit on a relative traversal")

/-- Source function `GenScopeTraversalExpression`. -/
def GenScopeTraversalExpression (rootName : String) (traversal : List Traverser)
    (parts : List Traversable) : Except Panic String := do
  let first ← index parts 0
  let rootName := if first.isSplatVariable then "__item" else rootName
  let rel ← simpleSplitRel traversal
  let t ← genRelativeTraversal rel parts
  pure (rootName ++ t)

/-- Source function `GenSplatExpression`. -/
def GenSplatExpression (source each : Printer) (indent : String) : Except Panic String := do
  let s ← source indent .v 20
  let e ← each indent .v 0
  pure (s ++ ".Select(v => v." ++ e ++ ")")

/-- The test of `GenTemplateExpression` on a part: a literal of string type,
with its string. -/
def stringLiteralPart : Expression → Option String
  | .LiteralValueExpression (.string s) => some s
  | _ => none

/-- First loop of `GenTemplateExpression`: the flags `multiLine` and
`hasExpressions` after the parts. -/
def GenTemplateExpression.flags (parts : List Operand) : Bool × Bool :=
  parts.foldl (fun (flags : Bool × Bool) part =>
    match stringLiteralPart part.expr with
    | some s => if containsNewline s then (true, flags.2) else flags
    | none => (flags.1, true)) (false, false)

/-- Second loop of `GenTemplateExpression`: the text between the quotes. -/
def GenTemplateExpression.body (multiLine : Bool) (indent : String) :
    List Operand → Except Panic String
  | [] => pure ""
  | part :: rest => do
    let t ←
      match stringLiteralPart part.expr with
      | some s => pure (escapeString s multiLine)
      | none => do
        let e ← part.print indent .v 0
        pure ("\x7b" ++ e ++ "\x7d")
    let more ← GenTemplateExpression.body multiLine indent rest
    pure (t ++ more)

/-- Source function `GenTemplateExpression`. -/
def GenTemplateExpression (parts : List Operand) (indent : String) : Except Panic String := do
  let (multiLine, hasExpressions) := GenTemplateExpression.flags parts
  let body ← GenTemplateExpression.body multiLine indent parts
  pure ((if multiLine then "@" else "") ++ (if hasExpressions then "$" else "") ++ "\"" ++
    body ++ "\"")

/-- Source function `GenTemplateJoinExpression`. -/
def GenTemplateJoinExpression (env : Env) : Except Panic String :=
  pure (genNYI env "TemplateJoinExpression")

/-- Loop of `GenTupleConsExpression` over the elements. -/
def GenTupleConsExpression.elements (indent : String) : List Operand → Except Panic String
  | [] => pure ""
  | v :: rest => do
    let t ← v.print indent .v 0
    let more ← GenTupleConsExpression.elements indent rest
    pure ("\n" ++ indent ++ t ++ "," ++ more)

/-- Source function `GenTupleConsExpression`. -/
def GenTupleConsExpression (expressions : List Operand) (indent : String) :
    Except Panic String :=
  match expressions with
  | [] => pure "\x7b\x7d"
  | _ => do
    let body ← GenTupleConsExpression.elements (indented indent) expressions
    pure ("\n" ++ indent ++ "\x7b" ++ body ++ "\n" ++ indent ++ "\x7d")

/-- Source function `GenUnaryOpExpression`. -/
def GenUnaryOpExpression (expr : Expression) (operation : Operation) (operand : Printer)
    (indent : String) : Except Panic String := do
  let precedence ← GetPrecedence expr
  let opstr :=
    match operation with
    | .OpLogicalNot => "!"
    | .OpNegate => "-"
    | _ => ""
  let t ← operand indent .v precedence
  pure (opstr ++ t)

/-- Modelled from the spec: the parenthesisation of `format.Formatter`, declared
outside the files at hand: an operand is parenthesised only if its own
precedence is lower than the position requires. The spec gives this one rule
for every operand, so the verb (`%v` or `%o`) does not enter it. -/
def parenthesise (precedence required : Nat) (text : String) : String :=
  if precedence < required then "(" ++ text ++ ")" else text

mutual
/-- Modelled from the spec: `format.Formatter`, declared outside the files at
hand, renders one expression for a `%v`/`%o` directive of `Fgenf`: it takes the
precedence of the expression from `GetPrecedence`, dispatches on the kind of
the expression to the generator's `Gen*` method, and parenthesises the result
when the precedence is lower than the precision of the directive. -/
def Formatter.gen (env : Env) : Expression → Printer
  | e, indent, _, required => do
    let precedence ← GetPrecedence e
    let text ←
      match e with
      | .AnonymousFunctionExpression parameters body =>
        GenAnonymousFunctionExpression parameters (Formatter.gen env body) indent
      | .BinaryOpExpression operation l r _ =>
        GenBinaryOpExpression e operation (Formatter.gen env l) (Formatter.gen env r) indent
      | .ConditionalExpression c t f _ =>
        GenConditionalExpression (Formatter.gen env c) (Formatter.gen env t)
          (Formatter.gen env f) indent
      | .ForExpression _ => GenForExpression env
      | .FunctionCallExpression name args returnType srcRange =>
        GenFunctionCallExpression env e name (Formatter.operands env args) returnType srcRange
          indent
      | .IndexExpression collection key _ =>
        GenIndexExpression (Formatter.gen env collection) (Formatter.gen env key) indent
      | .LiteralValueExpression value => GenLiteralValueExpression env value
      | .ObjectConsExpression items ty =>
        GenObjectConsExpression (Formatter.items env items) ty indent
      | .RelativeTraversalExpression source traversal parts =>
        GenRelativeTraversalExpression (Formatter.gen env source) traversal parts indent
      | .ScopeTraversalExpression rootName traversal parts =>
        GenScopeTraversalExpression rootName traversal parts
      | .SplatExpression source each _ =>
        GenSplatExpression (Formatter.gen env source) (Formatter.gen env each) indent
      | .TemplateExpression parts _ => GenTemplateExpression (Formatter.operands env parts) indent
      | .TemplateJoinExpression _ _ => GenTemplateJoinExpression env
      | .TupleConsExpression expressions _ =>
        GenTupleConsExpression (Formatter.operands env expressions) indent
      | .UnaryOpExpression operation operand _ =>
        GenUnaryOpExpression e operation (Formatter.gen env operand) indent
    pure (parenthesise precedence required text)
/-- The direct call `g.genObjectConsExpression(w, arg, destType)` on an argument
that is an object construction. -/
def Formatter.consAs (env : Env) : Expression → Ty → String → Except Panic String
  | .ObjectConsExpression items _, destType, indent =>
    genObjectConsExpression (Formatter.items env items) destType indent
  | _, _, _ => throw .typeAssertion
/-- The expressions of a slice, each with its directive. -/
def Formatter.operands (env : Env) : List Expression → List Operand
  | [] => []
  | e :: es => ⟨e, Formatter.gen env e, Formatter.consAs env e⟩ :: Formatter.operands env es
/-- The key and the value of an item, each with its directive. -/
def Formatter.item (env : Env) : ObjectConsItem → Operand × Operand
  | .mk key value =>
    (⟨key, Formatter.gen env key, Formatter.consAs env key⟩,
      ⟨value, Formatter.gen env value, Formatter.consAs env value⟩)
/-- The items of an object construction, each with its directives. -/
def Formatter.items (env : Env) : List ObjectConsItem → List (Operand × Operand)
  | [] => []
  | i :: is => Formatter.item env i :: Formatter.items env is
end

/-- An expression as `Fgenf` receives it. -/
def operand (env : Env) (e : Expression) : Operand :=
  ⟨e, Formatter.gen env e, Formatter.consAs env e⟩

/-- The text `Fgenf` prints for `%.Nv` on the expression `e`. -/
def print (env : Env) (e : Expression) (indent : String) (precision : Nat) :
    Except Panic String :=
  Formatter.gen env e indent .v precision

/-! ## The rewrite of object constructions -/

/-- Source function `newAwaitCall` (`gen_intrinsics.go`). -/
def newAwaitCall (promise : Expression) : Expression :=
  match promise.Type with
  | .PromiseType elementType =>
    .FunctionCallExpression intrinsicAwait [promise] elementType none
  | _ => promise

/-- Source function `newConstructorCall` (`gen_intrinsics.go`). -/
def newConstructorCall (obj : Expression) (name : String) : Expression :=
  .FunctionCallExpression intrinsicConstructor [.LiteralValueExpression (.string name), obj]
    obj.Type none

/-- The pre-order visitor of `applyConstructorCalls`: the value of
`currentName` after it has seen `expr`. -/
def applyConstructorCalls.pre (env : Env) (expr : Expression) (currentName : String) :
    Except Panic String :=
  match expr with
  | .FunctionCallExpression name args _ _ =>
    if name = "invoke" then do
      let tokenArg ← index args 0
      let (pkg, module, fn, diags) ← functionName env tokenArg
      if diags.length ≠ 0 then throw .assertion
      let module := if module ≠ "" then "." ++ Title module else module
      pure (pkg ++ module ++ "." ++ fn)
    else pure currentName
  | _ => pure currentName

/-- The post-order visitor of `applyConstructorCalls`. -/
def applyConstructorCalls.post (expr : Expression) (currentName : String) : Expression :=
  match expr with
  | .ObjectConsExpression _ _ => newConstructorCall expr (currentName ++ "Args")
  | _ => expr

mutual
/-- Modelled from the spec: `model.VisitExpression`, declared outside the files
at hand, is a full traversal of the tree: the pre-order visitor sees a node
before its children, the children are visited from left to right, and the
post-order visitor rebuilds the node after them. Here it runs with the two
visitors of `applyConstructorCalls`; the state is their shared variable
`currentName`. -/
def applyConstructorCalls.visit (env : Env) :
    Expression → String → Except Panic (Expression × String)
  | e, currentName => do
    let currentName ← applyConstructorCalls.pre env e currentName
    match e with
    | .AnonymousFunctionExpression parameters body => do
      let (body, currentName) ← applyConstructorCalls.visit env body currentName
      pure (applyConstructorCalls.post (.AnonymousFunctionExpression parameters body)
        currentName, currentName)
    | .BinaryOpExpression operation l r ty => do
      let (l, currentName) ← applyConstructorCalls.visit env l currentName
      let (r, currentName) ← applyConstructorCalls.visit env r currentName
      pure (applyConstructorCalls.post (.BinaryOpExpression operation l r ty) currentName,
        currentName)
    | .ConditionalExpression c t f ty => do
      let (c, currentName) ← applyConstructorCalls.visit env c currentName
      let (t, currentName) ← applyConstructorCalls.visit env t currentName
      let (f, currentName) ← applyConstructorCalls.visit env f currentName
      pure (applyConstructorCalls.post (.ConditionalExpression c t f ty) currentName,
        currentName)
    | .ForExpression ty => pure (applyConstructorCalls.post (.ForExpression ty) currentName,
        currentName)
    | .FunctionCallExpression name args returnType srcRange => do
      let (args, currentName) ← applyConstructorCalls.visitAll env args currentName
      pure (applyConstructorCalls.post (.FunctionCallExpression name args returnType srcRange)
        currentName, currentName)
    | .IndexExpression collection key ty => do
      let (collection, currentName) ← applyConstructorCalls.visit env collection currentName
      let (key, currentName) ← applyConstructorCalls.visit env key currentName
      pure (applyConstructorCalls.post (.IndexExpression collection key ty) currentName,
        currentName)
    | .LiteralValueExpression value =>
      pure (applyConstructorCalls.post (.LiteralValueExpression value) currentName,
        currentName)
    | .ObjectConsExpression items ty => do
      let (items, currentName) ← applyConstructorCalls.visitItems env items currentName
      pure (applyConstructorCalls.post (.ObjectConsExpression items ty) currentName,
        currentName)
    | .RelativeTraversalExpression source traversal parts => do
      let (source, currentName) ← applyConstructorCalls.visit env source currentName
      pure (applyConstructorCalls.post (.RelativeTraversalExpression source traversal parts)
        currentName, currentName)
    | .ScopeTraversalExpression rootName traversal parts =>
      pure (applyConstructorCalls.post (.ScopeTraversalExpression rootName traversal parts)
        currentName, currentName)
    | .SplatExpression source each ty => do
      let (source, currentName) ← applyConstructorCalls.visit env source currentName
      let (each, currentName) ← applyConstructorCalls.visit env each currentName
      pure (applyConstructorCalls.post (.SplatExpression source each ty) currentName,
        currentName)
    | .TemplateExpression parts ty => do
      let (parts, currentName) ← applyConstructorCalls.visitAll env parts currentName
      pure (applyConstructorCalls.post (.TemplateExpression parts ty) currentName,
        currentName)
    | .TemplateJoinExpression tuple ty => do
      let (tuple, currentName) ← applyConstructorCalls.visit env tuple currentName
      pure (applyConstructorCalls.post (.TemplateJoinExpression tuple ty) currentName,
        currentName)
    | .TupleConsExpression expressions ty => do
      let (expressions, currentName) ←
        applyConstructorCalls.visitAll env expressions currentName
      pure (applyConstructorCalls.post (.TupleConsExpression expressions ty) currentName,
        currentName)
    | .UnaryOpExpression operation operand ty => do
      let (operand, currentName) ← applyConstructorCalls.visit env operand currentName
      pure (applyConstructorCalls.post (.UnaryOpExpression operation operand ty) currentName,
        currentName)
/-- The visit of the expressions of a slice, from left to right. -/
def applyConstructorCalls.visitAll (env : Env) :
    List Expression → String → Except Panic (List Expression × String)
  | [], currentName => pure ([], currentName)
  | e :: es, currentName => do
    let (e, currentName) ← applyConstructorCalls.visit env e currentName
    let (es, currentName) ← applyConstructorCalls.visitAll env es currentName
    pure (e :: es, currentName)
/-- The visit of one item: the key, then the value. -/
def applyConstructorCalls.visitItem (env : Env) :
    ObjectConsItem → String → Except Panic (ObjectConsItem × String)
  | .mk key value, currentName => do
    let (key, currentName) ← applyConstructorCalls.visit env key currentName
    let (value, currentName) ← applyConstructorCalls.visit env value currentName
    pure (.mk key value, currentName)
/-- The visit of the items of an object construction, from first to last. -/
def applyConstructorCalls.visitItems (env : Env) :
    List ObjectConsItem → String → Except Panic (List ObjectConsItem × String)
  | [], currentName => pure ([], currentName)
  | i :: is, currentName => do
    let (i, currentName) ← applyConstructorCalls.visitItem env i currentName
    let (is, currentName) ← applyConstructorCalls.visitItems env is currentName
    pure (i :: is, currentName)
end

/-- Source function `applyConstructorCalls`. -/
def applyConstructorCalls (env : Env) (expr : Expression) (name : String) :
    Except Panic Expression := do
  let (expr, _) ← applyConstructorCalls.visit env expr name
  pure expr

/-- Source function `processExpression`. -/
def processExpression (env : Env) (expr : Expression) (name : String) :
    Except Panic Expression :=
  applyConstructorCalls env (env.RewriteApplies expr) name

/-! ## Programs (`hcl2.Program`) and the generator (`gen_program.go`) -/

/-- A piece of trivia attached to a token: a comment with its lines, or
anything else (whitespace). -/
inductive Trivia where
  | comment (lines : List String)
  | other
  deriving DecidableEq, Repr

/-- The trivia of a source token (`syntax.Token`). -/
structure TriviaToken where
  leadingTrivia : List Trivia
  trailingTrivia : List Trivia
  deriving DecidableEq, Repr

/-- A named input of a resource (`model.Attribute`). -/
structure Attribute where
  name : String
  value : Expression

/-- A resource declaration (`hcl2.Resource`): its logical name, its type token,
the type of its inputs, its inputs in order, the range expression of its
options when it has one, and the tokens of its definition whose trivia are
reproduced (the type, the labels, the braces). -/
structure Resource where
  name : String
  token : String
  inputType : Ty
  inputs : List Attribute
  range : Option Expression
  typeToken : TriviaToken
  labelTokens : List TriviaToken
  openBrace : TriviaToken
  closeBrace : TriviaToken

/-- A declaration node (`hcl2.Node`). -/
inductive Node where
  | Resource (r : Resource)
  | ConfigVariable (name : String) (defaultValue : Option Expression)
  | LocalVariable (name : String) (value : Expression)
  | OutputVariable (name : String) (value : Expression)

/-- A program: its nodes as declared (`program.Nodes`) and in the order
`hcl2.Linearize` gives them. -/
structure Program where
  nodes : List Node
  linearized : List Node

/-- Source function `genComment`. -/
def genComment (indent : String) : List String → String
  | [] => ""
  | l :: ls => indent ++ "//" ++ l ++ "\n" ++ genComment indent ls

/-- Loop of `genLeadingTrivia` and `genTrailingTrivia` over a list of trivia:
the comments are generated, the rest is skipped. -/
def genTriviaList (indent : String) : List Trivia → String
  | [] => ""
  | .comment lines :: ts => genComment indent lines ++ genTriviaList indent ts
  | .other :: ts => genTriviaList indent ts

/-- Source function `genLeadingTrivia`. -/
def genLeadingTrivia (indent : String) (token : TriviaToken) : String :=
  genTriviaList indent token.leadingTrivia

/-- Source function `genTrailingTrivia`. -/
def genTrailingTrivia (indent : String) (token : TriviaToken) : String :=
  genTriviaList indent token.trailingTrivia

/-- Source function `genTrivia`. -/
def genTrivia (indent : String) (token : TriviaToken) : String :=
  genLeadingTrivia indent token ++ genTrailingTrivia indent token

/-- Loop of `genResource` over the label tokens. -/
def genTriviaAll (indent : String) : List TriviaToken → String
  | [] => ""
  | t :: ts => genTrivia indent t ++ genTriviaAll indent ts

/-- Source function `resourceTypeName`. -/
def resourceTypeName (env : Env) (r : Resource) : String × String × String × List String :=
  let (pkg, module, member, diagnostics) := env.DecomposeToken r.token
  let (pkg, module, member) :=
    if pkg = "pulumi" ∧ module = "providers" then (member, "", "Provider")
    else (pkg, module, member)
  let namespaces := env.namespaces pkg
  let namespaceKey := replaceSlashes module
  let rootNamespace := env.namespaceName namespaces pkg
  let namespace_ := env.namespaceName namespaces namespaceKey
  (rootNamespace, namespace_, Title member, diagnostics)

/-- Source function `makeResourceName`. -/
def makeResourceName (baseName count : String) : String :=
  if count = "" then "\"" ++ baseName ++ "\""
  else "$\"" ++ baseName ++ "-\x7b" ++ count ++ "\x7d\""

/-- First loop of `genResource`: every input takes the conversion of its value
to the type its name has in the input type. -/
def genResource.convertInputs (env : Env) (inputType : Ty) : List Attribute → List Attribute
  | [] => []
  | input :: rest =>
    { input with value := env.RewriteConversions input.value (env.Traverse inputType input.name) } ::
      genResource.convertInputs env inputType rest

/-- Loop of the closure `instantiate` of `genResource` over the inputs, at the
indentation inside the braces. -/
def genResource.properties (env : Env) (qualifiedMemberName indent : String) :
    List Attribute → Except Panic String
  | [] => pure ""
  | attr :: rest => do
    let propertyName := Title attr.name
    let value ← processExpression env attr.value qualifiedMemberName
    let t ← print env value indent 0
    let more ← genResource.properties env qualifiedMemberName indent rest
    pure (indent ++ propertyName ++ " =" ++ " " ++ t ++ ",\n" ++ more)

/-- The closure `instantiate` of `genResource`. -/
def genResource.instantiate (env : Env) (qualifiedMemberName : String)
    (inputs : List Attribute) (indent resName : String) : Except Panic String := do
  let optionsBag := ""
  let properties ← genResource.properties env qualifiedMemberName (indented indent) inputs
  pure ("new " ++ qualifiedMemberName ++ "(" ++ resName ++ ", new " ++ qualifiedMemberName ++
    "Args\n" ++ indent ++ "\x7b\n" ++ properties ++ indent ++ "\x7d" ++ optionsBag ++ ")")

/-- Source function `genResource`: the text written, the diagnostics of the
generator afterwards, and the resource afterwards (its inputs hold the
converted values). -/
def genResource (env : Env) (diagnostics : List String) (indent : String) (r : Resource) :
    Except Panic (String × List String × Resource) := do
  let (pkg, module, memberName, diags) := resourceTypeName env r
  let diagnostics := diagnostics ++ diags
  let anns := (env.ResolveOutputs r.inputType).GetAnnotations
  if anns.length > 0 then throw (.explicit "anns")
  let inputs := genResource.convertInputs env r.inputType r.inputs
  let module := if module ≠ "" then "." ++ module else module
  let qualifiedMemberName := pkg ++ module ++ "." ++ memberName
  let name := r.name
  let head := genTrivia indent r.typeToken ++ genTriviaAll indent r.labelTokens ++
    genTrivia indent r.openBrace
  let body ←
    match r.range with
    | some range =>
      if env.ConversionFrom (env.InputType .BoolType) range.Type = .SafeConversion then
        pure (genNYI env ("OptionsRangeSafeConversion " ++ env.fmtExpr range))
      else do
        let rangeExpr := newAwaitCall range
        let declaration := indent ++ "var " ++ name ++ " = new List<" ++ qualifiedMemberName ++
          ">();\n"
        let loopHead ←
          if env.ConversionFrom (env.InputType .NumberType) rangeExpr.Type ≠ .NoConversion then
            pure (genNYI env ("OptionsRangeConversion " ++ env.fmtExpr rangeExpr))
          else do
            let entries := Expression.FunctionCallExpression "entries" [rangeExpr] .DynamicType
              none
            let t ← print env entries indent 0
            pure (indent ++ "foreach (var range in " ++ t ++ ")\n" ++ indent ++ "\x7b\n")
        let resName := makeResourceName name "range.Key"
        let instance_ ← genResource.instantiate env qualifiedMemberName inputs (indented indent)
          resName
        pure (declaration ++ loopHead ++ indented indent ++ name ++ ".Add(" ++ instance_ ++
          ");\n" ++ indent ++ "\x7d\n")
    | none => do
      let instance_ ← genResource.instantiate env qualifiedMemberName inputs indent
        (makeResourceName name "")
      pure (indent ++ "var " ++ name ++ " = " ++ instance_ ++ ";\n")
  pure (head ++ body ++ genTrivia indent r.closeBrace, diagnostics, { r with inputs := inputs })

/-- Source function `genConfigVariable`. -/
def genConfigVariable (env : Env) : String :=
  genNYI env "Config"

/-- Source function `genLocalVariable`. -/
def genLocalVariable (env : Env) (indent name : String) (value : Expression) :
    Except Panic String := do
  let e ← processExpression env value ""
  let t ← print env e indent 3
  pure (indent ++ "var " ++ name ++ " = " ++ t ++ ";\n")

/-- Source function `genOutputAssignment`. -/
def genOutputAssignment (env : Env) (indent name : String) (value : Expression) :
    Except Panic String := do
  let e ← processExpression env value ""
  let t ← print env e indent 3
  pure (indent ++ "this." ++ Title name ++ " = " ++ t ++ ";\n")

/-- Source function `genOutputProperty`. -/
def genOutputProperty (indent name : String) : String :=
  indent ++ "[Output(\"" ++ name ++ "\")] public Output<string> " ++ Title name ++
    " \x7b get; set; \x7d\n"

/-- Source function `genNode`: the text written, the diagnostics afterwards and
the node afterwards. -/
def genNode (env : Env) (diagnostics : List String) (indent : String) (n : Node) :
    Except Panic (String × List String × Node) :=
  match n with
  | .Resource r => do
    let (text, diagnostics, r) ← genResource env diagnostics indent r
    pure (text, diagnostics, .Resource r)
  | .ConfigVariable _ _ => pure (genConfigVariable env, diagnostics, n)
  | .LocalVariable name value => do
    let text ← genLocalVariable env indent name value
    pure (text, diagnostics, n)
  | .OutputVariable name value => do
    let text ← genOutputAssignment env indent name value
    pure (text, diagnostics, n)

/-- Loop of `GenerateProgram` over the linearized nodes. -/
def genNodes (env : Env) (diagnostics : List String) (indent : String) :
    List Node → Except Panic (String × List String × List Node)
  | [] => pure ("", diagnostics, [])
  | n :: ns => do
    let (text, diagnostics, n) ← genNode env diagnostics indent n
    let (more, diagnostics, ns) ← genNodes env diagnostics indent ns
    pure (text ++ more, diagnostics, n :: ns)

/-- Loop of `genPostamble` over the nodes: a property for every output
variable. -/
def genPostamble.properties (indent : String) : List Node → String
  | [] => ""
  | .OutputVariable name _ :: ns =>
    genOutputProperty indent name ++ genPostamble.properties indent ns
  | _ :: ns => genPostamble.properties indent ns

/-- Source function `genPostamble`. -/
def genPostamble (indent : String) (nodes : List Node) : String :=
  indented indent ++ "\x7d\n\n" ++ genPostamble.properties (indented indent) nodes ++ "\x7d\n"

/-- The table `functionNamespaces`: the namespaces a function requires; a name
without an entry has none. -/
def functionNamespaces (name : String) : List String :=
  if name = "readFile" then ["System.IO"]
  else if name = "readDir" then ["System.IO", "System.Linq"]
  else if name = "toJSON" then ["System.Text.Json"]
  else []

/-- Source function `genFunctionUsings`, on the name and the arguments of the
call. -/
def genFunctionUsings (env : Env) (name : String) (args : List Expression) :
    Except Panic (List String) :=
  if name ≠ "invoke" then pure (functionNamespaces name)
  else do
    let tokenArg ← index args 0
    let (pkg, _, _, diags) ← functionName env tokenArg
    if diags.length ≠ 0 then throw .assertion
    pure [pkg ++ " = Pulumi." ++ pkg]

mutual
/-- Modelled from the spec: the expressions a full traversal of the tree
(`model.VisitExpression`, declared outside the files at hand) hands to its
post-order visitor: every node of the tree, the children from left to right
before their parent. -/
def subexpressions : Expression → List Expression
  | .AnonymousFunctionExpression parameters body =>
    subexpressions body ++ [.AnonymousFunctionExpression parameters body]
  | .BinaryOpExpression operation l r ty =>
    subexpressions l ++ subexpressions r ++ [.BinaryOpExpression operation l r ty]
  | .ConditionalExpression c t f ty =>
    subexpressions c ++ subexpressions t ++ subexpressions f ++
      [.ConditionalExpression c t f ty]
  | .ForExpression ty => [.ForExpression ty]
  | .FunctionCallExpression name args returnType srcRange =>
    subexpressionsAll args ++ [.FunctionCallExpression name args returnType srcRange]
  | .IndexExpression collection key ty =>
    subexpressions collection ++ subexpressions key ++ [.IndexExpression collection key ty]
  | .LiteralValueExpression value => [.LiteralValueExpression value]
  | .ObjectConsExpression items ty =>
    subexpressionsItems items ++ [.ObjectConsExpression items ty]
  | .RelativeTraversalExpression source traversal parts =>
    subexpressions source ++ [.RelativeTraversalExpression source traversal parts]
  | .ScopeTraversalExpression rootName traversal parts =>
    [.ScopeTraversalExpression rootName traversal parts]
  | .SplatExpression source each ty =>
    subexpressions source ++ subexpressions each ++ [.SplatExpression source each ty]
  | .TemplateExpression parts ty => subexpressionsAll parts ++ [.TemplateExpression parts ty]
  | .TemplateJoinExpression tuple ty =>
    subexpressions tuple ++ [.TemplateJoinExpression tuple ty]
  | .TupleConsExpression expressions ty =>
    subexpressionsAll expressions ++ [.TupleConsExpression expressions ty]
  | .UnaryOpExpression operation operand ty =>
    subexpressions operand ++ [.UnaryOpExpression operation operand ty]
/-- The nodes of the expressions of a slice, from left to right. -/
def subexpressionsAll : List Expression → List Expression
  | [] => []
  | e :: es => subexpressions e ++ subexpressionsAll es
/-- The nodes of one item: those of the key, then those of the value. -/
def subexpressionsItem : ObjectConsItem → List Expression
  | .mk key value => subexpressions key ++ subexpressions value
/-- The nodes of the items of an object construction, from first to last. -/
def subexpressionsItems : List ObjectConsItem → List Expression
  | [] => []
  | i :: is => subexpressionsItem i ++ subexpressionsItems is
end

/-- Loop of `Resource.expressions` over the inputs. -/
def Attribute.values : List Attribute → List Expression
  | [] => []
  | a :: as => a.value :: Attribute.values as

/-- Modelled from the spec: the expressions `Node.VisitExpressions` (declared
outside the files at hand) starts from: the inputs and the range of a resource,
the default of a configuration variable, the value of a local or an output
variable. -/
def Node.expressions : Node → List Expression
  | .Resource r =>
    Attribute.values r.inputs ++ (match r.range with | some e => [e] | none => [])
  | .ConfigVariable _ none => []
  | .ConfigVariable _ (some e) => [e]
  | .LocalVariable _ value => [value]
  | .OutputVariable _ value => [value]

/-- Modelled from the spec: `codegen.StringSet` (declared outside the files at
hand) is a set of strings, here the list of its members without repetition;
this is `NewStringSet` on one value. -/
def NewStringSet (value : String) : List String := [value]

/-- Modelled from the spec: the method `Add` of `codegen.StringSet`: the set
with the value in it. -/
def StringSet.Add (set : List String) (value : String) : List String :=
  if value ∈ set then set else value :: set

/-- The library function `sort.Strings`: the strings in ascending order, compared
character by character. -/
def sortStrings (values : List String) : List String :=
  values.insertionSort (fun a b => a.data ≤ b.data)

/-- Modelled from the spec: the method `SortedValues` of `codegen.StringSet`:
the members in ascending order. -/
def StringSet.SortedValues (set : List String) : List String :=
  sortStrings set

/-- Inner loop of the visitor of `genPreamble`: the non-empty namespaces of a
call are added to the set. -/
def genPreamble.addAll (importSet : List String) : List String → List String
  | [] => importSet
  | i :: is =>
    genPreamble.addAll (if i ≠ "" then StringSet.Add importSet i else importSet) is

/-- The visitor of `genPreamble` over the nodes of the expressions of a
declaration: the namespaces of every function call are added to the set. -/
def genPreamble.visit (env : Env) (importSet : List String) :
    List Expression → Except Panic (List String)
  | [] => pure importSet
  | .FunctionCallExpression name args _ _ :: es => do
    let usings ← genFunctionUsings env name args
    genPreamble.visit env (genPreamble.addAll importSet usings) es
  | _ :: es => genPreamble.visit env importSet es

/-- Part of the loop body of `genPreamble` that concerns a resource: its package
and, when it has a range, the collections namespace. -/
def genPreamble.resourceImports (env : Env) (importSet : List String) : Node → List String
  | .Resource r =>
    let (pkg, _, _, _) := env.DecomposeToken r.token
    let importSet := StringSet.Add importSet (Title pkg ++ " = Pulumi." ++ Title pkg)
    match r.range with
    | some _ => StringSet.Add importSet "System.Collections.Generic"
    | none => importSet
  | _ => importSet

/-- First loop of `genPreamble`: the import set after the declarations. -/
def genPreamble.importSet (env : Env) (importSet : List String) :
    List Node → Except Panic (List String)
  | [] => pure importSet
  | n :: ns => do
    let importSet := genPreamble.resourceImports env importSet n
    let importSet ← genPreamble.visit env importSet (subexpressionsAll n.expressions)
    genPreamble.importSet env importSet ns

/-- Second loop of `genPreamble`: a line for every member of the set but
`Pulumi`. -/
def genPreamble.usingLines : List String → List String
  | [] => []
  | pkg :: pkgs =>
    if pkg = "Pulumi" then genPreamble.usingLines pkgs
    else ("using " ++ pkg ++ ";") :: genPreamble.usingLines pkgs

/-- The variable `imports` of `genPreamble` when it is written out: the import
lines of the program, sorted. -/
def genPreamble.imports (env : Env) (program : Program) : Except Panic (List String) := do
  let importSet ← genPreamble.importSet env (NewStringSet "Pulumi") program.nodes
  pure (sortStrings (genPreamble.usingLines (StringSet.SortedValues importSet)))

/-- The calls of `Fprintln` on a list of lines. -/
def printLines : List String → String
  | [] => ""
  | l :: ls => l ++ "\n" ++ printLines ls

/-- Source function `genPreamble`. -/
def genPreamble (env : Env) (program : Program) : Except Panic String := do
  let imports ← genPreamble.imports env program
  pure ("using Pulumi;" ++ "\n" ++ printLines imports ++ "\n" ++ "class MyStack : Stack\n" ++
    "\x7b\n" ++ "    public MyStack()\n" ++ "    \x7b\n")

/-- Source function `GenerateProgram`, after the import of the namespaces of the
packages (they are the table of the environment): the text of `MyStack.cs` and
the diagnostics. -/
def GenerateProgram (env : Env) (program : Program) : Except Panic (String × List String) := do
  let nodes := program.linearized
  let preamble ← genPreamble env program
  let (body, diagnostics, nodes) ← genNodes env [] (indented (indented "")) nodes
  pure (preamble ++ body ++ genPostamble "" nodes, diagnostics)

/-! ## Specification-side definitions

What the claims describe in their own words, to be compared with the source
functions above. -/

/-- Escaping as the specification words it: `esc` is inserted before every
character that `special` selects, and nothing else changes. -/
def insertEscapes (special : Char → Bool) (esc : Char) (v : List Char) : List Char :=
  v.flatMap (fun c => if special c then [esc, c] else [c])

/-- The characters a regular string escapes: the quote and the backslash. -/
def regularSpecial (c : Char) : Bool := decide (c = '"' ∨ c = '\\')

/-- The character a verbatim string escapes: the quote. -/
def verbatimSpecial (c : Char) : Bool := decide (c = '"')

/-- Un-escaping of a regular string: a backslash is removed and the character
after it is kept. -/
def unescapeRegular : List Char → List Char
  | [] => []
  | [c] => [c]
  | c :: d :: rest =>
    if c = '\\' then d :: unescapeRegular rest else c :: unescapeRegular (d :: rest)

/-- Un-escaping of a verbatim string: of two quotes in a row the first is
removed. -/
def unescapeVerbatim : List Char → List Char
  | [] => []
  | [c] => [c]
  | c :: d :: rest =>
    if c = '"' ∧ d = '"' then '"' :: unescapeVerbatim rest else c :: unescapeVerbatim (d :: rest)

/-- Scanner of the body of a regular C# string literal, from the character
after the opening quote: a backslash escapes the next character, the first
quote that is not escaped closes the literal. Returns the characters the
literal denotes and the text left after the closing quote. -/
def scanRegular : List Char → Option (List Char × List Char)
  | [] => none
  | [c] => if c = '"' then some ([], []) else none
  | c :: d :: rest =>
    if c = '"' then some ([], d :: rest)
    else if c = '\\' then (scanRegular rest).map (fun r => (d :: r.1, r.2))
    else (scanRegular (d :: rest)).map (fun r => (c :: r.1, r.2))

/-- Scanner of the body of a verbatim C# string literal, from the character
after the opening quote: two quotes in a row denote a quote, a quote alone
closes the literal. -/
def scanVerbatim : List Char → Option (List Char × List Char)
  | [] => none
  | [c] => if c = '"' then some ([], []) else none
  | c :: d :: rest =>
    if c = '"' then
      (if d = '"' then (scanVerbatim rest).map (fun r => ('"' :: r.1, r.2))
       else some ([], d :: rest))
    else (scanVerbatim (d :: rest)).map (fun r => (c :: r.1, r.2))

/-- The texts `t1, t2, ..., tn` with `, ` between two neighbours. -/
def commaSeparated : List String → String
  | [] => ""
  | [t] => t
  | t :: ts => t ++ ", " ++ commaSeparated ts

/-- The texts of the expressions `es`, each printed through the formatter with
the given precision, in order; the first failure aborts. -/
def printAll (env : Env) (indent : String) (precision : Nat) :
    List Expression → Except Panic (List String)
  | [] => pure []
  | e :: es => do
    let t ← print env e indent precision
    let ts ← printAll env indent precision es
    pure (t :: ts)

/-- An occurrence of the variable `name` of type `ty`: a scope traversal of the
root alone. -/
def varRef (name : String) (ty : Ty) : Expression :=
  .ScopeTraversalExpression name [.TraverseRoot name] [⟨false, ty⟩]

/-- A template has a newline fragment when one of its parts is a string literal
whose text contains a newline. -/
def hasNewlineFragment (parts : List Expression) : Prop :=
  ∃ e ∈ parts, ∃ s : String, e = .LiteralValueExpression (.string s) ∧ '\n' ∈ s.data

/-- A template has a non-literal part when one of its parts is not a string
literal. -/
def hasNonLiteralPart (parts : List Expression) : Prop :=
  ∃ e ∈ parts, ∀ s : String, e ≠ .LiteralValueExpression (.string s)

/-- The line of one item of an object construction as the specification words
it: `Title(key) = value,` for a key that is a string literal, and
`{ key, value },` for a key that is not a literal. A literal key that is not a
string has no name to title-case: printing it aborts. -/
def objectItemLine (env : Env) (indent : String) : ObjectConsItem → Except Panic String
  | .mk (.LiteralValueExpression (.string name)) value => do
    let v ← print env value indent 0
    pure (indent ++ Title name ++ " = " ++ v ++ ",\n")
  | .mk (.LiteralValueExpression _) _ => throw .notAString
  | .mk key value => do
    let k ← print env key indent 0
    let v ← print env value indent 0
    pure (indent ++ "\x7b " ++ k ++ ", " ++ v ++ " \x7d,\n")

/-- The lines of the items of an object construction, one for each item, in
the order of the items; the first failure aborts. -/
def objectItemLines (env : Env) (indent : String) :
    List ObjectConsItem → Except Panic (List String)
  | [] => pure []
  | item :: rest => do
    let line ← objectItemLine env indent item
    let lines ← objectItemLines env indent rest
    pure (line :: lines)

/-- The lines `l1, l2, ..., lk` one after the other. -/
def concatLines : List String → String
  | [] => ""
  | l :: ls => l ++ concatLines ls

/-- The components of a token between its colons; `current` holds the characters
of the component being read. -/
def splitColons : List Char → List Char → List String
  | [], current => [String.mk current]
  | c :: cs, current =>
    if c = ':' then String.mk current :: splitColons cs []
    else splitColons cs (current ++ [c])

/-- The conversions of the environment for worked examples: the input type of
bool converts safely from bool and the input type of number from number; no
other conversion is listed. -/
def Env.plainConversionFrom : Ty → Ty → ConversionKind
  | .UnionType [.BoolType, .OutputType .BoolType], .BoolType => .SafeConversion
  | .UnionType [.NumberType, .OutputType .NumberType], .NumberType => .SafeConversion
  | _, _ => .NoConversion

/-- An environment for worked examples: three-part tokens split at the colons,
no namespace table, names kept as they are; floating-point and unprintable
renderings are left empty; types and expressions are left as they are by the
rewrites, a traversal by name gives the dynamic type, the input type of `t` is
the union of `t` and its output type. -/
def Env.plain : Env where
  fmtG := fun _ => ""
  quoteNonPrintable := fun _ => ""
  isPrintAbove := fun _ => true
  fmtExpr := fun _ => ""
  DecomposeToken := fun token =>
    match splitColons token.data [] with
    | [pkg, module, member] => (pkg, module, member, [])
    | _ => ("", "", token, ["malformed token"])
  namespaces := fun _ _ => none
  namespaceName := fun _ name => name
  ResolveOutputs := fun t => t
  Traverse := fun _ _ => .DynamicType
  RewriteConversions := fun e _ => e
  RewriteApplies := fun e => e
  InputType := fun t => .UnionType [t, .OutputType t]
  ConversionFrom := Env.plainConversionFrom

/-- Modelled from the spec: `namespaceName`, declared outside the files at hand,
looks a name up in the namespace table of a package: the entry of the name
when the table has one, otherwise the name itself. -/
def namespaceName (namespaces : String → Option String) (name : String) : String :=
  match namespaces name with
  | some ns => ns
  | none => name

/-- A name resolved in a namespace table, as the specification words it: what
the table holds for the name when it has an entry for it, otherwise the name
itself. -/
def resolvedIn (namespaces : String → Option String) (name result : String) : Prop :=
  (∀ ns : String, namespaces name = some ns → result = ns) ∧
    (namespaces name = none → result = name)

/-- The environment for worked examples with a namespace table for the package
`pkg`: the package is `Pkg`, its module `index` has no namespace of its own;
a name without an entry is kept as it is. -/
def Env.withNamespaces : Env :=
  { Env.plain with
    namespaces := fun pkg name =>
      if pkg = "pkg" ∧ name = "pkg" then some "Pkg"
      else if pkg = "pkg" ∧ name = "index" then some ""
      else none
    namespaceName := Dotnet.namespaceName }

/-- Value of a sequence of decimal digits. -/
def decimalValue (cs : List Char) : Nat :=
  cs.foldl (fun acc c => 10 * acc + (c.toNat - '0'.toNat)) 0

/-- The decimal numeral of a natural number `m`, as a run of characters: a
non-empty run of decimal digits whose value is `m`, with no leading zero (a run
that starts with `0` is the single digit `0`). -/
def isDecimalNumeral (ds : List Char) (m : Nat) : Prop :=
  ds ≠ [] ∧ (∀ c ∈ ds, c.isDigit = true) ∧ (ds.head? = some '0' → ds = ['0']) ∧
    decimalValue ds = m

/-- The binding of the parameter `p` at position `i`, counted from 0: the
accessor is `Item` with the position counted from 1. -/
def parameterBinding (indent : String) (i : Nat) (p : String) : String :=
  indent ++ "var " ++ p ++ " = values.Item" ++ Nat.repr (i + 1) ++ ";\n"

/-- The bindings of the parameters `ps` the first of which has position `i`:
one for each parameter, in order. -/
def parameterBindings (indent : String) : Nat → List String → List String
  | _, [] => []
  | i, p :: ps => parameterBinding indent i p :: parameterBindings indent (i + 1) ps

/-- The access a path segment stands for, as the specification words it: the
named-property access `.` + Title(s) for a string key `s`, the index access
`[` + integer + `]` for a number key; a segment of another kind has none. -/
def stepText : Traverser → Option String
  | .TraverseAttr s => some ("." ++ Title s)
  | .TraverseIndex (.string s) => some ("." ++ Title s)
  | .TraverseIndex (.number q) => some ("[" ++ fmtD (bigFloatInt64 q).1 ++ "]")
  | _ => none

/-- The guard of a step: `?` exactly when the type is optional. -/
def guardText (t : Ty) : String :=
  if IsOptionalType t then "?" else ""

/-- The steps of a path over the parts it is bound to, position by position:
the guard of the part, then the access of the segment. -/
def traversalSteps : List Traverser → List Traversable → List String
  | seg :: segs, part :: parts =>
    (guardText part.type ++ (stepText seg).getD "") :: traversalSteps segs parts
  | _, _ => []

/-- The names of the dispatch table of `GenFunctionCallExpression`: the
intrinsics and the functions it has a case for. -/
def dispatchNames : List String :=
  [IntrinsicConvert, IntrinsicApply, intrinsicAwait, intrinsicConstructor, "element",
    "entries", "fileArchive", "fileAsset", "invoke", "length", "lookup", "range", "readFile",
    "readDir", "split", "toJSON"]

/-- A character the verb `%q` writes as it is: a printable character of the
ASCII range other than the double quote and the backslash. -/
abbrev plainChar (c : Char) : Prop :=
  ¬ (c = '"' ∨ c = '\\') ∧ (' ' ≤ c ∧ c ≤ '~')

/-- A character the verb `%q` writes as it is: a printable character, in the
ASCII range or above it, other than the double quote and the backslash. -/
abbrev writtenAsIs (env : Env) (c : Char) : Prop :=
  ¬ (c = '"' ∨ c = '\\') ∧ ((' ' ≤ c ∧ c ≤ '~') ∨ ('~' < c ∧ env.isPrintAbove c = true))

/-- The text `part` occurs in the text `text`. -/
abbrev occursIn (part text : String) : Prop :=
  part.data <:+: text.data

/-- A map or object type. -/
def isMapOrObjectType : Ty → Bool
  | .MapType _ => true
  | .ObjectType _ _ => true
  | _ => false

/-- A sequence type: a list or a tuple type. -/
def isSequenceType : Ty → Bool
  | .ListType _ => true
  | .TupleType _ => true
  | _ => false

/-- A call of the function `range`. -/
def isRangeCall : Expression → Bool
  | .FunctionCallExpression "range" _ _ _ => true
  | _ => false

/-- The qualified type name `Q` of a resource: its package, then its module when
it has one, then its title-cased member, joined by dots. -/
def qualifiedTypeName (env : Env) (r : Resource) : String :=
  (resourceTypeName env r).1 ++
    (if (resourceTypeName env r).2.1 ≠ "" then "." ++ (resourceTypeName env r).2.1 else "") ++
    "." ++ (resourceTypeName env r).2.2.1

/-- The line of one input of a resource: `Title(k) = ` + print(e) + `,`, where
the value printed is the input's value after the conversion to the type its
name has in the input type and after the rewrites of `processExpression` under
the qualified type name. -/
def resourceInputLine (env : Env) (inputType : Ty) (qualifiedName indent : String)
    (input : Attribute) : Except Panic String := do
  let value ← processExpression env
    (env.RewriteConversions input.value (env.Traverse inputType input.name)) qualifiedName
  let t ← print env value indent 0
  pure (indent ++ Title input.name ++ " = " ++ t ++ ",\n")

/-- The lines of the inputs of a resource, one for each input, in order; the
first failure aborts. -/
def resourceInputLines (env : Env) (inputType : Ty) (qualifiedName indent : String) :
    List Attribute → Except Panic (List String)
  | [] => pure []
  | input :: rest => do
    let line ← resourceInputLine env inputType qualifiedName indent input
    let lines ← resourceInputLines env inputType qualifiedName indent rest
    pure (line :: lines)

/-- The comments before the statement of a resource: those of its type token,
of its labels and of its opening brace. -/
def resourceComments (indent : String) (r : Resource) : String :=
  genTrivia indent r.typeToken ++ genTriviaAll indent r.labelTokens ++
    genTrivia indent r.openBrace

/-- The words of a text: its maximal runs of characters other than white space;
`current` holds the characters of the word being read. -/
def wordsFrom : List Char → List Char → List String
  | [], current => if current = [] then [] else [String.mk current]
  | c :: cs, current =>
    if c.isWhitespace then
      if current = [] then wordsFrom cs [] else String.mk current :: wordsFrom cs []
    else wordsFrom cs (current ++ [c])

/-- Two texts are the same up to white space when they have the same words. -/
abbrev sameUpToWhitespace (a b : String) : Prop :=
  wordsFrom a.data [] = wordsFrom b.data []

/-- The depth of open braces after the characters, from the depth `depth`; none
when a closing brace closes no earlier opening brace. -/
def braceDepth : List Char → Nat → Option Nat
  | [], depth => some depth
  | c :: cs, depth =>
    if c = '\x7b' then braceDepth cs (depth + 1)
    else if c = '\x7d' then
      match depth with
      | 0 => none
      | d + 1 => braceDepth cs d
    else braceDepth cs depth

/-- The braces of a text are balanced: every closing brace closes an earlier
opening brace, and none stays open. -/
abbrev bracesBalanced (text : String) : Prop :=
  braceDepth text.data 0 = some 0

/-- The resource `thing` of the worked examples: token `pkg:index:Thing`, the
one input `value = "hello"`, the given range, no comment. -/
def Resource.thing (range : Option Expression) : Resource :=
  { name := "thing", token := "pkg:index:Thing", inputType := .DynamicType,
    inputs := [⟨"value", .LiteralValueExpression (.string "hello")⟩], range := range,
    typeToken := ⟨[], []⟩, labelTokens := [⟨[], []⟩], openBrace := ⟨[], []⟩,
    closeBrace := ⟨[], []⟩ }

/-- The names of the output variables among the nodes, in the order of the
nodes. -/
def outputNames : List Node → List String
  | [] => []
  | .OutputVariable name _ :: ns => name :: outputNames ns
  | _ :: ns => outputNames ns

/-- The property declarations of the outputs named `names`: one line for each
name `v`, in order, declaring the property `Title(v)` annotated with
`[Output("v")]`. -/
def outputPropertyLines (indent : String) : List String → List String
  | [] => []
  | v :: vs =>
    (indent ++ "[Output(\"" ++ v ++ "\")] public Output<string> " ++ Title v ++
      " \x7b get; set; \x7d\n") :: outputPropertyLines indent vs

/-- The program of the worked example: the local variable `x = "hello"` and the
output `result` bound to `x`. -/
def Program.output : Program :=
  ⟨[.LocalVariable "x" (.LiteralValueExpression (.string "hello")),
      .OutputVariable "result" (varRef "x" .StringType)],
    [.LocalVariable "x" (.LiteralValueExpression (.string "hello")),
      .OutputVariable "result" (varRef "x" .StringType)]⟩

/-- The program of the worked example for the imports: two resources of the
package `pkg`, one of them ranged, and two calls that both need `System.IO`. -/
def Program.imports : Program :=
  ⟨[.Resource (Resource.thing none),
      .Resource (Resource.thing (some (varRef "xs" (.ListType .StringType)))),
      .LocalVariable "d" (.FunctionCallExpression "readDir"
        [.LiteralValueExpression (.string "d")] .DynamicType none),
      .LocalVariable "f" (.FunctionCallExpression "readFile"
        [.LiteralValueExpression (.string "f")] .DynamicType none)], []⟩

/-- The token argument of an `invoke` call: a template of the one fragment
`token`. -/
def tokenArgument (token : String) : Expression :=
  .TemplateExpression [.LiteralValueExpression (.string token)] .StringType

/-- The call `invoke(token, args...)`. -/
def invokeCall (token : String) (args : List Expression) : Expression :=
  .FunctionCallExpression "invoke" (tokenArgument token :: args) .DynamicType none

/-- The conversions of the environment `Env.converting`: an expression whose
type is the destination type, or whose destination is the dynamic type, stays
as it is; any other is wrapped in a call of the convert intrinsic. -/
def Env.convertingRewrite (e : Expression) (t : Ty) : Expression :=
  match t, e.Type with
  | .DynamicType, _ => e
  | .StringType, .StringType => e
  | .NumberType, .NumberType => e
  | .BoolType, .BoolType => e
  | _, _ => .FunctionCallExpression IntrinsicConvert [e] t none

/-- The traversal of the environment `Env.converting`: the type of the property
of that name in an object type, the dynamic type elsewhere. -/
def Env.convertingTraverse : Ty → String → Ty
  | .ObjectType properties _, name =>
    match properties.lookup name with
    | some t => t
    | none => .DynamicType
  | _, _ => .DynamicType

/-- The environment for worked examples in which conversions are inserted. -/
def Env.converting : Env :=
  { Env.plain with
    Traverse := Env.convertingTraverse
    RewriteConversions := Env.convertingRewrite }

/-- The resource of the worked example for conversions: the input `value` is the
number `1`, and the input type wants a string there. -/
def Resource.numbered : Resource :=
  { name := "thing", token := "pkg:index:Thing",
    inputType := .ObjectType [("value", .StringType)] [],
    inputs := [⟨"value", .LiteralValueExpression (.number 1)⟩], range := none,
    typeToken := ⟨[], []⟩, labelTokens := [⟨[], []⟩], openBrace := ⟨[], []⟩,
    closeBrace := ⟨[], []⟩ }

/-- The provider resource of the worked examples: token `pulumi:providers:aws`,
no input. -/
def Resource.provider : Resource :=
  { name := "prov", token := "pulumi:providers:aws", inputType := .DynamicType,
    inputs := [], range := none,
    typeToken := ⟨[], []⟩, labelTokens := [⟨[], []⟩], openBrace := ⟨[], []⟩,
    closeBrace := ⟨[], []⟩ }

/-- The operator table of `GenBinaryOpExpression`: the text of an operator that
has an entry. -/
def binaryOperatorText : Operation → Option String
  | .OpAdd => some "+"
  | .OpDivide => some "/"
  | .OpEqual => some "=="
  | .OpGreaterThan => some ">"
  | .OpGreaterThanOrEqual => some ">="
  | .OpLessThan => some "<"
  | .OpLessThanOrEqual => some "<="
  | .OpLogicalAnd => some "&&"
  | .OpLogicalOr => some "||"
  | .OpModulo => some "%"
  | .OpMultiply => some "*"
  | .OpNotEqual => some "!="
  | .OpSubtract => some "-"
  | _ => none

/-- The text of one part of a template between the quotes, as the specification
words it: the escaped fragment for a string literal, the printed part between
braces for any other part. -/
def templatePartText (env : Env) (multiLine : Bool) (indent : String) :
    Expression → Except Panic String
  | .LiteralValueExpression (.string s) => pure (escapeString s multiLine)
  | e => do
    let t ← print env e indent 0
    pure ("\x7b" ++ t ++ "\x7d")

/-- The texts of the parts of a template, one for each part, in order; the
first failure aborts. -/
def templatePartTexts (env : Env) (multiLine : Bool) (indent : String) :
    List Expression → Except Panic (List String)
  | [] => pure []
  | part :: rest => do
    let t ← templatePartText env multiLine indent part
    let ts ← templatePartTexts env multiLine indent rest
    pure (t :: ts)

/-! # Theorems -/

/-! ## Strings: `escapeString` and `genStringLiteral` -/

theorem escapeString.loop_eq (special : Char → Bool) (esc : Char) (v builder : List Char) :
    v.foldl (fun b c => (if special c = true then b ++ [esc] else b) ++ [c]) builder =
      builder ++ insertEscapes special esc v := by
  induction v generalizing builder with
  | nil => simp [insertEscapes]
  | cons c cs ih =>
    rw [List.foldl_cons, ih]
    by_cases h : special c = true <;> simp [insertEscapes, h]

theorem escapeString_regular_data (v : String) :
    (escapeString v false).data = insertEscapes regularSpecial '\\' v.data := by
  have h := escapeString.loop_eq regularSpecial '\\' v.data []
  simp only [List.nil_append, regularSpecial, decide_eq_true_eq] at h
  simp only [escapeString, Bool.false_eq_true, if_false]
  exact h

theorem escapeString_verbatim_data (v : String) :
    (escapeString v true).data = insertEscapes verbatimSpecial '"' v.data := by
  have h := escapeString.loop_eq verbatimSpecial '"' v.data []
  simp only [List.nil_append, verbatimSpecial, decide_eq_true_eq] at h
  simp only [escapeString, if_true]
  exact h

theorem insertEscapes_cons_special (special : Char → Bool) (esc c : Char) (cs : List Char)
    (h : special c = true) :
    insertEscapes special esc (c :: cs) = esc :: c :: insertEscapes special esc cs := by
  simp [insertEscapes, h]

theorem insertEscapes_cons_plain (special : Char → Bool) (esc c : Char) (cs : List Char)
    (h : special c = false) :
    insertEscapes special esc (c :: cs) = c :: insertEscapes special esc cs := by
  simp [insertEscapes, h]

theorem unescapeRegular_cons_cons (c d : Char) (rest : List Char) :
    unescapeRegular (c :: d :: rest) =
      if c = '\\' then d :: unescapeRegular rest else c :: unescapeRegular (d :: rest) := by
  simp [unescapeRegular]

theorem unescapeVerbatim_cons_cons (c d : Char) (rest : List Char) :
    unescapeVerbatim (c :: d :: rest) =
      if c = '"' ∧ d = '"' then '"' :: unescapeVerbatim rest
      else c :: unescapeVerbatim (d :: rest) := by
  simp [unescapeVerbatim]

theorem unescapeRegular_insertEscapes (v : List Char) :
    unescapeRegular (insertEscapes regularSpecial '\\' v) = v := by
  induction v with
  | nil => simp [insertEscapes, unescapeRegular]
  | cons c cs ih =>
    cases h : regularSpecial c with
    | true =>
      rw [insertEscapes_cons_special _ _ _ _ h, unescapeRegular_cons_cons]
      simp [ih]
    | false =>
      rw [insertEscapes_cons_plain _ _ _ _ h]
      have hc : c ≠ '\\' := by
        intro e
        simp [regularSpecial, e] at h
      cases hrest : insertEscapes regularSpecial '\\' cs with
      | nil =>
        rw [hrest] at ih
        simp only [unescapeRegular] at ih ⊢
        rw [← ih]
      | cons d ds =>
        rw [hrest] at ih
        rw [unescapeRegular_cons_cons]
        simp [hc, ih]

theorem unescapeVerbatim_insertEscapes (v : List Char) :
    unescapeVerbatim (insertEscapes verbatimSpecial '"' v) = v := by
  induction v with
  | nil => simp [insertEscapes, unescapeVerbatim]
  | cons c cs ih =>
    cases h : verbatimSpecial c with
    | true =>
      have hc : c = '"' := by simpa [verbatimSpecial] using h
      rw [insertEscapes_cons_special _ _ _ _ h, unescapeVerbatim_cons_cons]
      simp [hc, ih]
    | false =>
      rw [insertEscapes_cons_plain _ _ _ _ h]
      have hc : c ≠ '"' := by
        intro e
        simp [verbatimSpecial, e] at h
      cases hrest : insertEscapes verbatimSpecial '"' cs with
      | nil =>
        rw [hrest] at ih
        simp only [unescapeVerbatim] at ih ⊢
        rw [← ih]
      | cons d ds =>
        rw [hrest] at ih
        rw [unescapeVerbatim_cons_cons]
        simp [hc, ih]

/-- C7: `escapeString` is an invertible escaping. In the regular mode the result
is `v` with one backslash inserted before each double quote and each
backslash, in the verbatim mode it is `v` with each double quote doubled,
and nothing else changes; removing the escape characters gives `v` back, so
that distinct inputs have distinct outputs in both modes. -/
theorem escapeString_invertible (v : String) :
    (escapeString v false).data = insertEscapes regularSpecial '\\' v.data ∧
    (escapeString v true).data = insertEscapes verbatimSpecial '"' v.data ∧
    unescapeRegular (escapeString v false).data = v.data ∧
    unescapeVerbatim (escapeString v true).data = v.data ∧
    (∀ w : String, escapeString v false = escapeString w false → v = w) ∧
    (∀ w : String, escapeString v true = escapeString w true → v = w) := by
  have hr : ∀ u : String, unescapeRegular (escapeString u false).data = u.data := by
    intro u
    rw [escapeString_regular_data, unescapeRegular_insertEscapes]
  have hv : ∀ u : String, unescapeVerbatim (escapeString u true).data = u.data := by
    intro u
    rw [escapeString_verbatim_data, unescapeVerbatim_insertEscapes]
  refine ⟨escapeString_regular_data v, escapeString_verbatim_data v, hr v, hv v, ?_, ?_⟩
  · intro w h
    have := hr v
    rw [h, hr w] at this
    exact String.ext this.symm
  · intro w h
    have := hv v
    rw [h, hv w] at this
    exact String.ext this.symm

/-- C7 at a concrete input: the string `a"b\` in both modes. -/
theorem escapeString_invertible_witness :
    escapeString "a\"b\\" false = "a\\\"b\\\\" ∧
    escapeString "a\"b\\" true = "a\"\"b\\" ∧
    unescapeRegular (escapeString "a\"b\\" false).data = "a\"b\\".data ∧
    unescapeVerbatim (escapeString "a\"b\\" true).data = "a\"b\\".data :=
  ⟨by decide, by decide, (escapeString_invertible "a\"b\\").2.2.1,
    (escapeString_invertible "a\"b\\").2.2.2.1⟩

theorem scanRegular_quote (rest : List Char) : scanRegular ('"' :: rest) = some ([], rest) := by
  cases rest <;> simp [scanRegular]

theorem scanRegular_escaped (c : Char) (rest : List Char) :
    scanRegular ('\\' :: c :: rest) = (scanRegular rest).map (fun r => (c :: r.1, r.2)) := by
  simp [scanRegular]

theorem scanRegular_plain (c d : Char) (rest : List Char) (h : regularSpecial c = false) :
    scanRegular (c :: d :: rest) = (scanRegular (d :: rest)).map (fun r => (c :: r.1, r.2)) := by
  have h1 : c ≠ '"' := by
    intro e
    simp [regularSpecial, e] at h
  have h2 : c ≠ '\\' := by
    intro e
    simp [regularSpecial, e] at h
  simp [scanRegular, h1, h2]

theorem scanRegular_insertEscapes (v rest : List Char) :
    scanRegular (insertEscapes regularSpecial '\\' v ++ '"' :: rest) = some (v, rest) := by
  induction v with
  | nil => simpa [insertEscapes] using scanRegular_quote rest
  | cons c cs ih =>
    cases h : regularSpecial c with
    | true =>
      rw [insertEscapes_cons_special _ _ _ _ h]
      simp only [List.cons_append]
      rw [scanRegular_escaped, ih]
      rfl
    | false =>
      rw [insertEscapes_cons_plain _ _ _ _ h]
      simp only [List.cons_append]
      cases htail : insertEscapes regularSpecial '\\' cs ++ '"' :: rest with
      | nil => simp at htail
      | cons d ds =>
        rw [htail] at ih
        rw [scanRegular_plain c d ds h, ih]
        rfl

theorem scanVerbatim_doubled (rest : List Char) :
    scanVerbatim ('"' :: '"' :: rest) = (scanVerbatim rest).map (fun r => ('"' :: r.1, r.2)) := by
  simp [scanVerbatim]

theorem scanVerbatim_plain (c d : Char) (rest : List Char) (h : verbatimSpecial c = false) :
    scanVerbatim (c :: d :: rest) = (scanVerbatim (d :: rest)).map (fun r => (c :: r.1, r.2)) := by
  have h1 : c ≠ '"' := by
    intro e
    simp [verbatimSpecial, e] at h
  simp [scanVerbatim, h1]

theorem scanVerbatim_insertEscapes (v : List Char) :
    scanVerbatim (insertEscapes verbatimSpecial '"' v ++ ['"']) = some (v, []) := by
  induction v with
  | nil => simp [insertEscapes, scanVerbatim]
  | cons c cs ih =>
    cases h : verbatimSpecial c with
    | true =>
      have hc : c = '"' := by simpa [verbatimSpecial] using h
      rw [insertEscapes_cons_special _ _ _ _ h]
      simp only [List.cons_append]
      rw [hc, scanVerbatim_doubled, ih]
      rfl
    | false =>
      rw [insertEscapes_cons_plain _ _ _ _ h]
      simp only [List.cons_append]
      cases htail : insertEscapes verbatimSpecial '"' cs ++ ['"'] with
      | nil => simp at htail
      | cons d ds =>
        rw [htail] at ih
        rw [scanVerbatim_plain c d ds h, ih]
        rfl

theorem containsNewline_iff (v : String) : containsNewline v = true ↔ '\n' ∈ v.data := by
  simp [containsNewline, List.any_eq_true]

/-- C8: `genStringLiteral` on a string without a newline emits the regular
literal, a quote, `escapeString(v, false)` and a quote; on a string with a
newline it emits the verbatim literal, `@`, a quote, `escapeString(v, true)`
and a quote. In both, scanning the text after the opening quote by the rules
of the literal meets its first unescaped quote at the very end, and the
characters read up to there are those of `v`. -/
theorem genStringLiteral_spec (v : String) :
    ('\n' ∉ v.data →
      genStringLiteral v = "\"" ++ escapeString v false ++ "\"" ∧
      ∃ body, (genStringLiteral v).data = '"' :: body ∧ scanRegular body = some (v.data, [])) ∧
    ('\n' ∈ v.data →
      genStringLiteral v = "@\"" ++ escapeString v true ++ "\"" ∧
      ∃ body, (genStringLiteral v).data = '@' :: '"' :: body ∧
        scanVerbatim body = some (v.data, [])) := by
  constructor
  · intro h
    have hn : containsNewline v = false := by
      rw [← Bool.not_eq_true, containsNewline_iff]
      exact h
    have he : genStringLiteral v = "\"" ++ escapeString v false ++ "\"" := by
      simp [genStringLiteral, hn]
    refine ⟨he, (escapeString v false).data ++ ['"'], ?_, ?_⟩
    · rw [he]
      simp [String.data_append]
    · rw [escapeString_regular_data]
      exact scanRegular_insertEscapes v.data []
  · intro h
    have hn : containsNewline v = true := (containsNewline_iff v).2 h
    have he : genStringLiteral v = "@\"" ++ escapeString v true ++ "\"" := by
      simp [genStringLiteral, hn]
    refine ⟨he, (escapeString v true).data ++ ['"'], ?_, ?_⟩
    · rw [he]
      simp [String.data_append]
    · rw [escapeString_verbatim_data]
      exact scanVerbatim_insertEscapes v.data

/-- C8 at concrete inputs: a string with a quote and a backslash, and a string
with a newline and a quote. -/
theorem genStringLiteral_spec_witness :
    genStringLiteral "a\"b\\" = "\"a\\\"b\\\\\"" ∧
    scanRegular ['a', '\\', '"', 'b', '\\', '\\', '"'] = some ("a\"b\\".data, []) ∧
    genStringLiteral "a\n\"b" = "@\"a\n\"\"b\"" ∧
    scanVerbatim ['a', '\n', '"', '"', 'b', '"'] = some ("a\n\"b".data, []) :=
  ⟨((genStringLiteral_spec "a\"b\\").1 (by decide)).1, by decide,
    ((genStringLiteral_spec "a\n\"b").2 (by decide)).1, by decide⟩

/-! ## Number literals -/

theorem digitChar_decimal (k : Nat) (h : k < 10) :
    (Nat.digitChar k).isDigit = true ∧ (Nat.digitChar k).toNat - '0'.toNat = k := by
  interval_cases k <;> decide

theorem decimalValue_append_singleton (pre : List Char) (d : Char) :
    decimalValue (pre ++ [d]) = 10 * decimalValue pre + (d.toNat - '0'.toNat) := by
  simp [decimalValue, List.foldl_append]

theorem toDigitsCore_decimal (fuel : Nat) :
    ∀ (n : Nat) (ds : List Char), n < fuel →
      ∃ pre, Nat.toDigitsCore 10 fuel n ds = pre ++ ds ∧ pre ≠ [] ∧
        (∀ c ∈ pre, c.isDigit = true) ∧ decimalValue pre = n := by
  induction fuel with
  | zero => intro n ds h; omega
  | succ fuel ih =>
    intro n ds h
    have hd := digitChar_decimal (n % 10) (Nat.mod_lt n (by decide))
    by_cases hq : n / 10 = 0
    · refine ⟨[Nat.digitChar (n % 10)], ?_, by simp, ?_, ?_⟩
      · simp [Nat.toDigitsCore, hq]
      · intro c hc
        simp only [List.mem_singleton] at hc
        rw [hc]
        exact hd.1
      · have hlt : n < 10 := by omega
        simp only [decimalValue, List.foldl_cons, List.foldl_nil, Nat.mul_zero, Nat.zero_add]
        rw [hd.2]
        exact Nat.mod_eq_of_lt hlt
    · have hlt : n / 10 < fuel := by omega
      obtain ⟨pre, h1, _, h3, h4⟩ := ih (n / 10) (Nat.digitChar (n % 10) :: ds) hlt
      refine ⟨pre ++ [Nat.digitChar (n % 10)], ?_, by simp, ?_, ?_⟩
      · simp [Nat.toDigitsCore, hq, h1]
      · intro c hc
        rcases List.mem_append.1 hc with hc | hc
        · exact h3 c hc
        · simp only [List.mem_singleton] at hc
          rw [hc]
          exact hd.1
      · rw [decimalValue_append_singleton, h4, hd.2]
        omega

theorem repr_decimal (n : Nat) :
    (Nat.repr n).data ≠ [] ∧ (∀ c ∈ (Nat.repr n).data, c.isDigit = true) ∧
      decimalValue (Nat.repr n).data = n := by
  obtain ⟨pre, h1, h2, h3, h4⟩ := toDigitsCore_decimal (n + 1) n [] (Nat.lt_succ_self n)
  have hdata : (Nat.repr n).data = pre := by
    simp [Nat.repr, Nat.toDigits, h1, List.asString]
  rw [hdata]
  exact ⟨h2, h3, h4⟩

theorem fmtD_decimal (i : Int) :
    ∃ ds : List Char, ds ≠ [] ∧ (∀ c ∈ ds, c.isDigit = true) ∧ decimalValue ds = i.natAbs ∧
      (fmtD i).data = if i < 0 then '-' :: ds else ds := by
  by_cases h : i < 0
  · obtain ⟨h1, h2, h3⟩ := repr_decimal i.natAbs
    refine ⟨(Nat.repr i.natAbs).data, h1, h2, h3, ?_⟩
    simp [fmtD, h, String.data_append]
  · obtain ⟨h1, h2, h3⟩ := repr_decimal i.toNat
    have ht : i.toNat = i.natAbs := by omega
    refine ⟨(Nat.repr i.toNat).data, h1, h2, ?_, ?_⟩
    · rw [h3, ht]
    · simp [fmtD, h]

theorem bigFloatInt64_intCast (n : Int) (hlo : minInt64 ≤ n) (hhi : n ≤ maxInt64) :
    bigFloatInt64 (n : ℚ) = (n, .Exact) := by
  have h1 : ¬ ((n : ℚ) < (minInt64 : ℚ)) := by
    rw [Int.cast_lt]
    omega
  have h2 : ¬ ((maxInt64 : ℚ) < (n : ℚ)) := by
    rw [Int.cast_lt]
    omega
  simp [bigFloatInt64, h1, h2]

theorem isDigit_bounds (c : Char) (h : c.isDigit = true) :
    '0'.toNat ≤ c.toNat ∧ c.toNat - '0'.toNat ≤ 9 := by
  simp only [Char.isDigit, Bool.and_eq_true, decide_eq_true_eq] at h
  have h1 : 48 ≤ c.val.toNat := h.1
  have h2 : c.val.toNat ≤ 57 := h.2
  have h0 : '0'.toNat = 48 := rfl
  have hc : c.toNat = c.val.toNat := rfl
  omega

theorem digit_eq_of_value (c d : Char) (hc : c.isDigit = true) (hd : d.isDigit = true)
    (h : c.toNat - '0'.toNat = d.toNat - '0'.toNat) : c = d := by
  have h1 := isDigit_bounds c hc
  have h2 := isDigit_bounds d hd
  have h3 : c.toNat = d.toNat := by omega
  apply Char.ext
  apply UInt32.ext
  exact h3

theorem decimalValue_foldl (cs : List Char) :
    ∀ acc : Nat,
      cs.foldl (fun acc c => 10 * acc + (c.toNat - '0'.toNat)) acc =
        acc * 10 ^ cs.length + decimalValue cs := by
  induction cs with
  | nil => intro acc; simp [decimalValue]
  | cons c cs ih =>
    intro acc
    have e1 := ih (10 * acc + (c.toNat - '0'.toNat))
    have e2 := ih (10 * 0 + (c.toNat - '0'.toNat))
    simp only [decimalValue, List.foldl_cons, List.length_cons] at *
    rw [e1, e2, Nat.pow_succ]
    ring

theorem decimalValue_cons (c : Char) (cs : List Char) :
    decimalValue (c :: cs) = (c.toNat - '0'.toNat) * 10 ^ cs.length + decimalValue cs := by
  have h := decimalValue_foldl cs (10 * 0 + (c.toNat - '0'.toNat))
  simp only [decimalValue, List.foldl_cons] at *
  rw [h]
  ring

theorem decimalValue_lt (cs : List Char) (h : ∀ c ∈ cs, c.isDigit = true) :
    decimalValue cs < 10 ^ cs.length := by
  induction cs with
  | nil => simp [decimalValue]
  | cons c cs ih =>
    have hc := (isDigit_bounds c (h c (List.mem_cons_self _ _))).2
    have hr := ih (fun d hd => h d (List.mem_cons_of_mem _ hd))
    rw [decimalValue_cons, List.length_cons, Nat.pow_succ]
    nlinarith

theorem digits_eq_of_value (cs : List Char) :
    ∀ ds : List Char, cs.length = ds.length → (∀ c ∈ cs, c.isDigit = true) →
      (∀ c ∈ ds, c.isDigit = true) → decimalValue cs = decimalValue ds → cs = ds := by
  induction cs with
  | nil =>
    intro ds hl _ _ _
    cases ds with
    | nil => rfl
    | cons d ds => simp at hl
  | cons c cs ih =>
    intro ds hl hc hd hv
    cases ds with
    | nil => simp at hl
    | cons d ds =>
      have hlen : cs.length = ds.length := by simpa using hl
      have hcs := fun x hx => hc x (List.mem_cons_of_mem _ hx)
      have hds := fun x hx => hd x (List.mem_cons_of_mem _ hx)
      have l1 := decimalValue_lt cs hcs
      have l2 := decimalValue_lt ds hds
      rw [decimalValue_cons, decimalValue_cons, hlen] at hv
      rw [hlen] at l1
      have hpos : 0 < 10 ^ ds.length := Nat.pow_pos (by decide)
      have hq : c.toNat - '0'.toNat = d.toNat - '0'.toNat := by
        have q1 : ((c.toNat - '0'.toNat) * 10 ^ ds.length + decimalValue cs) / 10 ^ ds.length =
            c.toNat - '0'.toNat := by
          rw [Nat.add_comm, Nat.add_mul_div_right _ _ hpos, Nat.div_eq_of_lt l1, Nat.zero_add]
        have q2 : ((d.toNat - '0'.toNat) * 10 ^ ds.length + decimalValue ds) / 10 ^ ds.length =
            d.toNat - '0'.toNat := by
          rw [Nat.add_comm, Nat.add_mul_div_right _ _ hpos, Nat.div_eq_of_lt l2, Nat.zero_add]
        rw [← q1, ← q2, hv]
      have hr : decimalValue cs = decimalValue ds := by
        rw [hq] at hv
        exact Nat.add_left_cancel hv
      rw [digit_eq_of_value c d (hc c (List.mem_cons_self _ _)) (hd d (List.mem_cons_self _ _)) hq,
        ih ds hlen hcs hds hr]

theorem decimalValue_ge (c : Char) (cs : List Char) (hc : c.isDigit = true) (h0 : c ≠ '0') :
    10 ^ cs.length ≤ decimalValue (c :: cs) := by
  have hb := isDigit_bounds c hc
  have h1 : 1 ≤ c.toNat - '0'.toNat := by
    by_contra hlt
    have hz : c.toNat - '0'.toNat = '0'.toNat - '0'.toNat := by omega
    exact h0 (digit_eq_of_value c '0' hc (by decide) hz)
  rw [decimalValue_cons]
  nlinarith [Nat.pow_pos (n := cs.length) (show 0 < 10 by decide)]

theorem isDecimalNumeral_unique (m : Nat) (cs ds : List Char) (hcs : isDecimalNumeral cs m)
    (hds : isDecimalNumeral ds m) : cs = ds := by
  obtain ⟨c1, c2, c3, c4⟩ := hcs
  obtain ⟨d1, d2, d3, d4⟩ := hds
  cases cs with
  | nil => exact absurd rfl c1
  | cons c cs =>
    cases ds with
    | nil => exact absurd rfl d1
    | cons d ds =>
      have hc := c2 c (List.mem_cons_self _ _)
      have hd := d2 d (List.mem_cons_self _ _)
      by_cases hc0 : c = '0'
      · have e1 : c :: cs = ['0'] := c3 (by simp [hc0])
        have hm : m = 0 := by rw [← c4, e1]; rfl
        by_cases hd0 : d = '0'
        · rw [e1, d3 (by simp [hd0])]
        · have := decimalValue_ge d ds hd hd0
          have hp : 0 < 10 ^ ds.length := Nat.pow_pos (by decide)
          omega
      · by_cases hd0 : d = '0'
        · have e2 : d :: ds = ['0'] := d3 (by simp [hd0])
          have hm : m = 0 := by rw [← d4, e2]; rfl
          have := decimalValue_ge c cs hc hc0
          have hp : 0 < 10 ^ cs.length := Nat.pow_pos (by decide)
          omega
        · have g1 := decimalValue_ge c cs hc hc0
          have g2 := decimalValue_ge d ds hd hd0
          have u1 := decimalValue_lt (c :: cs) c2
          have u2 := decimalValue_lt (d :: ds) d2
          rw [c4] at g1 u1
          rw [d4] at g2 u2
          have hlen : cs.length = ds.length := by
            rcases Nat.lt_trichotomy cs.length ds.length with hlt | heq | hgt
            · have : 10 ^ (c :: cs).length ≤ 10 ^ ds.length :=
                Nat.pow_le_pow_right (by decide) (by simpa using hlt)
              omega
            · exact heq
            · have : 10 ^ (d :: ds).length ≤ 10 ^ cs.length :=
                Nat.pow_le_pow_right (by decide) (by simpa using hgt)
              omega
          exact digits_eq_of_value (c :: cs) (d :: ds) (by simp [hlen]) c2 d2 (c4.trans d4.symm)

theorem digitChar_zero (k : Nat) (h : k < 10) (hz : Nat.digitChar k = '0') : k = 0 := by
  have hd := (digitChar_decimal k h).2
  rw [hz] at hd
  omega

theorem toDigitsCore_numeral (fuel : Nat) :
    ∀ (n : Nat) (ds : List Char), n < fuel →
      ∃ pre, Nat.toDigitsCore 10 fuel n ds = pre ++ ds ∧ isDecimalNumeral pre n := by
  induction fuel with
  | zero => intro n ds h; omega
  | succ fuel ih =>
    intro n ds h
    have hd := digitChar_decimal (n % 10) (Nat.mod_lt n (by decide))
    by_cases hq : n / 10 = 0
    · have hlt : n < 10 := by omega
      refine ⟨[Nat.digitChar (n % 10)], ?_, by simp, ?_, ?_, ?_⟩
      · simp [Nat.toDigitsCore, hq]
      · intro c hc
        simp only [List.mem_singleton] at hc
        rw [hc]
        exact hd.1
      · intro hz
        simp only [List.head?_cons, Option.some.injEq] at hz
        rw [hz]
      · simp only [decimalValue, List.foldl_cons, List.foldl_nil, Nat.mul_zero, Nat.zero_add]
        rw [hd.2]
        exact Nat.mod_eq_of_lt hlt
    · have hlt : n / 10 < fuel := by omega
      obtain ⟨pre, h1, h2, h3, h5, h4⟩ := ih (n / 10) (Nat.digitChar (n % 10) :: ds) hlt
      refine ⟨pre ++ [Nat.digitChar (n % 10)], ?_, by simp, ?_, ?_, ?_⟩
      · simp [Nat.toDigitsCore, hq, h1]
      · intro c hc
        rcases List.mem_append.1 hc with hc | hc
        · exact h3 c hc
        · simp only [List.mem_singleton] at hc
          rw [hc]
          exact hd.1
      · intro hz
        cases pre with
        | nil => exact absurd rfl h2
        | cons p ps =>
          have hp : (p :: ps) = ['0'] := h5 (by simpa using hz)
          rw [hp] at h4
          exact absurd h4.symm hq
      · rw [decimalValue_append_singleton, h4, hd.2]
        omega

theorem repr_numeral (n : Nat) : isDecimalNumeral (Nat.repr n).data n := by
  obtain ⟨pre, h1, h2⟩ := toDigitsCore_numeral (n + 1) n [] (Nat.lt_succ_self n)
  have hdata : (Nat.repr n).data = pre := by
    simp [Nat.repr, Nat.toDigits, h1, List.asString]
  rw [hdata]
  exact h2

theorem fmtD_numeral (i : Int) :
    ∃ ds : List Char, isDecimalNumeral ds i.natAbs ∧
      (fmtD i).data = if i < 0 then '-' :: ds else ds := by
  by_cases h : i < 0
  · refine ⟨(Nat.repr i.natAbs).data, repr_numeral i.natAbs, ?_⟩
    simp [fmtD, h, String.data_append]
  · have ht : i.toNat = i.natAbs := by omega
    refine ⟨(Nat.repr i.toNat).data, ?_, ?_⟩
    · rw [← ht]
      exact repr_numeral i.toNat
    · simp [fmtD, h]

/-- C5, amended: for every number literal whose value is an integer `n` of the
signed 64-bit range, `GenLiteralValueExpression` emits exactly the base-10
digits of `n`: a minus sign when `n` is negative, then the decimal numeral of
the magnitude of `n` (a non-empty run of decimal digits of that value with no
leading zero, which is the only such run), and nothing else: no decimal point,
no fractional suffix, no exponent. -/
theorem GenLiteralValueExpression_int64 (env : Env) (n : Int)
    (hlo : -(2 ^ 63) ≤ n) (hhi : n ≤ 2 ^ 63 - 1) :
    ∃ ds : List Char, ds ≠ [] ∧ (∀ c ∈ ds, c.isDigit = true) ∧
      (ds.head? = some '0' → ds = ['0']) ∧ decimalValue ds = n.natAbs ∧
      (∀ other : List Char, isDecimalNumeral other n.natAbs → other = ds) ∧
      GenLiteralValueExpression env (.number (n : ℚ)) =
        .ok (String.mk (if n < 0 then '-' :: ds else ds)) := by
  obtain ⟨ds, hnum, h4⟩ := fmtD_numeral n
  refine ⟨ds, hnum.1, hnum.2.1, hnum.2.2.1, hnum.2.2.2,
    fun other ho => isDecimalNumeral_unique n.natAbs other ds ho hnum, ?_⟩
  have hb := bigFloatInt64_intCast n hlo hhi
  have hs : fmtD n = String.mk (if n < 0 then '-' :: ds else ds) := String.ext h4
  simp [GenLiteralValueExpression, hb, hs, pure, Except.pure]

/-- C5 at concrete inputs: the literals 42, -7, 0 and the largest `int64`. -/
theorem GenLiteralValueExpression_int64_witness :
    (∀ env, GenLiteralValueExpression env (.number 42) = .ok "42") ∧
    (∀ env, GenLiteralValueExpression env (.number (-7)) = .ok "-7") ∧
    (∀ env, GenLiteralValueExpression env (.number 0) = .ok "0") ∧
    (∀ env, ∃ ds : List Char, ds ≠ [] ∧ (∀ c ∈ ds, c.isDigit = true) ∧
      (ds.head? = some '0' → ds = ['0']) ∧
      decimalValue ds = (9223372036854775807 : Int).natAbs ∧
      (∀ other : List Char,
        isDecimalNumeral other (9223372036854775807 : Int).natAbs → other = ds) ∧
      GenLiteralValueExpression env (.number ((9223372036854775807 : Int) : ℚ)) =
        .ok (String.mk (if (9223372036854775807 : Int) < 0 then '-' :: ds else ds))) :=
  ⟨fun _ => rfl, fun _ => rfl, fun _ => rfl,
    fun env => GenLiteralValueExpression_int64 env 9223372036854775807 (by decide) (by decide)⟩

/-- C5 fails beyond the signed 64-bit range: the integers `2^64` and `2^64 + 1`
are not exact `int64` values, both are rounded to the same binary64 and so
printed as the same text by the `%g` verb, whatever that text is; no rendering
of binary64 values makes both texts the digits of their integer. -/
theorem GenLiteralValueExpression_beyond_int64 :
    ¬ ∃ env : Env,
      GenLiteralValueExpression env (.number ((18446744073709551616 : Int) : ℚ)) =
        .ok "18446744073709551616" ∧
      GenLiteralValueExpression env (.number ((18446744073709551617 : Int) : ℚ)) =
        .ok "18446744073709551617" := by
  rintro ⟨env, h1, h2⟩
  have e1 : GenLiteralValueExpression env (.number ((18446744073709551616 : Int) : ℚ)) =
      .ok (env.fmtG (.finite false 4503599627370496 12)) := by
    have hi : bigFloatInt64 ((18446744073709551616 : Int) : ℚ) = (maxInt64, .Below) := by decide
    have hf : bigFloatFloat64 ((18446744073709551616 : Int) : ℚ) =
        .finite false 4503599627370496 12 := by decide
    simp only [GenLiteralValueExpression, hi, hf]
    rfl
  have e2 : GenLiteralValueExpression env (.number ((18446744073709551617 : Int) : ℚ)) =
      .ok (env.fmtG (.finite false 4503599627370496 12)) := by
    have hi : bigFloatInt64 ((18446744073709551617 : Int) : ℚ) = (maxInt64, .Below) := by decide
    have hf : bigFloatFloat64 ((18446744073709551617 : Int) : ℚ) =
        .finite false 4503599627370496 12 := by decide
    simp only [GenLiteralValueExpression, hi, hf]
    rfl
  rw [e1] at h1
  rw [e2] at h2
  have h3 := h1.symm.trans h2
  simp only [Except.ok.injEq] at h3
  exact absurd h3 (by decide)

/-! ## Precedences -/

/-- C3, amended: `GetPrecedence` is strictly increasing along the chain
conditional (4) < logical-or (5) < logical-and (6) < equality (11) <
relational (12) < additive (14) < multiplicative (15) < unary (17) <
function call (20) for every function call other than the await intrinsic,
which has the precedence of a unary operation (17); index access, relative
traversal and splat have 20, scope traversal has 22; operators of one class
have the same value. -/
theorem GetPrecedence_chain (l r c t f x : Expression) (ty : Ty) (op : Operation)
    (name : String) (args : List Expression) (rng : Option Range)
    (traversal : List Traverser) (parts : List Traversable)
    (hname : name ≠ intrinsicAwait) :
    GetPrecedence (.ConditionalExpression c t f ty) = .ok 4 ∧
    GetPrecedence (.BinaryOpExpression .OpLogicalOr l r ty) = .ok 5 ∧
    GetPrecedence (.BinaryOpExpression .OpLogicalAnd l r ty) = .ok 6 ∧
    GetPrecedence (.BinaryOpExpression .OpEqual l r ty) = .ok 11 ∧
    GetPrecedence (.BinaryOpExpression .OpNotEqual l r ty) = .ok 11 ∧
    GetPrecedence (.BinaryOpExpression .OpLessThan l r ty) = .ok 12 ∧
    GetPrecedence (.BinaryOpExpression .OpLessThanOrEqual l r ty) = .ok 12 ∧
    GetPrecedence (.BinaryOpExpression .OpGreaterThan l r ty) = .ok 12 ∧
    GetPrecedence (.BinaryOpExpression .OpGreaterThanOrEqual l r ty) = .ok 12 ∧
    GetPrecedence (.BinaryOpExpression .OpAdd l r ty) = .ok 14 ∧
    GetPrecedence (.BinaryOpExpression .OpSubtract l r ty) = .ok 14 ∧
    GetPrecedence (.BinaryOpExpression .OpMultiply l r ty) = .ok 15 ∧
    GetPrecedence (.BinaryOpExpression .OpDivide l r ty) = .ok 15 ∧
    GetPrecedence (.BinaryOpExpression .OpModulo l r ty) = .ok 15 ∧
    GetPrecedence (.UnaryOpExpression op x ty) = .ok 17 ∧
    GetPrecedence (.FunctionCallExpression intrinsicAwait args ty rng) = .ok 17 ∧
    GetPrecedence (.FunctionCallExpression name args ty rng) = .ok 20 ∧
    GetPrecedence (.IndexExpression l r ty) = .ok 20 ∧
    GetPrecedence (.RelativeTraversalExpression x traversal parts) = .ok 20 ∧
    GetPrecedence (.SplatExpression l r ty) = .ok 20 ∧
    GetPrecedence (.ScopeTraversalExpression name traversal parts) = .ok 22 := by
  simp [GetPrecedence, hname, pure, Except.pure]

/-- C3 at a concrete input: the call `length(x)` has precedence 20. -/
theorem GetPrecedence_chain_witness :
    GetPrecedence (.FunctionCallExpression "length"
      [.LiteralValueExpression (.string "x")] .NumberType none) = .ok 20 :=
  (GetPrecedence_chain (.LiteralValueExpression .null) (.LiteralValueExpression .null)
    (.LiteralValueExpression .null) (.LiteralValueExpression .null)
    (.LiteralValueExpression .null) (.LiteralValueExpression .null) .NumberType .OpNegate
    "length" [.LiteralValueExpression (.string "x")] none [] [] (by decide)).2.2.2.2.2.2.2.2.2.2.2.2.2.2.2.2.1

/-- C3 fails at the await intrinsic: a call of `__await` has the precedence of
a unary operation, 17, not a higher one. -/
theorem GetPrecedence_await_eq_unary :
    ∃ p q : Nat,
      GetPrecedence (.UnaryOpExpression .OpNegate (.LiteralValueExpression (.number 1))
        .NumberType) = .ok p ∧
      GetPrecedence (.FunctionCallExpression "__await" [.LiteralValueExpression (.number 1)]
        .NumberType none) = .ok q ∧
      ¬ p < q :=
  ⟨17, 17, by decide, by decide, by decide⟩

/-! ## The apply intrinsic -/

theorem Formatter.operands_eq_map (env : Env) (es : List Expression) :
    Formatter.operands env es = es.map (operand env) := by
  induction es with
  | nil => simp [Formatter.operands]
  | cons e es ih => simp [Formatter.operands, ih, operand]

theorem Formatter.items_eq_map (env : Env) (items : List ObjectConsItem) :
    Formatter.items env items = items.map (Formatter.item env) := by
  induction items with
  | nil => simp [Formatter.items]
  | cons i is ih => simp [Formatter.items, ih]

theorem ParseApplyCall_operands (env : Env) (args : List Expression)
    (parameters : List String) (body : Expression) :
    ParseApplyCall IntrinsicApply
        (Formatter.operands env (args ++ [.AnonymousFunctionExpression parameters body])) =
      .ok (args.map (operand env), operand env (.AnonymousFunctionExpression parameters body)) := by
  simp [ParseApplyCall, Formatter.operands_eq_map, operand, pure, Except.pure]

theorem commaSeparated_cons (t : String) (ts : List String) :
    commaSeparated (t :: ts) = t ++ ((if ts = [] then "" else ", ") ++ commaSeparated ts) := by
  cases ts with
  | nil => simp [commaSeparated]
  | cons u us => simp [commaSeparated, String.append_assoc]

theorem genApply.tupleArgs_eq (env : Env) (indent : String) (args : List Expression) :
    ∀ i : Nat, genApply.tupleArgs indent (args.map (operand env)) i =
      (printAll env indent 0 args).map
        (fun ts => (if i = 0 ∨ ts = [] then "" else ", ") ++ commaSeparated ts) := by
  induction args with
  | nil =>
    intro i
    simp [genApply.tupleArgs, printAll, commaSeparated, pure, Except.pure, Except.map]
  | cons a as ih =>
    intro i
    rw [List.map_cons, genApply.tupleArgs, ih (i + 1), printAll]
    have hp : (operand env a).print indent .v 0 = print env a indent 0 := rfl
    rw [hp]
    cases h1 : print env a indent 0 with
    | error e => simp [bind, Except.bind, Except.map]
    | ok t =>
      cases h2 : printAll env indent 0 as with
      | error e => simp [bind, Except.bind, Except.map]
      | ok ts =>
        simp only [bind, Except.bind, Except.map, pure, Except.pure]
        rw [commaSeparated_cons]
        by_cases hi : i = 0
        · by_cases hts : ts = [] <;> simp [hi, hts, String.append_assoc]
        · have hpos : i > 0 := Nat.pos_of_ne_zero hi
          by_cases hts : ts = [] <;> simp [hi, hpos, hts, String.append_assoc]

/-- C1: for a call of the apply intrinsic with `n ≥ 2` reactive arguments
`a1 .. an` followed by the continuation `f`, `genApply` emits
`Output.Tuple(` + print(a1) + `, ` + ... + `, ` + print(an) + `).Apply(` +
print(f) + `)`: each argument is printed once, in the original order (and the
call aborts exactly when printing one of them does). The same text is what the
formatter prints for the call expression. -/
theorem genApply_tuple (env : Env) (indent : String) (args : List Expression)
    (parameters : List String) (body : Expression) (ty : Ty) (rng : Option Range)
    (hn : 2 ≤ args.length) :
    genApply IntrinsicApply
        (Formatter.operands env (args ++ [.AnonymousFunctionExpression parameters body]))
        indent =
      (do
        let ts ← printAll env indent 0 args
        let k ← print env (.AnonymousFunctionExpression parameters body) indent 0
        pure ("Output.Tuple(" ++ commaSeparated ts ++ ").Apply(" ++ k ++ ")")) ∧
    print env (.FunctionCallExpression IntrinsicApply
        (args ++ [.AnonymousFunctionExpression parameters body]) ty rng) indent 0 =
      (do
        let ts ← printAll env indent 0 args
        let k ← print env (.AnonymousFunctionExpression parameters body) indent 0
        pure ("Output.Tuple(" ++ commaSeparated ts ++ ").Apply(" ++ k ++ ")")) := by
  have hlen : ¬ (args.map (operand env)).length = 1 := by
    rw [List.length_map]
    omega
  have h1 : genApply IntrinsicApply
        (Formatter.operands env (args ++ [.AnonymousFunctionExpression parameters body]))
        indent =
      (do
        let ts ← printAll env indent 0 args
        let k ← print env (.AnonymousFunctionExpression parameters body) indent 0
        pure ("Output.Tuple(" ++ commaSeparated ts ++ ").Apply(" ++ k ++ ")")) := by
    rw [genApply, ParseApplyCall_operands]
    simp only [bind, Except.bind, hlen, if_false]
    rw [genApply.tupleArgs_eq]
    cases printAll env indent 0 args with
    | error e => simp [Except.map]
    | ok ts => simp [Except.map, operand, print]
  refine ⟨h1, ?_⟩
  rw [← h1]
  simp only [print]
  rw [Formatter.gen]
  simp only [GetPrecedence, IntrinsicApply, intrinsicAwait, GenFunctionCallExpression,
    IntrinsicConvert]
  simp [parenthesise, bind, Except.bind, pure, Except.pure]
  cases genApply "__apply"
      (Formatter.operands env (args ++ [.AnonymousFunctionExpression parameters body]))
      indent <;> rfl

/-- C1 at concrete inputs: two and three arguments. -/
theorem genApply_tuple_witness :
    (∀ env : Env,
      print env (.FunctionCallExpression IntrinsicApply
        ([varRef "a" (.OutputType .StringType), varRef "b" (.OutputType .StringType)] ++
          [.AnonymousFunctionExpression ["x"] (varRef "x" .StringType)])
        (.OutputType .StringType) none) "" 0 =
      .ok "Output.Tuple(a, b).Apply(x => x)") ∧
    (∀ env : Env,
      genApply IntrinsicApply (Formatter.operands env
        ([varRef "a" (.OutputType .StringType), varRef "b" (.PromiseType .StringType),
            varRef "c" (.OutputType .StringType)] ++
          [.AnonymousFunctionExpression ["x"] (varRef "x" .StringType)])) "" =
      .ok "Output.Tuple(a, b, c).Apply(x => x)") :=
  ⟨fun env => (genApply_tuple env "" _ ["x"] (varRef "x" .StringType) (.OutputType .StringType)
      none (by decide)).2,
    fun env => (genApply_tuple env "" _ ["x"] (varRef "x" .StringType) .StringType none
      (by decide)).1⟩

theorem genApply_one (env : Env) (indent : String) (a : Expression)
    (parameters : List String) (body : Expression) :
    genApply IntrinsicApply
        (Formatter.operands env [a, .AnonymousFunctionExpression parameters body]) indent =
      (do
        let x ← print env a indent 20
        let k ← print env (.AnonymousFunctionExpression parameters body) indent 0
        pure ((if isOutputOrPromise a.Type = true then x else "Output.Create(" ++ x ++ ")") ++
          ".Apply(" ++ k ++ ")")) := by
  have hsplit : [a, .AnonymousFunctionExpression parameters body] =
      [a] ++ [.AnonymousFunctionExpression parameters body] := rfl
  rw [genApply, hsplit, ParseApplyCall_operands]
  simp only [bind, Except.bind, List.map_cons, List.map_nil, List.length_singleton, if_true,
    index, List.get?_cons_zero, pure, Except.pure]
  have hp : (operand env a).print indent .v 20 = print env a indent 20 := rfl
  have hk : (operand env (.AnonymousFunctionExpression parameters body)).print indent .v 0 =
      print env (.AnonymousFunctionExpression parameters body) indent 0 := rfl
  have he : (operand env a).expr = a := rfl
  rw [hp, hk, he]
  by_cases h : isOutputOrPromise a.Type = true
  · simp only [h, if_true]
  · simp only [h, if_false]
    cases print env a indent 20 <;> rfl

/-- C2, amended: for a call of the apply intrinsic with exactly one reactive
argument `a` and the continuation `f`, `genApply` passes `a` straight through
when its type is an output type and also when it is a promise type, emitting
print(a) + `.Apply(` + print(f) + `)`; it lifts the argument, emitting
`Output.Create(` + print(a) + `).Apply(` + print(f) + `)`, only when the type
of `a` is neither. The argument is printed at precedence 20. -/
theorem genApply_single (env : Env) (indent : String) (a : Expression)
    (parameters : List String) (body : Expression) :
    (∀ t, a.Type = .OutputType t →
      genApply IntrinsicApply
          (Formatter.operands env [a, .AnonymousFunctionExpression parameters body]) indent =
        (do
          let x ← print env a indent 20
          let k ← print env (.AnonymousFunctionExpression parameters body) indent 0
          pure (x ++ ".Apply(" ++ k ++ ")"))) ∧
    (∀ t, a.Type = .PromiseType t →
      genApply IntrinsicApply
          (Formatter.operands env [a, .AnonymousFunctionExpression parameters body]) indent =
        (do
          let x ← print env a indent 20
          let k ← print env (.AnonymousFunctionExpression parameters body) indent 0
          pure (x ++ ".Apply(" ++ k ++ ")"))) ∧
    (isOutputOrPromise a.Type = false →
      genApply IntrinsicApply
          (Formatter.operands env [a, .AnonymousFunctionExpression parameters body]) indent =
        (do
          let x ← print env a indent 20
          let k ← print env (.AnonymousFunctionExpression parameters body) indent 0
          pure ("Output.Create(" ++ x ++ ").Apply(" ++ k ++ ")"))) := by
  refine ⟨?_, ?_, ?_⟩
  · intro t ht
    rw [genApply_one]
    simp [ht, isOutputOrPromise]
  · intro t ht
    rw [genApply_one]
    simp [ht, isOutputOrPromise]
  · intro h
    rw [genApply_one]
    simp only [h, Bool.false_eq_true, if_false]
    cases print env a indent 20 with
    | error e => rfl
    | ok x =>
      cases print env (.AnonymousFunctionExpression parameters body) indent 0 with
      | error e => rfl
      | ok k =>
        simp only [bind, Except.bind, pure, Except.pure, String.append_assoc]
        rw [← String.append_assoc ")" ".Apply("]
        rfl

/-- C2 at concrete inputs: an output, a promise and a plain string. -/
theorem genApply_single_witness :
    (∀ env : Env, genApply IntrinsicApply (Formatter.operands env
        [varRef "a" (.OutputType .StringType),
          .AnonymousFunctionExpression ["x"] (varRef "x" .StringType)]) "" =
      .ok "a.Apply(x => x)") ∧
    (∀ env : Env, genApply IntrinsicApply (Formatter.operands env
        [varRef "p" (.PromiseType .StringType),
          .AnonymousFunctionExpression ["x"] (varRef "x" .StringType)]) "" =
      .ok "p.Apply(x => x)") ∧
    (∀ env : Env, genApply IntrinsicApply (Formatter.operands env
        [varRef "s" .StringType,
          .AnonymousFunctionExpression ["x"] (varRef "x" .StringType)]) "" =
      .ok "Output.Create(s).Apply(x => x)") :=
  ⟨fun env => (genApply_single env "" (varRef "a" (.OutputType .StringType)) ["x"]
      (varRef "x" .StringType)).1 .StringType rfl,
    fun env => (genApply_single env "" (varRef "p" (.PromiseType .StringType)) ["x"]
      (varRef "x" .StringType)).2.1 .StringType rfl,
    fun env => (genApply_single env "" (varRef "s" .StringType) ["x"]
      (varRef "x" .StringType)).2.2 rfl⟩

/-- C2 fails at a promise: an argument of promise type is not lifted with
`Output.Create`; it is printed as it stands. -/
theorem genApply_promise_not_lifted :
    ¬ ∃ env : Env, genApply IntrinsicApply (Formatter.operands env
        [varRef "p" (.PromiseType .StringType),
          .AnonymousFunctionExpression ["x"] (varRef "x" .StringType)]) "" =
      .ok "Output.Create(p).Apply(x => x)" := by
  rintro ⟨env, h⟩
  have h2 : genApply IntrinsicApply (Formatter.operands env
        [varRef "p" (.PromiseType .StringType),
          .AnonymousFunctionExpression ["x"] (varRef "x" .StringType)]) "" =
      .ok "p.Apply(x => x)" := rfl
  rw [h2] at h
  exact absurd h (by decide)

/-! ## Parentheses -/

theorem Formatter.gen_required (env : Env) (e : Expression) (indent : String) (verb : Verb)
    (required : Nat) :
    Formatter.gen env e indent verb required =
      (do
        let p ← GetPrecedence e
        let t ← print env e indent 0
        pure (parenthesise p required t)) := by
  simp only [print]
  rw [Formatter.gen, Formatter.gen]
  cases GetPrecedence e with
  | error err => rfl
  | ok p =>
    simp only [bind, Except.bind, pure, Except.pure, parenthesise, Nat.not_lt_zero, if_false]
    split <;> split <;> simp_all

theorem Formatter.gen_of_print (env : Env) (e : Expression) (indent : String) (verb : Verb)
    (required p : Nat) (t : String) (hp : GetPrecedence e = .ok p)
    (ht : print env e indent 0 = .ok t) :
    Formatter.gen env e indent verb required =
      .ok (if p < required then "(" ++ t ++ ")" else t) := by
  rw [Formatter.gen_required, hp, ht]
  rfl

theorem GenBinaryOpExpression_text (env : Env) (indent : String) (op : Operation)
    (l r : Expression) (ty : Ty) (p pl pr : Nat) (tl tr : String)
    (hp : GetPrecedence (.BinaryOpExpression op l r ty) = .ok p)
    (hpl : GetPrecedence l = .ok pl) (hpr : GetPrecedence r = .ok pr)
    (htl : print env l indent 0 = .ok tl) (htr : print env r indent 0 = .ok tr) :
    ∃ opstr : String,
      GenBinaryOpExpression (.BinaryOpExpression op l r ty) op (Formatter.gen env l)
          (Formatter.gen env r) indent =
        .ok ((if pl < p then "(" ++ tl ++ ")" else tl) ++ " " ++ opstr ++ " " ++
          (if pr < p then "(" ++ tr ++ ")" else tr)) := by
  have hl := fun verb req => Formatter.gen_of_print env l indent verb req pl tl hpl htl
  have hr := fun verb req => Formatter.gen_of_print env r indent verb req pr tr hpr htr
  simp only [GenBinaryOpExpression, hp, bind, Except.bind]
  cases op <;> simp [GetPrecedence, pure, Except.pure, throw, throwThe, MonadExceptOf.throw] at hp <;>
    (simp only [hl, hr, pure, Except.pure]; exact ⟨_, rfl⟩)

/-- C4: in the text of a binary operation, of a unary operation and of a
conditional, an operand is wrapped in parentheses exactly when its own
precedence is strictly lower than the one its position requires: the
precedence of the operator for both operands of a binary operation, 17 (the
precedence of a unary operation) for the operand of a unary operation, and 4
for each of the three parts of a conditional. An operand of equal or higher
precedence is printed as it stands. -/
theorem operands_parenthesised (env : Env) (indent : String) (op : Operation)
    (l r c t f x : Expression) (ty : Ty) :
    (∀ (p pl pr : Nat) (tl tr : String),
      GetPrecedence (.BinaryOpExpression op l r ty) = .ok p →
      GetPrecedence l = .ok pl → GetPrecedence r = .ok pr →
      print env l indent 0 = .ok tl → print env r indent 0 = .ok tr →
      ∃ opstr : String,
        print env (.BinaryOpExpression op l r ty) indent 0 =
          .ok ((if pl < p then "(" ++ tl ++ ")" else tl) ++ " " ++ opstr ++ " " ++
            (if pr < p then "(" ++ tr ++ ")" else tr))) ∧
    (∀ (px : Nat) (tx : String),
      GetPrecedence x = .ok px → print env x indent 0 = .ok tx →
      ∃ opstr : String,
        print env (.UnaryOpExpression op x ty) indent 0 =
          .ok (opstr ++ (if px < 17 then "(" ++ tx ++ ")" else tx))) ∧
    (∀ (pc pt pf : Nat) (tc tt tf : String),
      GetPrecedence c = .ok pc → GetPrecedence t = .ok pt → GetPrecedence f = .ok pf →
      print env c indent 0 = .ok tc → print env t indent 0 = .ok tt →
      print env f indent 0 = .ok tf →
      print env (.ConditionalExpression c t f ty) indent 0 =
        .ok ((if pc < 4 then "(" ++ tc ++ ")" else tc) ++ " ? " ++
          (if pt < 4 then "(" ++ tt ++ ")" else tt) ++ " : " ++
          (if pf < 4 then "(" ++ tf ++ ")" else tf))) := by
  refine ⟨?_, ?_, ?_⟩
  · intro p pl pr tl tr hp hpl hpr htl htr
    obtain ⟨opstr, h⟩ := GenBinaryOpExpression_text env indent op l r ty p pl pr tl tr hp hpl hpr
      htl htr
    refine ⟨opstr, ?_⟩
    simp only [print]
    rw [Formatter.gen]
    simp only [hp, h, bind, Except.bind, pure, Except.pure, parenthesise, Nat.not_lt_zero,
      if_false]
  · intro px tx hpx htx
    have hx := fun verb req => Formatter.gen_of_print env x indent verb req px tx hpx htx
    simp only [print]
    rw [Formatter.gen]
    simp only [GetPrecedence, GenUnaryOpExpression, hx, bind, Except.bind, pure, Except.pure,
      parenthesise, Nat.not_lt_zero, if_false]
    exact ⟨_, rfl⟩
  · intro pc pt pf tc tt tf hpc hpt hpf htc htt htf
    have hc := fun verb req => Formatter.gen_of_print env c indent verb req pc tc hpc htc
    have ht := fun verb req => Formatter.gen_of_print env t indent verb req pt tt hpt htt
    have hf := fun verb req => Formatter.gen_of_print env f indent verb req pf tf hpf htf
    simp only [print]
    rw [Formatter.gen]
    simp only [GetPrecedence, GenConditionalExpression, hc, ht, hf, bind, Except.bind, pure,
      Except.pure, parenthesise, Nat.not_lt_zero, if_false]

/-- C4 at concrete inputs: `(a + b) * c` keeps its parentheses and `a + b * c`
gets none. -/
theorem operands_parenthesised_witness :
    (∀ env : Env, ∃ opstr : String,
      print env (.BinaryOpExpression .OpMultiply
        (.BinaryOpExpression .OpAdd (varRef "a" .NumberType) (varRef "b" .NumberType)
          .NumberType)
        (varRef "c" .NumberType) .NumberType) "" 0 =
      .ok ((if 14 < 15 then "(" ++ "a + b" ++ ")" else "a + b") ++ " " ++ opstr ++ " " ++
        (if 22 < 15 then "(" ++ "c" ++ ")" else "c"))) ∧
    (∀ env : Env,
      print env (.BinaryOpExpression .OpMultiply
        (.BinaryOpExpression .OpAdd (varRef "a" .NumberType) (varRef "b" .NumberType)
          .NumberType)
        (varRef "c" .NumberType) .NumberType) "" 0 = .ok "(a + b) * c") ∧
    (∀ env : Env,
      print env (.BinaryOpExpression .OpAdd (varRef "a" .NumberType)
        (.BinaryOpExpression .OpMultiply (varRef "b" .NumberType) (varRef "c" .NumberType)
          .NumberType) .NumberType) "" 0 = .ok "a + b * c") :=
  ⟨fun env => (operands_parenthesised env "" .OpMultiply
      (.BinaryOpExpression .OpAdd (varRef "a" .NumberType) (varRef "b" .NumberType) .NumberType)
      (varRef "c" .NumberType) (varRef "c" .NumberType) (varRef "c" .NumberType)
      (varRef "c" .NumberType) (varRef "c" .NumberType) .NumberType).1
      15 14 22 "a + b" "c" rfl rfl rfl rfl rfl,
    fun _ => rfl, fun _ => rfl⟩

/-! ## String templates -/

theorem stringLiteralPart_eq_some (e : Expression) (s : String) :
    stringLiteralPart e = some s ↔ e = .LiteralValueExpression (.string s) := by
  cases e with
  | LiteralValueExpression value => cases value <;> simp [stringLiteralPart]
  | _ => simp [stringLiteralPart]

theorem GenTemplateExpression.flags_fold (ops : List Operand) :
    ∀ m h : Bool,
      ops.foldl (fun (flags : Bool × Bool) part =>
        match stringLiteralPart part.expr with
        | some s => if containsNewline s then (true, flags.2) else flags
        | none => (flags.1, true)) (m, h) =
      (m || ops.any (fun o => match stringLiteralPart o.expr with
          | some s => containsNewline s
          | none => false),
        h || ops.any (fun o => (stringLiteralPart o.expr).isNone)) := by
  induction ops with
  | nil => intro m h; simp
  | cons o os ih =>
    intro m h
    rw [List.foldl_cons]
    cases hs : stringLiteralPart o.expr with
    | none => simp [ih, hs]
    | some s =>
      by_cases hn : containsNewline s = true
      · simp [ih, hs, hn]
      · simp [ih, hs, hn]

theorem any_operands (env : Env) (g : Expression → Bool) (es : List Expression) :
    (es.map (operand env)).any (fun o => g o.expr) = es.any g := by
  induction es with
  | nil => rfl
  | cons e es ih => simp [List.any_cons, ih, operand]

theorem GenTemplateExpression.flags_newline (env : Env) (parts : List Expression) :
    (GenTemplateExpression.flags (Formatter.operands env parts)).1 = true ↔
      hasNewlineFragment parts := by
  rw [GenTemplateExpression.flags, GenTemplateExpression.flags_fold,
    Formatter.operands_eq_map]
  simp only [Bool.false_or]
  rw [any_operands env (fun e => match stringLiteralPart e with
    | some s => containsNewline s
    | none => false)]
  simp only [List.any_eq_true, hasNewlineFragment]
  constructor
  · rintro ⟨e, he, h⟩
    cases hs : stringLiteralPart e with
    | none => simp [hs] at h
    | some s =>
      simp only [hs] at h
      exact ⟨e, he, s, (stringLiteralPart_eq_some e s).1 hs, (containsNewline_iff s).1 h⟩
  · rintro ⟨e, he, s, hs, hn⟩
    refine ⟨e, he, ?_⟩
    rw [(stringLiteralPart_eq_some e s).2 hs]
    exact (containsNewline_iff s).2 hn

theorem GenTemplateExpression.flags_expressions (env : Env) (parts : List Expression) :
    (GenTemplateExpression.flags (Formatter.operands env parts)).2 = true ↔
      hasNonLiteralPart parts := by
  rw [GenTemplateExpression.flags, GenTemplateExpression.flags_fold,
    Formatter.operands_eq_map]
  simp only [Bool.false_or]
  rw [any_operands env (fun e => (stringLiteralPart e).isNone)]
  simp only [List.any_eq_true, hasNonLiteralPart]
  constructor
  · rintro ⟨e, he, h⟩
    refine ⟨e, he, ?_⟩
    intro s hs
    rw [(stringLiteralPart_eq_some e s).2 hs] at h
    simp at h
  · rintro ⟨e, he, h⟩
    refine ⟨e, he, ?_⟩
    cases hs : stringLiteralPart e with
    | none => rfl
    | some s => exact absurd ((stringLiteralPart_eq_some e s).1 hs) (h s)

theorem GenTemplateExpression_eq (ops : List Operand) (indent : String) :
    GenTemplateExpression ops indent =
      (GenTemplateExpression.body (GenTemplateExpression.flags ops).1 indent ops).map
        (fun body => (if (GenTemplateExpression.flags ops).1 = true then "@" else "") ++
          (if (GenTemplateExpression.flags ops).2 = true then "$" else "") ++ "\"" ++ body ++
          "\"") := by
  rw [GenTemplateExpression]
  cases GenTemplateExpression.flags ops with
  | mk m h =>
    simp only
    cases GenTemplateExpression.body m indent ops <;> rfl

/-- C6: the text `GenTemplateExpression` emits for a string template starts
with the verbatim marker `@` exactly when some literal fragment contains a
newline, and carries the interpolation marker `$` exactly when the template
has a part that is not a string literal: the text is the body between quotes
preceded by `@$` when both hold, by `@` or by `$` when one holds, and by
nothing when neither holds. The body is escaped in the verbatim mode exactly
when the verbatim marker is there. -/
theorem GenTemplateExpression_markers (env : Env) (parts : List Expression)
    (indent : String) :
    (hasNewlineFragment parts → hasNonLiteralPart parts →
      GenTemplateExpression (Formatter.operands env parts) indent =
        (GenTemplateExpression.body true indent (Formatter.operands env parts)).map
          (fun body => "@$\"" ++ body ++ "\"")) ∧
    (hasNewlineFragment parts → ¬ hasNonLiteralPart parts →
      GenTemplateExpression (Formatter.operands env parts) indent =
        (GenTemplateExpression.body true indent (Formatter.operands env parts)).map
          (fun body => "@\"" ++ body ++ "\"")) ∧
    (¬ hasNewlineFragment parts → hasNonLiteralPart parts →
      GenTemplateExpression (Formatter.operands env parts) indent =
        (GenTemplateExpression.body false indent (Formatter.operands env parts)).map
          (fun body => "$\"" ++ body ++ "\"")) ∧
    (¬ hasNewlineFragment parts → ¬ hasNonLiteralPart parts →
      GenTemplateExpression (Formatter.operands env parts) indent =
        (GenTemplateExpression.body false indent (Formatter.operands env parts)).map
          (fun body => "\"" ++ body ++ "\"")) := by
  have hm := GenTemplateExpression.flags_newline env parts
  have he := GenTemplateExpression.flags_expressions env parts
  rw [GenTemplateExpression_eq]
  cases hf : GenTemplateExpression.flags (Formatter.operands env parts) with
  | mk m h =>
    rw [hf] at hm he
    simp only at hm he
    refine ⟨?_, ?_, ?_, ?_⟩
    · intro h1 h2
      have e1 : m = true := hm.2 h1
      have e2 : h = true := he.2 h2
      subst e1 e2
      rfl
    · intro h1 h2
      have e1 : m = true := hm.2 h1
      have e2 : h = false := by
        cases h with
        | false => rfl
        | true => exact absurd (he.1 rfl) h2
      subst e1 e2
      rfl
    · intro h1 h2
      have e1 : m = false := by
        cases m with
        | false => rfl
        | true => exact absurd (hm.1 rfl) h1
      have e2 : h = true := he.2 h2
      subst e1 e2
      rfl
    · intro h1 h2
      have e1 : m = false := by
        cases m with
        | false => rfl
        | true => exact absurd (hm.1 rfl) h1
      have e2 : h = false := by
        cases h with
        | false => rfl
        | true => exact absurd (he.1 rfl) h2
      subst e1 e2
      rfl

/-- C6 at concrete inputs: a template with a newline fragment and a variable,
and a template of one plain fragment. -/
theorem GenTemplateExpression_markers_witness :
    (∀ env : Env,
      GenTemplateExpression (Formatter.operands env
        [.LiteralValueExpression (.string "a\nb"), varRef "x" .StringType]) "" =
      .ok "@$\"a\nb\x7bx\x7d\"") ∧
    (∀ env : Env,
      GenTemplateExpression (Formatter.operands env
        [.LiteralValueExpression (.string "ab")]) "" =
      .ok "\"ab\"") :=
  ⟨fun env => (GenTemplateExpression_markers env
      [.LiteralValueExpression (.string "a\nb"), varRef "x" .StringType] "").1
      ⟨_, List.mem_cons_self _ _, "a\nb", rfl, by decide⟩
      ⟨varRef "x" .StringType, by simp, fun s h => by simp [varRef] at h⟩,
    fun env => (GenTemplateExpression_markers env
      [.LiteralValueExpression (.string "ab")] "").2.2.2
      (by
        rintro ⟨e, he, s, hs, hn⟩
        simp only [List.mem_singleton] at he
        rw [he] at hs
        simp only [Expression.LiteralValueExpression.injEq, Value.string.injEq] at hs
        rw [← hs] at hn
        exact absurd hn (by decide))
      (by
        rintro ⟨e, he, h⟩
        simp only [List.mem_singleton] at he
        exact h "ab" he)⟩

/-! ## Object constructions -/

theorem genObjectConsExpression.item_eq (env : Env) (indent : String)
    (key value : Expression) :
    genObjectConsExpression.item indent (operand env key) (operand env value) =
      objectItemLine env indent (.mk key value) := by
  cases key with
  | LiteralValueExpression lit => cases lit <;> rfl
  | _ => rfl

theorem genObjectConsExpression.items_eq (env : Env) (indent : String)
    (items : List ObjectConsItem) :
    genObjectConsExpression.items indent (items.map (Formatter.item env)) =
      (objectItemLines env indent items).map concatLines := by
  induction items with
  | nil => rfl
  | cons item rest ih =>
    rw [List.map_cons, objectItemLines]
    cases item with
    | mk key value =>
      have hitem : Formatter.item env (.mk key value) = (operand env key, operand env value) := by
        simp [Formatter.item, operand]
      rw [hitem, genObjectConsExpression.items, ih, genObjectConsExpression.item_eq]
      cases objectItemLine env indent (.mk key value) with
      | error e => rfl
      | ok line => cases objectItemLines env indent rest <;> rfl

theorem objectItemLines_length (env : Env) (indent : String) (items : List ObjectConsItem) :
    ∀ lines, objectItemLines env indent items = .ok lines → lines.length = items.length := by
  induction items with
  | nil =>
    intro lines h
    simp only [objectItemLines, pure, Except.pure, Except.ok.injEq] at h
    rw [← h]
    rfl
  | cons item rest ih =>
    intro lines h
    rw [objectItemLines] at h
    cases h1 : objectItemLine env indent item with
    | error e => simp [h1, bind, Except.bind] at h
    | ok line =>
      cases h2 : objectItemLines env indent rest with
      | error e => simp [h1, h2, bind, Except.bind] at h
      | ok ls =>
        simp only [h1, h2, bind, Except.bind, pure, Except.pure, Except.ok.injEq] at h
        rw [← h, List.length_cons, List.length_cons, ih ls h2]

/-- The text of `genObjectConsExpression` apart from the annotated destination
types: `{}` for an object construction without items; with `k ≥ 1` items and a
destination type that does not carry exactly one annotation, a block of exactly
`k` item lines in the order of the items, `Title(key) = value,` for an item
whose key is a string literal and `{ key, value },` for an item whose key is
not a literal. -/
theorem genObjectConsExpression_lines (env : Env) (items : List ObjectConsItem)
    (destType : Ty) (indent : String) :
    genObjectConsExpression (Formatter.items env []) destType indent = .ok "\x7b\x7d" ∧
    (items ≠ [] → destType.GetAnnotations.length ≠ 1 →
      genObjectConsExpression (Formatter.items env items) destType indent =
        (objectItemLines env (indented indent) items).map
          (fun lines => "\n" ++ indent ++ "\x7b\n" ++ concatLines lines ++ indent ++ "\x7d")) ∧
    (∀ lines, objectItemLines env (indented indent) items = .ok lines →
      lines.length = items.length) := by
  refine ⟨rfl, ?_, objectItemLines_length env (indented indent) items⟩
  intro hne hann
  have hlen : ¬ (List.map (Formatter.item env) items).length = 0 := by
    rw [List.length_map]
    intro h
    exact hne (List.length_eq_zero.1 h)
  rw [genObjectConsExpression, Formatter.items_eq_map]
  simp only [hlen, hann, if_false, bind, Except.bind, pure, Except.pure]
  rw [genObjectConsExpression.items_eq]
  cases objectItemLines env (indented indent) items <;> rfl

/-- C9 at its failing input: for the one item `value = "hello"` the block of one
named-property line is emitted when the destination type carries no
annotation, and nothing is emitted (the call panics with the annotation as
its value) when the destination type carries one schema annotation. -/
theorem genObjectConsExpression_annotated_item :
    (∀ env : Env,
      genObjectConsExpression (Formatter.items env
        [.mk (.LiteralValueExpression (.string "value"))
          (.LiteralValueExpression (.string "hello"))])
        (.ObjectType [("value", .StringType)] []) "" =
      .ok "\n\x7b\n    Value = \"hello\",\n\x7d") ∧
    (∀ env : Env,
      genObjectConsExpression (Formatter.items env
        [.mk (.LiteralValueExpression (.string "value"))
          (.LiteralValueExpression (.string "hello"))])
        (.ObjectType [("value", .StringType)] [.objectType "pkg:index:ThingArgs"]) "" =
      .error (.explicit "pkg:index:ThingArgs")) :=
  ⟨fun _ => rfl, fun _ => rfl⟩

/-- C10 fails on the code: whenever an object construction has at least one
item and its destination type carries exactly one annotation,
`genObjectConsExpression` panics instead of returning; so does the formatter
on an object construction whose own type is such a type, and on the conversion
of an object construction to such a type. -/
theorem genObjectConsExpression_aborts (env : Env) (items : List ObjectConsItem)
    (destType ty : Ty) (rng : Option Range) (indent : String) (hne : items ≠ [])
    (hann : destType.GetAnnotations.length = 1) :
    ∃ p : Panic,
      genObjectConsExpression (Formatter.items env items) destType indent = .error p ∧
      print env (.ObjectConsExpression items destType) indent 0 = .error p ∧
      print env (.FunctionCallExpression IntrinsicConvert [.ObjectConsExpression items ty]
        destType rng) indent 0 = .error p := by
  have hlen : ¬ (List.map (Formatter.item env) items).length = 0 := by
    rw [List.length_map]
    intro h
    exact hne (List.length_eq_zero.1 h)
  have hgen : ∃ p : Panic,
      genObjectConsExpression (Formatter.items env items) destType indent = .error p := by
    rw [genObjectConsExpression, Formatter.items_eq_map]
    simp only [hlen, hann, if_false, if_true]
    cases hanns : destType.GetAnnotations with
    | nil => simp [hanns] at hann
    | cons a rest =>
      cases a with
      | objectType token => exact ⟨_, rfl⟩
      | other what => exact ⟨_, rfl⟩
  obtain ⟨p, hp⟩ := hgen
  refine ⟨p, hp, ?_, ?_⟩
  · simp only [print]
    rw [Formatter.gen]
    simp only [GetPrecedence, GenObjectConsExpression, hp, bind, Except.bind, pure,
      Except.pure]
  · simp only [print]
    rw [Formatter.gen]
    simp only [GetPrecedence, IntrinsicConvert, intrinsicAwait, GenFunctionCallExpression,
      Formatter.operands, index, List.get?_cons_zero]
    simp [Formatter.consAs, hp, bind, Except.bind, pure, Except.pure]

/-- C10 at a concrete input: the object construction `value = "hello"` against a
destination type with one schema annotation. -/
theorem genObjectConsExpression_aborts_witness :
    ∃ p : Panic,
      genObjectConsExpression (Formatter.items Env.plain
        [.mk (.LiteralValueExpression (.string "value"))
          (.LiteralValueExpression (.string "hello"))])
        (.ObjectType [("value", .StringType)] [.objectType "pkg:index:ThingArgs"]) "" =
      .error p ∧
      print Env.plain (.ObjectConsExpression
        [.mk (.LiteralValueExpression (.string "value"))
          (.LiteralValueExpression (.string "hello"))]
        (.ObjectType [("value", .StringType)] [.objectType "pkg:index:ThingArgs"])) "" 0 =
      .error p ∧
      print Env.plain (.FunctionCallExpression IntrinsicConvert
        [.ObjectConsExpression
          [.mk (.LiteralValueExpression (.string "value"))
            (.LiteralValueExpression (.string "hello"))]
          (.ObjectType [("value", .StringType)] [])]
        (.ObjectType [("value", .StringType)] [.objectType "pkg:index:ThingArgs"]) none) ""
        0 =
      .error p :=
  genObjectConsExpression_aborts Env.plain _ _ _ none "" (by simp) (by decide)

/-! ## Anonymous functions -/

theorem GenAnonymousFunctionExpression.bindings_eq (indent : String) (ps : List String)
    (i : Nat) :
    GenAnonymousFunctionExpression.bindings indent ps i =
      concatLines (parameterBindings indent i ps) := by
  induction ps generalizing i with
  | nil => rfl
  | cons p ps ih =>
    rw [GenAnonymousFunctionExpression.bindings, parameterBindings, concatLines, ih]
    rfl

theorem parameterBindings_length (indent : String) (ps : List String) (i : Nat) :
    (parameterBindings indent i ps).length = ps.length := by
  induction ps generalizing i with
  | nil => rfl
  | cons p ps ih => simp [parameterBindings, ih]

theorem parameterBindings_get (indent : String) (ps : List String) (i k : Nat) (p : String)
    (hp : ps.get? k = some p) :
    (parameterBindings indent i ps).get? k = some (parameterBinding indent (i + k) p) := by
  induction ps generalizing i k with
  | nil => simp at hp
  | cons q ps ih =>
    cases k with
    | zero =>
      simp only [List.get?_cons_zero, Option.some.injEq] at hp
      subst hp
      rfl
    | succ k =>
      simp only [List.get?_cons_succ] at hp
      rw [parameterBindings, List.get?_cons_succ, ih (i + 1) k hp]
      congr 2
      omega

/-- C11: an anonymous function with the one parameter `p` and the body `b`
prints as `p => ` + print(b); one with `n ≥ 2` parameters `p1 .. pn` prints as
the block `values =>`, `{`, the bindings, `return ` + print(b) + `;`, `}`, where
the bindings are `n` lines, the line at position `k` (from 0) being
`var ` + the parameter at position `k` + ` = values.Item` + (k + 1) + `;`; the
body is printed once, and printing aborts exactly when printing the body
does. -/
theorem GenAnonymousFunctionExpression_forms (env : Env) (indent p : String)
    (ps : List String) (body : Expression) (hn : 2 ≤ ps.length) :
    print env (.AnonymousFunctionExpression [p] body) indent 0 =
      (do
        let b ← print env body indent 0
        pure (p ++ " => " ++ b)) ∧
    print env (.AnonymousFunctionExpression ps body) indent 0 =
      (do
        let b ← print env body (indented indent) 0
        pure ("values =>\n" ++ indent ++ "\x7b\n" ++
          concatLines (parameterBindings (indented indent) 0 ps) ++
          indented indent ++ "return " ++ b ++ ";\n" ++ indent ++ "\x7d")) ∧
    (parameterBindings (indented indent) 0 ps).length = ps.length ∧
    ∀ (k : Nat) (q : String), ps.get? k = some q →
      (parameterBindings (indented indent) 0 ps).get? k =
        some (indented indent ++ "var " ++ q ++ " = values.Item" ++ Nat.repr (k + 1) ++
          ";\n") := by
  refine ⟨?_, ?_, parameterBindings_length _ _ _, ?_⟩
  · simp only [print]
    rw [Formatter.gen]
    simp only [GetPrecedence, GenAnonymousFunctionExpression, bind, Except.bind, pure,
      Except.pure]
    cases Formatter.gen env body indent Verb.v 0 <;> rfl
  · simp only [print]
    rw [Formatter.gen]
    match ps, hn with
    | p1 :: p2 :: rest, _ =>
      simp only [GetPrecedence, GenAnonymousFunctionExpression, bind, Except.bind, pure,
        Except.pure, GenAnonymousFunctionExpression.bindings_eq]
      cases Formatter.gen env body (indented indent) Verb.v 0 <;> rfl
  · intro k q hq
    have h := parameterBindings_get (indented indent) ps 0 k q hq
    rw [Nat.zero_add] at h
    exact h

/-- C11 at concrete inputs: the functions `x => x` and `(a, b) => b`. -/
theorem GenAnonymousFunctionExpression_forms_witness :
    (∀ env : Env,
      print env (.AnonymousFunctionExpression ["x"] (varRef "x" .StringType)) "" 0 =
        .ok "x => x") ∧
    (∀ env : Env,
      print env (.AnonymousFunctionExpression ["a", "b"] (varRef "b" .StringType)) "" 0 =
        .ok ("values =>\n\x7b\n    var a = values.Item1;\n    var b = values.Item2;\n" ++
          "    return b;\n\x7d")) :=
  ⟨fun env => (GenAnonymousFunctionExpression_forms env "" "x" ["a", "b"]
      (varRef "x" .StringType) (by decide)).1,
    fun env => (GenAnonymousFunctionExpression_forms env "" "x" ["a", "b"]
      (varRef "b" .StringType) (by decide)).2.1⟩

/-! ## Traversals -/

theorem index_eq_head_drop {α : Type} (xs : List α) (i : Nat) (x : α) (rest : List α)
    (h : xs.drop i = x :: rest) : index xs i = .ok x := by
  have hx : xs.get? i = some x := by
    rw [List.get?_eq_getElem?, ← List.head?_drop, h]
    rfl
  simp only [index, hx]
  rfl

theorem genRelativeTraversal_loop_eq (parts : List Traversable) (traversal : List Traverser)
    (i : Nat) (hlen : traversal.length ≤ (parts.drop i).length)
    (hkeys : ∀ seg ∈ traversal, (stepText seg).isSome) :
    genRelativeTraversal.loop parts traversal i =
      .ok (concatLines (traversalSteps traversal (parts.drop i))) := by
  induction traversal generalizing i with
  | nil => rfl
  | cons seg segs ih =>
    cases hd : parts.drop i with
    | nil => simp [hd] at hlen
    | cons part rest =>
      have hrest : parts.drop (i + 1) = rest := by
        rw [← List.drop_drop, hd]
        rfl
      have hlen2 : segs.length ≤ (parts.drop (i + 1)).length := by
        rw [hrest]
        rw [hd] at hlen
        simpa using hlen
      have ih2 := ih (i + 1) hlen2 (fun s hs => hkeys s (List.mem_cons_of_mem _ hs))
      have hseg := hkeys seg (List.mem_cons_self _ _)
      have hidx := index_eq_head_drop parts i part rest hd
      rw [hrest] at ih2
      cases seg with
      | TraverseRoot name => simp [stepText] at hseg
      | TraverseSplat => simp [stepText] at hseg
      | TraverseAttr name =>
        simp only [genRelativeTraversal.loop, hidx, ih2, bind, Except.bind, pure, Except.pure,
          traversalSteps, stepText, Option.getD, concatLines, guardText]
      | TraverseIndex key =>
        cases key with
        | null => simp [stepText] at hseg
        | bool b => simp [stepText] at hseg
        | string s =>
          simp only [genRelativeTraversal.loop, hidx, ih2, bind, Except.bind, pure,
            Except.pure, traversalSteps, stepText, Option.getD, concatLines, guardText]
        | number q =>
          simp only [genRelativeTraversal.loop, hidx, ih2, bind, Except.bind, pure,
            Except.pure, traversalSteps, stepText, Option.getD, concatLines, guardText]

theorem traversalSteps_length (traversal : List Traverser) (parts : List Traversable)
    (hlen : traversal.length ≤ parts.length) :
    (traversalSteps traversal parts).length = traversal.length := by
  induction traversal generalizing parts with
  | nil => cases parts <;> rfl
  | cons seg segs ih =>
    cases parts with
    | nil => simp at hlen
    | cons part parts =>
      simp only [traversalSteps, List.length_cons, Nat.add_right_cancel_iff]
      exact ih parts (by simpa using hlen)

theorem traversalSteps_get (traversal : List Traverser) (parts : List Traversable) (k : Nat)
    (seg : Traverser) (part : Traversable) (hs : traversal.get? k = some seg)
    (hp : parts.get? k = some part) :
    (traversalSteps traversal parts).get? k =
      some (guardText part.type ++ (stepText seg).getD "") := by
  induction traversal generalizing parts k with
  | nil => simp at hs
  | cons s segs ih =>
    cases parts with
    | nil => simp at hp
    | cons p parts =>
      cases k with
      | zero =>
        simp only [List.get?_cons_zero, Option.some.injEq] at hs hp
        subst hs
        subst hp
        rfl
      | succ k =>
        simp only [List.get?_cons_succ] at hs hp
        rw [traversalSteps, List.get?_cons_succ]
        exact ih parts k hs hp

/-- C12, amended: for a path whose segments have a string or a number key, bound
to at least as many parts as it has segments, `genRelativeTraversal` emits one
step for each segment, in order: the step at position `k` is the guard `?` when
the type of the part at position `k` is optional and nothing otherwise,
followed by `.` + Title(s) for a string key `s` and by `[` + integer + `]` for
a number key. A scope traversal emits its root name, or `__item` in its place
when its first part is a splat variable, followed by these steps for the path
after the root. -/
theorem genRelativeTraversal_steps (traversal : List Traverser) (parts : List Traversable)
    (rootName root : String) (first : Traversable) (rest : List Traversable)
    (hlen : traversal.length ≤ parts.length)
    (hkeys : ∀ seg ∈ traversal, (stepText seg).isSome) (hparts : parts = first :: rest) :
    genRelativeTraversal traversal parts = .ok (concatLines (traversalSteps traversal parts)) ∧
    (traversalSteps traversal parts).length = traversal.length ∧
    (∀ (k : Nat) (seg : Traverser) (part : Traversable),
      traversal.get? k = some seg → parts.get? k = some part →
      ∃ access : String,
        (traversalSteps traversal parts).get? k =
          some ((if IsOptionalType part.type then "?" else "") ++ access) ∧
        ((∃ s, (seg = .TraverseAttr s ∨ seg = .TraverseIndex (.string s)) ∧
            access = "." ++ Title s) ∨
          (∃ q, seg = .TraverseIndex (.number q) ∧
            access = "[" ++ fmtD (bigFloatInt64 q).1 ++ "]"))) ∧
    GenScopeTraversalExpression rootName (.TraverseRoot root :: traversal) parts =
      .ok ((if first.isSplatVariable then "__item" else rootName) ++
        concatLines (traversalSteps traversal parts)) := by
  have hrel : genRelativeTraversal traversal parts =
      .ok (concatLines (traversalSteps traversal parts)) :=
    genRelativeTraversal_loop_eq parts traversal 0 (by simpa using hlen) hkeys
  refine ⟨hrel, traversalSteps_length traversal parts hlen, ?_, ?_⟩
  · intro k seg part hs hp
    have hseg := hkeys seg (List.get?_mem hs)
    refine ⟨(stepText seg).getD "", traversalSteps_get traversal parts k seg part hs hp, ?_⟩
    cases seg with
    | TraverseRoot name => simp [stepText] at hseg
    | TraverseSplat => simp [stepText] at hseg
    | TraverseAttr name => exact Or.inl ⟨name, Or.inl rfl, rfl⟩
    | TraverseIndex key =>
      cases key with
      | null => simp [stepText] at hseg
      | bool b => simp [stepText] at hseg
      | string s => exact Or.inl ⟨s, Or.inr rfl, rfl⟩
      | number q => exact Or.inr ⟨q, rfl, rfl⟩
  · subst hparts
    simp only [GenScopeTraversalExpression, index, List.get?_cons_zero, simpleSplitRel, hrel,
      bind, Except.bind, pure, Except.pure]

/-- C12 at a concrete input: the path `.foo[2].bar` over the variable `x`, whose
second part has an optional type. -/
theorem genRelativeTraversal_steps_witness :
    genRelativeTraversal
        [.TraverseAttr "foo", .TraverseIndex (.number 2), .TraverseIndex (.string "bar")]
        [⟨false, .DynamicType⟩, ⟨false, .UnionType [.ListType .StringType, .NoneType]⟩,
          ⟨false, .StringType⟩] = .ok ".Foo?[2].Bar" ∧
    GenScopeTraversalExpression "x"
        [.TraverseRoot "x", .TraverseAttr "foo", .TraverseIndex (.number 2),
          .TraverseIndex (.string "bar")]
        [⟨false, .DynamicType⟩, ⟨false, .UnionType [.ListType .StringType, .NoneType]⟩,
          ⟨false, .StringType⟩] = .ok "x.Foo?[2].Bar" :=
  have h := genRelativeTraversal_steps
    [.TraverseAttr "foo", .TraverseIndex (.number 2), .TraverseIndex (.string "bar")]
    [⟨false, .DynamicType⟩, ⟨false, .UnionType [.ListType .StringType, .NoneType]⟩,
      ⟨false, .StringType⟩] "x" "x" ⟨false, .DynamicType⟩
    [⟨false, .UnionType [.ListType .StringType, .NoneType]⟩, ⟨false, .StringType⟩]
    (by decide) (by decide) rfl
  ⟨h.1, h.2.2.2⟩

/-- C12 fails as worded: a scope traversal whose first part is a splat variable
does not emit its root name `x`; it emits `__item` in its place. -/
theorem GenScopeTraversalExpression_splat_root :
    GenScopeTraversalExpression "x" [.TraverseRoot "x", .TraverseAttr "foo"]
        [⟨true, .DynamicType⟩, ⟨false, .StringType⟩] = .ok "__item.Foo" ∧
    "__item.Foo" ≠ "x" ++ ".Foo" := by
  decide

/-! ## Resources -/

set_option maxRecDepth 100000

theorem genResource.properties_eq (env : Env) (inputType : Ty) (qualifiedName indent : String)
    (inputs : List Attribute) :
    genResource.properties env qualifiedName indent
        (genResource.convertInputs env inputType inputs) =
      (do
        let lines ← resourceInputLines env inputType qualifiedName indent inputs
        pure (concatLines lines)) := by
  induction inputs with
  | nil => rfl
  | cons input rest ih =>
    simp only [genResource.convertInputs, genResource.properties, resourceInputLines,
      resourceInputLine, ih, bind, Except.bind, pure, Except.pure]
    cases processExpression env
      (env.RewriteConversions input.value (env.Traverse inputType input.name))
      qualifiedName with
    | error err => rfl
    | ok value =>
      simp only []
      cases print env value indent 0 with
      | error err => rfl
      | ok t =>
        simp only []
        cases resourceInputLines env inputType qualifiedName indent rest with
        | error err => rfl
        | ok lines =>
          simp only [concatLines, String.append_assoc]
          rw [← String.append_assoc " =" " "]
          rfl

theorem genResource.instantiate_eq (env : Env) (inputType : Ty)
    (qualifiedName indent resName : String) (inputs : List Attribute) :
    genResource.instantiate env qualifiedName
        (genResource.convertInputs env inputType inputs) indent resName =
      (do
        let lines ← resourceInputLines env inputType qualifiedName (indented indent) inputs
        pure ("new " ++ qualifiedName ++ "(" ++ resName ++ ", new " ++ qualifiedName ++
          "Args\n" ++ indent ++ "\x7b\n" ++ concatLines lines ++ indent ++ "\x7d" ++ ")")) := by
  simp only [genResource.instantiate, genResource.properties_eq, bind, Except.bind, pure,
    Except.pure]
  cases resourceInputLines env inputType qualifiedName (indented indent) inputs with
  | error err => rfl
  | ok lines => simp only [String.append_assoc, String.append_empty]

/-- C13, amended: for a resource without a range whose input type carries no
annotation, with logical name `n`, qualified type name `Q` and inputs
`(k1, e1) .. (kj, ej)`, `genResource` emits, after the comments of the tokens of
its definition, the single binding `var n = new Q("n", new QArgs`, `{`, one line
`Title(ki) = print(ei),` for each input in order, `});`: the argument-bundle
type is the qualified type name followed by `Args`, and the logical name is `n`
between double quotes. It aborts exactly when printing an input does. -/
theorem genResource_single (env : Env) (diagnostics : List String) (indent : String)
    (r : Resource) (hrange : r.range = none)
    (hanns : (env.ResolveOutputs r.inputType).GetAnnotations = []) :
    Prod.fst <$> genResource env diagnostics indent r =
      (do
        let lines ← resourceInputLines env r.inputType (qualifiedTypeName env r)
          (indented indent) r.inputs
        pure (resourceComments indent r ++ indent ++ "var " ++ r.name ++ " = " ++
          "new " ++ qualifiedTypeName env r ++ "(" ++ "\"" ++ r.name ++ "\"" ++ ", new " ++
          qualifiedTypeName env r ++ "Args\n" ++ indent ++ "\x7b\n" ++ concatLines lines ++
          indent ++ "\x7d" ++ ")" ++ ";\n" ++ genTrivia indent r.closeBrace)) := by
  rcases h : resourceTypeName env r with ⟨pkg, module, member, diags⟩
  have hq : qualifiedTypeName env r =
      pkg ++ (if module ≠ "" then "." ++ module else module) ++ "." ++ member := by
    simp only [qualifiedTypeName, h]
    by_cases hm : module = ""
    · simp [hm]
    · simp [hm]
  simp only [genResource, h, hanns, hrange, ← hq, genResource.instantiate_eq]
  simp only [List.length_nil, gt_iff_lt, Nat.lt_irrefl, if_false, bind, Except.bind, pure,
    Except.pure, Functor.map, Except.map, makeResourceName, if_true, resourceComments]
  cases resourceInputLines env r.inputType (qualifiedTypeName env r) (indented indent)
    r.inputs with
  | error err => rfl
  | ok lines => simp only [String.append_assoc]

/-- C13 at a concrete input: the resource `thing` of token `pkg:index:Thing`,
whose qualified type name is `Pkg.Thing`, with the input `value = "hello"`. -/
theorem genResource_single_witness :
    Prod.fst <$> genResource Env.withNamespaces [] "" (Resource.thing none) =
      .ok ("var thing = new Pkg.Thing(\"thing\", new Pkg.ThingArgs\n\x7b\n" ++
        "    Value = \"hello\",\n\x7d);\n") ∧
    sameUpToWhitespace
      ("var thing = new Pkg.Thing(\"thing\", new Pkg.ThingArgs\n\x7b\n" ++
        "    Value = \"hello\",\n\x7d);\n")
      "var thing = new Pkg.Thing(\"thing\", new Pkg.ThingArgs \x7b Value = \"hello\", \x7d);" :=
  ⟨(genResource_single Env.withNamespaces [] "" (Resource.thing none) rfl rfl).trans rfl,
    by decide⟩

/-- C13 fails as worded: for the resource `thing` of token `pkg:index:Thing`,
whose qualified type name is `Pkg.Thing`, the argument-bundle type emitted is
`Pkg.ThingArgs`, not `ThingArgs`: the text is not, up to white space, the
binding the claim gives. -/
theorem genResource_qualified_args :
    Prod.fst <$> genResource Env.withNamespaces [] "" (Resource.thing none) =
      .ok ("var thing = new Pkg.Thing(\"thing\", new Pkg.ThingArgs\n\x7b\n" ++
        "    Value = \"hello\",\n\x7d);\n") ∧
    ¬ sameUpToWhitespace
      ("var thing = new Pkg.Thing(\"thing\", new Pkg.ThingArgs\n\x7b\n" ++
        "    Value = \"hello\",\n\x7d);\n")
      "var thing = new Pkg.Thing(\"thing\", new ThingArgs \x7b Value = \"hello\", \x7d);" := by
  decide

theorem genResource_ranged_eq (env : Env) (diagnostics : List String) (indent : String)
    (r : Resource) (range : Expression) (hrange : r.range = some range)
    (hanns : (env.ResolveOutputs r.inputType).GetAnnotations = [])
    (hbool : env.ConversionFrom (env.InputType .BoolType) range.Type ≠ .SafeConversion) :
    Prod.fst <$> genResource env diagnostics indent r =
      (do
        let loopHead ←
          if env.ConversionFrom (env.InputType .NumberType) (newAwaitCall range).Type ≠
              .NoConversion then
            pure (genNYI env ("OptionsRangeConversion " ++ env.fmtExpr (newAwaitCall range)))
          else do
            let t ← print env
              (.FunctionCallExpression "entries" [newAwaitCall range] .DynamicType none)
              indent 0
            pure (indent ++ "foreach (var range in " ++ t ++ ")\n" ++ indent ++ "\x7b\n")
        let lines ← resourceInputLines env r.inputType (qualifiedTypeName env r)
          (indented (indented indent)) r.inputs
        pure (resourceComments indent r ++ indent ++ "var " ++ r.name ++ " = new List<" ++
          qualifiedTypeName env r ++ ">();\n" ++ loopHead ++ indented indent ++ r.name ++
          ".Add(" ++ "new " ++ qualifiedTypeName env r ++ "(" ++ "$\"" ++ r.name ++
          "-\x7brange.Key\x7d\"" ++ ", new " ++ qualifiedTypeName env r ++ "Args\n" ++
          indented indent ++ "\x7b\n" ++ concatLines lines ++ indented indent ++ "\x7d" ++
          ")" ++ ");\n" ++ indent ++ "\x7d\n" ++ genTrivia indent r.closeBrace)) := by
  rcases h : resourceTypeName env r with ⟨pkg, module, member, diags⟩
  have hq : qualifiedTypeName env r =
      pkg ++ (if module ≠ "" then "." ++ module else module) ++ "." ++ member := by
    simp only [qualifiedTypeName, h]
    by_cases hm : module = ""
    · simp [hm]
    · simp [hm]
  simp only [genResource, h, hanns, hrange, hbool, ← hq, genResource.instantiate_eq]
  simp only [List.length_nil, gt_iff_lt, Nat.lt_irrefl, if_false, bind, Except.bind, pure,
    Except.pure, Functor.map, Except.map, makeResourceName, resourceComments]
  have hname : ∀ x : String,
      "$\"" ++ (r.name ++ ("-\x7b" ++ ("range.Key" ++ ("\x7d\"" ++ x)))) =
        "$\"" ++ (r.name ++ ("-\x7brange.Key\x7d\"" ++ x)) := by
    intro x
    rw [← String.append_assoc "range.Key", ← String.append_assoc "-\x7b"]
    rfl
  simp only [String.reduceEq, if_false]
  by_cases hnum : env.ConversionFrom (env.InputType .NumberType) (newAwaitCall range).Type =
      .NoConversion
  · simp only [hnum, ne_eq, not_true_eq_false, if_false]
    cases print env
      (.FunctionCallExpression "entries" [newAwaitCall range] .DynamicType none) indent 0 with
    | error err => rfl
    | ok t =>
      simp only []
      cases resourceInputLines env r.inputType (qualifiedTypeName env r)
        (indented (indented indent)) r.inputs with
      | error err => rfl
      | ok lines => simp only [String.append_assoc, hname]
  · simp only [hnum, ne_eq, not_false_eq_true, if_true]
    cases resourceInputLines env r.inputType (qualifiedTypeName env r)
      (indented (indented indent)) r.inputs with
    | error err => rfl
    | ok lines => simp only [String.append_assoc, hname]

/-- C14, amended: for a resource with a range whose input type carries no
annotation, and whose range expression is neither safely convertible to the
input type of bool nor convertible to the input type of number, `genResource`
emits, after the comments of the tokens of its definition, the declaration
`var <name> = new List<Q>();`, the head `foreach (var range in ` + the entries of
the range + `)` with its opening brace, the one instantiation
`<name>.Add(new Q($"<name>-{range.Key}", new QArgs { ... }));`, whose logical
name embeds the loop variable, and the closing brace. -/
theorem genResource_ranged (env : Env) (diagnostics : List String) (indent : String)
    (r : Resource) (range : Expression) (hrange : r.range = some range)
    (hanns : (env.ResolveOutputs r.inputType).GetAnnotations = [])
    (hbool : env.ConversionFrom (env.InputType .BoolType) range.Type ≠ .SafeConversion)
    (hnum : env.ConversionFrom (env.InputType .NumberType) (newAwaitCall range).Type =
      .NoConversion) :
    Prod.fst <$> genResource env diagnostics indent r =
      (do
        let entries ← print env
          (.FunctionCallExpression "entries" [newAwaitCall range] .DynamicType none) indent 0
        let lines ← resourceInputLines env r.inputType (qualifiedTypeName env r)
          (indented (indented indent)) r.inputs
        pure (resourceComments indent r ++ indent ++ "var " ++ r.name ++ " = new List<" ++
          qualifiedTypeName env r ++ ">();\n" ++
          (indent ++ "foreach (var range in " ++ entries ++ ")\n" ++ indent ++ "\x7b\n") ++
          indented indent ++ r.name ++ ".Add(" ++ "new " ++ qualifiedTypeName env r ++ "(" ++
          "$\"" ++ r.name ++ "-\x7brange.Key\x7d\"" ++ ", new " ++ qualifiedTypeName env r ++
          "Args\n" ++ indented indent ++ "\x7b\n" ++ concatLines lines ++ indented indent ++
          "\x7d" ++ ")" ++ ");\n" ++ indent ++ "\x7d\n" ++ genTrivia indent r.closeBrace)) := by
  rw [genResource_ranged_eq env diagnostics indent r range hrange hanns hbool]
  simp only [hnum, ne_eq, not_true_eq_false, if_false, bind, Except.bind, pure, Except.pure]

/-- C14 at a concrete input: the resource `thing` ranging over the list `xs`. -/
theorem genResource_ranged_witness :
    Prod.fst <$> genResource Env.withNamespaces [] ""
        (Resource.thing (some (varRef "xs" (.ListType .StringType)))) =
      .ok ("var thing = new List<Pkg.Thing>();\n" ++
        "foreach (var range in xs.Select((v, k) => new \x7b Key = k, Value = v \x7d))\n" ++
        "\x7b\n" ++
        "    thing.Add(new Pkg.Thing($\"thing-\x7brange.Key\x7d\", new Pkg.ThingArgs\n" ++
        "    \x7b\n" ++ "        Value = \"hello\",\n" ++ "    \x7d));\n" ++ "\x7d\n") :=
  (genResource_ranged Env.withNamespaces [] ""
    (Resource.thing (some (varRef "xs" (.ListType .StringType))))
    (varRef "xs" (.ListType .StringType)) rfl rfl (by decide) rfl).trans rfl

/-- C14 fails as worded: for the resource `thing` with a range of type bool, which
converts safely to the input type of bool, the text is the one placeholder: no
collection is declared, and there is neither a `foreach` nor an `.Add(`. -/
theorem genResource_bool_range :
    Prod.fst <$> genResource Env.plain [] "" (Resource.thing (some (varRef "b" .BoolType))) =
      .ok "/* TODO (\"OptionsRangeSafeConversion \")*/" ∧
    ¬ occursIn "new List<" "/* TODO (\"OptionsRangeSafeConversion \")*/" ∧
    ¬ occursIn "foreach" "/* TODO (\"OptionsRangeSafeConversion \")*/" ∧
    ¬ occursIn ".Add(" "/* TODO (\"OptionsRangeSafeConversion \")*/" := by
  decide

/-- C15 fails on the code: for a resource with a range whose input type carries
no annotation, and whose range expression is convertible to the input type of
number (and not safely to that of bool), `genResource` emits the declaration
of the collection and the placeholder, and then, with no `foreach` and no
opening brace before them, the statement `<name>.Add(...);` and a closing
brace. -/
theorem genResource_number_range (env : Env) (diagnostics : List String) (indent : String)
    (r : Resource) (range : Expression) (hrange : r.range = some range)
    (hanns : (env.ResolveOutputs r.inputType).GetAnnotations = [])
    (hbool : env.ConversionFrom (env.InputType .BoolType) range.Type ≠ .SafeConversion)
    (hnum : env.ConversionFrom (env.InputType .NumberType) (newAwaitCall range).Type ≠
      .NoConversion) :
    Prod.fst <$> genResource env diagnostics indent r =
      (do
        let lines ← resourceInputLines env r.inputType (qualifiedTypeName env r)
          (indented (indented indent)) r.inputs
        pure (resourceComments indent r ++ indent ++ "var " ++ r.name ++ " = new List<" ++
          qualifiedTypeName env r ++ ">();\n" ++
          genNYI env ("OptionsRangeConversion " ++ env.fmtExpr (newAwaitCall range)) ++
          indented indent ++ r.name ++ ".Add(" ++ "new " ++ qualifiedTypeName env r ++ "(" ++
          "$\"" ++ r.name ++ "-\x7brange.Key\x7d\"" ++ ", new " ++ qualifiedTypeName env r ++
          "Args\n" ++ indented indent ++ "\x7b\n" ++ concatLines lines ++ indented indent ++
          "\x7d" ++ ")" ++ ");\n" ++ indent ++ "\x7d\n" ++ genTrivia indent r.closeBrace)) := by
  rw [genResource_ranged_eq env diagnostics indent r range hrange hanns hbool]
  simp only [hnum, ne_eq, not_false_eq_true, if_true, bind, Except.bind, pure, Except.pure]

/-- C15 at a concrete input: the resource `thing` with a range of type number.
The text has the placeholder, then an `.Add(` statement although it has no
`foreach`, and its last brace closes nothing: the braces are not balanced. -/
theorem genResource_number_range_witness :
    Prod.fst <$> genResource Env.plain [] "" (Resource.thing (some (varRef "n" .NumberType))) =
      .ok ("var thing = new List<pkg.index.Thing>();\n" ++
        "/* TODO (\"OptionsRangeConversion \")*/" ++
        "    thing.Add(new pkg.index.Thing($\"thing-\x7brange.Key\x7d\", " ++
        "new pkg.index.ThingArgs\n" ++
        "    \x7b\n" ++ "        Value = \"hello\",\n" ++ "    \x7d));\n" ++ "\x7d\n") ∧
    ¬ bracesBalanced ("var thing = new List<pkg.index.Thing>();\n" ++
        "/* TODO (\"OptionsRangeConversion \")*/" ++
        "    thing.Add(new pkg.index.Thing($\"thing-\x7brange.Key\x7d\", " ++
        "new pkg.index.ThingArgs\n" ++
        "    \x7b\n" ++ "        Value = \"hello\",\n" ++ "    \x7d));\n" ++ "\x7d\n") ∧
    occursIn ".Add(" ("var thing = new List<pkg.index.Thing>();\n" ++
        "/* TODO (\"OptionsRangeConversion \")*/" ++
        "    thing.Add(new pkg.index.Thing($\"thing-\x7brange.Key\x7d\", " ++
        "new pkg.index.ThingArgs\n" ++
        "    \x7b\n" ++ "        Value = \"hello\",\n" ++ "    \x7d));\n" ++ "\x7d\n") ∧
    ¬ occursIn "foreach" ("var thing = new List<pkg.index.Thing>();\n" ++
        "/* TODO (\"OptionsRangeConversion \")*/" ++
        "    thing.Add(new pkg.index.Thing($\"thing-\x7brange.Key\x7d\", " ++
        "new pkg.index.ThingArgs\n" ++
        "    \x7b\n" ++ "        Value = \"hello\",\n" ++ "    \x7d));\n" ++ "\x7d\n") :=
  ⟨(genResource_number_range Env.plain [] "" (Resource.thing (some (varRef "n" .NumberType)))
      (varRef "n" .NumberType) rfl rfl (by decide) (by decide)).trans rfl,
    by decide, by decide, by decide⟩

/-! ## Output variables -/

theorem GetPrecedence_ge_four (e : Expression) (p : Nat) (h : GetPrecedence e = .ok p) :
    4 ≤ p := by
  cases e with
  | BinaryOpExpression op l r ty =>
    cases op <;> simp [GetPrecedence, pure, Except.pure, throw, throwThe, MonadExceptOf.throw]
      at h <;> omega
  | FunctionCallExpression name args rt rng =>
    simp only [GetPrecedence] at h
    split at h <;> simp [pure, Except.pure] at h <;> omega
  | _ =>
    simp [GetPrecedence, pure, Except.pure] at h
    omega

theorem print_three (env : Env) (e : Expression) (indent : String) :
    print env e indent 3 = print env e indent 0 := by
  have h3 := Formatter.gen_required env e indent .v 3
  have h0 := Formatter.gen_required env e indent .v 0
  simp only [print] at *
  cases hp : GetPrecedence e with
  | error err =>
    rw [h3, h0, hp]
    rfl
  | ok p =>
    have hge := GetPrecedence_ge_four e p hp
    rw [h3, hp]
    simp only [bind, Except.bind, pure, Except.pure, parenthesise]
    cases Formatter.gen env e indent Verb.v 0 with
    | error err => rfl
    | ok t =>
      have : ¬ p < 3 := by omega
      simp only [this, if_false]

theorem genOutputAssignment_eq (env : Env) (indent name : String) (value : Expression) :
    genOutputAssignment env indent name value =
      (do
        let e ← processExpression env value ""
        let p ← print env e indent 0
        pure (indent ++ "this." ++ Title name ++ " = " ++ p ++ ";\n")) := by
  simp only [genOutputAssignment, print_three]

theorem genPostamble_properties_eq (indent : String) (nodes : List Node) :
    genPostamble.properties indent nodes =
      concatLines (outputPropertyLines indent (outputNames nodes)) := by
  induction nodes with
  | nil => rfl
  | cons n ns ih =>
    cases n <;> simp only [genPostamble.properties, outputNames, outputPropertyLines,
      concatLines, genOutputProperty, ih]

theorem genNode_outputNames (env : Env) (diagnostics diagnostics2 : List String)
    (indent text : String) (n n2 : Node) (ns ns2 : List Node)
    (h : genNode env diagnostics indent n = .ok (text, diagnostics2, n2))
    (hns : outputNames ns2 = outputNames ns) :
    outputNames (n2 :: ns2) = outputNames (n :: ns) := by
  cases n with
  | Resource r =>
    simp only [genNode, bind, Except.bind, pure, Except.pure] at h
    cases hr : genResource env diagnostics indent r with
    | error err => simp [hr] at h
    | ok res =>
      simp only [hr, Except.ok.injEq, Prod.mk.injEq] at h
      rw [← h.2.2]
      simp only [outputNames, hns]
  | ConfigVariable name value =>
    simp only [genNode, pure, Except.pure, Except.ok.injEq, Prod.mk.injEq] at h
    rw [← h.2.2]
    simp only [outputNames, hns]
  | LocalVariable name value =>
    simp only [genNode, bind, Except.bind, pure, Except.pure] at h
    cases hr : genLocalVariable env indent name value with
    | error err => simp [hr] at h
    | ok res =>
      simp only [hr, Except.ok.injEq, Prod.mk.injEq] at h
      rw [← h.2.2]
      simp only [outputNames, hns]
  | OutputVariable name value =>
    simp only [genNode, bind, Except.bind, pure, Except.pure] at h
    cases hr : genOutputAssignment env indent name value with
    | error err => simp [hr] at h
    | ok res =>
      simp only [hr, Except.ok.injEq, Prod.mk.injEq] at h
      rw [← h.2.2]
      simp only [outputNames, hns]

theorem genNode_output (env : Env) (diagnostics diagnostics2 : List String)
    (indent text name : String) (value : Expression) (n2 : Node)
    (h : genNode env diagnostics indent (.OutputVariable name value) =
      .ok (text, diagnostics2, n2)) :
    ∃ (e : Expression) (p : String),
      processExpression env value "" = .ok e ∧ print env e indent 0 = .ok p ∧
        text = indent ++ "this." ++ Title name ++ " = " ++ p ++ ";\n" := by
  simp only [genNode, genOutputAssignment_eq, bind, Except.bind, pure, Except.pure] at h
  cases he : processExpression env value "" with
  | error err => simp [he] at h
  | ok e =>
    simp only [he] at h
    cases hp : print env e indent 0 with
    | error err => simp [hp] at h
    | ok p =>
      simp only [hp, Except.ok.injEq, Prod.mk.injEq] at h
      exact ⟨e, p, rfl, hp, h.1.symm⟩

theorem genNodes_texts (env : Env) (indent : String) (nodes : List Node) :
    ∀ (diagnostics diagnostics2 : List String) (text : String) (nodes2 : List Node),
      genNodes env diagnostics indent nodes = .ok (text, diagnostics2, nodes2) →
      ∃ texts : List String,
        text = concatLines texts ∧ outputNames nodes2 = outputNames nodes ∧
        List.Forall₂ (fun n t => ∀ (v : String) (value : Expression),
          n = Node.OutputVariable v value →
          ∃ (e : Expression) (p : String),
            processExpression env value "" = .ok e ∧ print env e indent 0 = .ok p ∧
              t = indent ++ "this." ++ Title v ++ " = " ++ p ++ ";\n") nodes texts := by
  induction nodes with
  | nil =>
    intro d d2 text nodes2 h
    simp only [genNodes, pure, Except.pure, Except.ok.injEq, Prod.mk.injEq] at h
    refine ⟨[], h.1.symm, ?_, List.Forall₂.nil⟩
    rw [← h.2.2]
  | cons n ns ih =>
    intro d d2 text nodes2 h
    simp only [genNodes, bind, Except.bind, pure, Except.pure] at h
    cases hn : genNode env d indent n with
    | error err => simp [hn] at h
    | ok res =>
      obtain ⟨t, d1, n1⟩ := res
      simp only [hn] at h
      cases hrest : genNodes env d1 indent ns with
      | error err => simp [hrest] at h
      | ok res2 =>
        obtain ⟨more, d3, ns1⟩ := res2
        simp only [hrest, Except.ok.injEq, Prod.mk.injEq] at h
        obtain ⟨texts, htext, hnames, hall⟩ := ih d1 d3 more ns1 hrest
        refine ⟨t :: texts, ?_, ?_, List.Forall₂.cons ?_ hall⟩
        · rw [← h.1, htext]
          rfl
        · rw [← h.2.2]
          exact genNode_outputNames env d d1 indent t n n1 ns ns1 hn hnames
        · intro v value hv
          subst hv
          exact genNode_output env d d1 indent t v value n1 hn

/-- C16: the assignment of an output variable `v` is the one line
`this.` + Title(v) + ` = ` + the printed value + `;` (the value is printed
after the rewrites of `processExpression`, and never between parentheses); the
postamble is the closing brace of the constructor, then one property line
`[Output("v")] public Output<string> Title(v) { get; set; }` for each output
variable among the nodes, in the order of the nodes, and nothing for a node of
another kind, then the closing brace of the class; and the text of a generated
program is the preamble, then one text for each node in order, the text of an
output variable being its assignment, then that postamble. -/
theorem GenerateProgram_outputs (env : Env) (program : Program) (text : String)
    (diagnostics : List String) (h : GenerateProgram env program = .ok (text, diagnostics)) :
    (∀ (indent v : String) (value : Expression),
      genOutputAssignment env indent v value =
        (do
          let e ← processExpression env value ""
          let p ← print env e indent 0
          pure (indent ++ "this." ++ Title v ++ " = " ++ p ++ ";\n"))) ∧
    (∀ (indent : String) (nodes : List Node),
      genPostamble indent nodes =
        indented indent ++ "\x7d\n\n" ++
          concatLines (outputPropertyLines (indented indent) (outputNames nodes)) ++ "\x7d\n") ∧
    ∃ (preamble : String) (texts : List String),
      genPreamble env program = .ok preamble ∧
      text = preamble ++ concatLines texts ++
        ("    \x7d\n\n" ++
          concatLines (outputPropertyLines "    " (outputNames program.linearized)) ++
          "\x7d\n") ∧
      List.Forall₂ (fun n t => ∀ (v : String) (value : Expression),
        n = Node.OutputVariable v value →
        ∃ (e : Expression) (p : String),
          processExpression env value "" = .ok e ∧ print env e "        " 0 = .ok p ∧
            t = "        " ++ "this." ++ Title v ++ " = " ++ p ++ ";\n")
        program.linearized texts := by
  refine ⟨genOutputAssignment_eq env, ?_, ?_⟩
  · intro indent nodes
    simp only [genPostamble, genPostamble_properties_eq]
  · simp only [GenerateProgram, bind, Except.bind, pure, Except.pure] at h
    cases hpre : genPreamble env program with
    | error err => simp [hpre] at h
    | ok preamble =>
      simp only [hpre] at h
      cases hbody : genNodes env [] (indented (indented "")) program.linearized with
      | error err => simp [hbody] at h
      | ok res =>
        obtain ⟨body, d, nodes2⟩ := res
        simp only [hbody, Except.ok.injEq, Prod.mk.injEq] at h
        obtain ⟨texts, htext, hnames, hall⟩ :=
          genNodes_texts env (indented (indented "")) program.linearized [] d body nodes2 hbody
        refine ⟨preamble, texts, rfl, ?_, hall⟩
        rw [← h.1, htext, genPostamble, genPostamble_properties_eq, hnames]
        rfl

/-- C16 at a concrete input: the program with the local variable `x` and the
output `result` bound to `x`. -/
theorem GenerateProgram_outputs_witness :
    GenerateProgram Env.plain Program.output =
      .ok ("using Pulumi;\n\nclass MyStack : Stack\n\x7b\n    public MyStack()\n    \x7b\n" ++
        "        var x = \"hello\";\n" ++ "        this.Result = x;\n" ++ "    \x7d\n\n" ++
        "    [Output(\"result\")] public Output<string> Result \x7b get; set; \x7d\n" ++
        "\x7d\n", []) ∧
    genOutputAssignment Env.plain "" "result" (varRef "x" .StringType) =
      .ok "this.Result = x;\n" ∧
    genPostamble "" Program.output.linearized =
      "    \x7d\n\n" ++
        "    [Output(\"result\")] public Output<string> Result \x7b get; set; \x7d\n" ++
        "\x7d\n" :=
  have h := GenerateProgram_outputs Env.plain Program.output _ [] rfl
  ⟨rfl, (h.1 "" "result" (varRef "x" .StringType)).trans rfl,
    (h.2.1 "" Program.output.linearized).trans rfl⟩

/-! ## The imports of the preamble -/

theorem StringSet.Add_nodup (set : List String) (value : String) (h : set.Nodup) :
    (StringSet.Add set value).Nodup := by
  unfold StringSet.Add
  split
  · exact h
  · exact List.nodup_cons.2 ⟨by assumption, h⟩

theorem genPreamble.addAll_nodup (usings : List String) :
    ∀ importSet : List String, importSet.Nodup →
      (genPreamble.addAll importSet usings).Nodup := by
  induction usings with
  | nil => exact fun _ h => h
  | cons i is ih =>
    intro importSet h
    rw [genPreamble.addAll]
    apply ih
    split
    · exact StringSet.Add_nodup _ _ h
    · exact h

theorem genPreamble.visit_nodup (env : Env) (es : List Expression) :
    ∀ importSet result : List String, importSet.Nodup →
      genPreamble.visit env importSet es = .ok result → result.Nodup := by
  induction es with
  | nil =>
    intro importSet result h hr
    simp only [genPreamble.visit, pure, Except.pure, Except.ok.injEq] at hr
    rw [← hr]
    exact h
  | cons e es ih =>
    intro importSet result h hr
    cases e with
    | FunctionCallExpression name args rt rng =>
      simp only [genPreamble.visit, bind, Except.bind] at hr
      cases hu : genFunctionUsings env name args with
      | error err => simp [hu] at hr
      | ok usings =>
        simp only [hu] at hr
        exact ih _ result (genPreamble.addAll_nodup usings importSet h) hr
    | _ =>
      simp only [genPreamble.visit] at hr
      exact ih importSet result h hr

theorem genPreamble.resourceImports_nodup (env : Env) (importSet : List String) (n : Node)
    (h : importSet.Nodup) : (genPreamble.resourceImports env importSet n).Nodup := by
  cases n with
  | Resource r =>
    simp only [genPreamble.resourceImports]
    split
    · exact StringSet.Add_nodup _ _ (StringSet.Add_nodup _ _ h)
    · exact StringSet.Add_nodup _ _ h
  | _ => exact h

theorem genPreamble.importSet_nodup (env : Env) (nodes : List Node) :
    ∀ importSet result : List String, importSet.Nodup →
      genPreamble.importSet env importSet nodes = .ok result → result.Nodup := by
  induction nodes with
  | nil =>
    intro importSet result h hr
    simp only [genPreamble.importSet, pure, Except.pure, Except.ok.injEq] at hr
    rw [← hr]
    exact h
  | cons n ns ih =>
    intro importSet result h hr
    simp only [genPreamble.importSet, bind, Except.bind] at hr
    cases hv : genPreamble.visit env (genPreamble.resourceImports env importSet n)
        (subexpressionsAll n.expressions) with
    | error err => simp [hv] at hr
    | ok set2 =>
      simp only [hv] at hr
      exact ih set2 result (genPreamble.visit_nodup env _ _ set2
        (genPreamble.resourceImports_nodup env importSet n h) hv) hr

theorem usingLine_injective (a b : String) (h : "using " ++ a ++ ";" = "using " ++ b ++ ";") :
    a = b := by
  have hd := congrArg String.data h
  simp only [String.data_append] at hd
  have h2 := List.append_cancel_left (List.append_cancel_right hd)
  exact String.ext h2

theorem genPreamble.usingLines_mem (pkgs : List String) (line : String)
    (h : line ∈ genPreamble.usingLines pkgs) :
    ∃ pkg ∈ pkgs, pkg ≠ "Pulumi" ∧ line = "using " ++ pkg ++ ";" := by
  induction pkgs with
  | nil => simp [genPreamble.usingLines] at h
  | cons p ps ih =>
    rw [genPreamble.usingLines] at h
    split at h
    · obtain ⟨q, hq, hne, hl⟩ := ih h
      exact ⟨q, List.mem_cons_of_mem _ hq, hne, hl⟩
    · rcases List.mem_cons.1 h with h1 | h1
      · exact ⟨p, List.mem_cons_self _ _, by assumption, h1⟩
      · obtain ⟨q, hq, hne, hl⟩ := ih h1
        exact ⟨q, List.mem_cons_of_mem _ hq, hne, hl⟩

theorem genPreamble.usingLines_nodup (pkgs : List String) (h : pkgs.Nodup) :
    (genPreamble.usingLines pkgs).Nodup := by
  induction pkgs with
  | nil => exact List.nodup_nil
  | cons p ps ih =>
    have hps := (List.nodup_cons.1 h)
    rw [genPreamble.usingLines]
    split
    · exact ih hps.2
    · refine List.nodup_cons.2 ⟨?_, ih hps.2⟩
      intro hmem
      obtain ⟨q, hq, _, hl⟩ := genPreamble.usingLines_mem ps _ hmem
      have := usingLine_injective p q hl
      subst this
      exact hps.1 hq

theorem sortStrings_perm (values : List String) : (sortStrings values).Perm values :=
  List.perm_insertionSort _ values

theorem sortStrings_sorted (values : List String) (h : values.Nodup) :
    List.Pairwise (fun a b : String => a < b) (sortStrings values) := by
  haveI : IsTotal String (fun a b => a.data ≤ b.data) := ⟨fun a b => le_total a.data b.data⟩
  haveI : IsTrans String (fun a b => a.data ≤ b.data) :=
    ⟨fun a b c hab hbc => le_trans (a := a.data) hab hbc⟩
  have hs : List.Pairwise (fun a b : String => a.data ≤ b.data) (sortStrings values) :=
    List.sorted_insertionSort (fun a b : String => a.data ≤ b.data) values
  have hn : (sortStrings values).Nodup := (sortStrings_perm values).nodup_iff.2 h
  refine (hs.and hn).imp ?_
  intro a b hab
  rw [String.lt_iff_toList_lt]
  exact lt_of_le_of_ne hab.1 (fun heq => hab.2 (String.ext heq))

/-- C17: when `genPreamble` gets through the declarations of a program, the
lines of its imports are in strictly ascending order, so no line occurs twice,
and the line `using Pulumi;` is not among them; the preamble is the line
`using Pulumi;`, these lines, an empty line, and the head of the class. -/
theorem genPreamble_imports_sorted (env : Env) (program : Program) (imports : List String)
    (h : genPreamble.imports env program = .ok imports) :
    List.Pairwise (fun a b : String => a < b) imports ∧ imports.Nodup ∧
    "using Pulumi;" ∉ imports ∧
    genPreamble env program =
      .ok ("using Pulumi;" ++ "\n" ++ printLines imports ++ "\n" ++ "class MyStack : Stack\n" ++
        "\x7b\n" ++ "    public MyStack()\n" ++ "    \x7b\n") := by
  have hpre : genPreamble env program =
      .ok ("using Pulumi;" ++ "\n" ++ printLines imports ++ "\n" ++ "class MyStack : Stack\n" ++
        "\x7b\n" ++ "    public MyStack()\n" ++ "    \x7b\n") := by
    simp only [genPreamble, h, bind, Except.bind, pure, Except.pure]
  simp only [genPreamble.imports, bind, Except.bind, pure, Except.pure] at h
  cases hset : genPreamble.importSet env (NewStringSet "Pulumi") program.nodes with
  | error err => simp [hset] at h
  | ok set =>
    simp only [hset, Except.ok.injEq] at h
    have hnodup : set.Nodup :=
      genPreamble.importSet_nodup env program.nodes (NewStringSet "Pulumi") set
        (List.nodup_singleton _) hset
    have hsorted : (StringSet.SortedValues set).Nodup :=
      (sortStrings_perm set).nodup_iff.2 hnodup
    have hlines := genPreamble.usingLines_nodup _ hsorted
    have hpair := sortStrings_sorted _ hlines
    rw [h] at hpair
    refine ⟨hpair, ?_, ?_, hpre⟩
    · rw [← h]
      exact (sortStrings_perm _).nodup_iff.2 hlines
    · intro hmem
      rw [← h] at hmem
      have hmem2 := (sortStrings_perm _).mem_iff.1 hmem
      obtain ⟨pkg, _, hne, hl⟩ := genPreamble.usingLines_mem _ _ hmem2
      exact hne (usingLine_injective "Pulumi" pkg hl).symm

/-- C17 at a concrete input: two resources of the package `pkg`, one of them
ranged, and calls of `readDir` and `readFile`. -/
theorem genPreamble_imports_sorted_witness :
    genPreamble.imports Env.plain Program.imports =
      .ok ["using Pkg = Pulumi.Pkg;", "using System.Collections.Generic;", "using System.IO;",
        "using System.Linq;"] ∧
    List.Pairwise (fun a b : String => a < b)
      ["using Pkg = Pulumi.Pkg;", "using System.Collections.Generic;", "using System.IO;",
        "using System.Linq;"] :=
  ⟨by decide, (genPreamble_imports_sorted Env.plain Program.imports _ (by decide)).1⟩

/-! ## Calls of unknown functions -/

theorem plainChar_writtenAsIs (env : Env) (c : Char) (h : plainChar c) : writtenAsIs env c :=
  ⟨h.1, Or.inl h.2⟩

theorem flatten_map_plain (env : Env) (cs : List Char) (h : ∀ c ∈ cs, writtenAsIs env c) :
    (List.map String.data (List.map (fun c =>
      if c = '"' ∨ c = '\\' then String.mk ['\\', c]
      else if (' ' ≤ c ∧ c ≤ '~') ∨ ('~' < c ∧ env.isPrintAbove c) then String.mk [c]
      else env.quoteNonPrintable c) cs)).flatten = cs := by
  induction cs with
  | nil => rfl
  | cons c cs ih =>
    have hc := h c (List.mem_cons_self _ _)
    have ih2 := ih (fun d hd => h d (List.mem_cons_of_mem _ hd))
    simp only [List.map_cons, List.flatten_cons, ih2]
    rw [if_neg hc.1, if_pos hc.2]
    rfl

theorem fmtQ_plain_middle (env : Env) (a name b : String)
    (ha : ∀ c ∈ a.data, writtenAsIs env c) (hname : ∀ c ∈ name.data, writtenAsIs env c) :
    ∃ rest : String, fmtQ env (a ++ name ++ b) = "\"" ++ a ++ name ++ rest ++ "\"" := by
  refine ⟨String.join (b.data.map (fun c =>
      if c = '"' ∨ c = '\\' then String.mk ['\\', c]
      else if (' ' ≤ c ∧ c ≤ '~') ∨ ('~' < c ∧ env.isPrintAbove c) then String.mk [c]
      else env.quoteNonPrintable c)), ?_⟩
  apply String.ext
  simp only [fmtQ, String.data_append, String.data_join, List.map_append, List.flatten_append,
    flatten_map_plain env a.data ha, flatten_map_plain env name.data hname, List.append_assoc]

/-- C18: for a function call whose name is not an entry of the dispatch table,
with or without a syntax position, `GenFunctionCallExpression` does not abort:
the formatter prints the one placeholder
`/* TODO ("FunctionCallExpression: ` + name + rest + `")*/`, whose text contains
the name as it is (`rest` is the quoted position). The name of a call is an
identifier: its characters are among those the verb `%q` writes as they are,
the printable characters, ASCII or not, other than the double quote and the
backslash. -/
theorem GenFunctionCallExpression_unknown (env : Env) (name : String)
    (args : List Expression) (returnType : Ty) (srcRange : Option Range) (indent : String)
    (hname : name ∉ dispatchNames) (hchars : ∀ c ∈ name.data, writtenAsIs env c) :
    ∃ rest : String,
      print env (.FunctionCallExpression name args returnType srcRange) indent 0 =
        .ok ("/* TODO (" ++ ("\"" ++ "FunctionCallExpression: " ++ name ++ rest ++ "\"") ++
          ")*/") ∧
      occursIn name ("/* TODO (" ++ ("\"" ++ "FunctionCallExpression: " ++ name ++ rest ++
        "\"") ++ ")*/") := by
  simp only [dispatchNames, List.mem_cons, List.mem_singleton, List.not_mem_nil, or_false,
    not_or] at hname
  obtain ⟨h1, h2, h3, h4, h5, h6, h7, h8, h9, h10, h11, h12, h13, h14, h15, h16⟩ := hname
  have hprefix : ∀ c ∈ "FunctionCallExpression: ".data, writtenAsIs env c :=
    fun c hc => plainChar_writtenAsIs env c
      ((by decide : ∀ c ∈ "FunctionCallExpression: ".data, plainChar c) c hc)
  obtain ⟨rest, hrest⟩ := fmtQ_plain_middle env "FunctionCallExpression: " name
    (" (" ++ (match srcRange with
      | some r => r
      | none => Range.zero).String ++ ")") hprefix hchars
  refine ⟨rest, ?_, ?_⟩
  · simp only [print]
    rw [Formatter.gen]
    simp only [GetPrecedence, GenFunctionCallExpression, h1, h2, h3, h4, h5, h6, h7, h8, h9,
      h10, h11, h12, h13, h14, h15, h16, if_false, genNYI, bind, Except.bind, pure,
      Except.pure, parenthesise]
    rw [← hrest]
    simp only [String.append_assoc]
    rfl
  · refine ⟨("/* TODO (" ++ "\"" ++ "FunctionCallExpression: ").data,
      (rest ++ "\"" ++ ")*/").data, ?_⟩
    simp only [String.data_append, List.append_assoc]

/-- C18 at concrete inputs: the unknown function `frobnicate`, without and with
a syntax position, and the unknown function `café`, whose name is not all
ASCII. -/
theorem GenFunctionCallExpression_unknown_witness :
    (∃ rest : String,
      print Env.plain (.FunctionCallExpression "frobnicate" [] .DynamicType none) "" 0 =
        .ok ("/* TODO (" ++ ("\"" ++ "FunctionCallExpression: " ++ "frobnicate" ++ rest ++
          "\"") ++ ")*/") ∧
      occursIn "frobnicate" ("/* TODO (" ++ ("\"" ++ "FunctionCallExpression: " ++
        "frobnicate" ++ rest ++ "\"") ++ ")*/")) ∧
    (∃ rest : String,
      print Env.plain (.FunctionCallExpression "café" [] .DynamicType none) "" 0 =
        .ok ("/* TODO (" ++ ("\"" ++ "FunctionCallExpression: " ++ "café" ++ rest ++
          "\"") ++ ")*/") ∧
      occursIn "café" ("/* TODO (" ++ ("\"" ++ "FunctionCallExpression: " ++
        "café" ++ rest ++ "\"") ++ ")*/")) ∧
    print Env.plain (.FunctionCallExpression "frobnicate" [] .DynamicType none) "" 0 =
      .ok "/* TODO (\"FunctionCallExpression: frobnicate (:0,0-0)\")*/" ∧
    print Env.plain (.FunctionCallExpression "frobnicate" [] .DynamicType
        (some ⟨"main.pp", 3, 7, 3, 19⟩)) "" 0 =
      .ok "/* TODO (\"FunctionCallExpression: frobnicate (main.pp:3,7-19)\")*/" ∧
    print Env.plain (.FunctionCallExpression "café" [] .DynamicType none) "" 0 =
      .ok "/* TODO (\"FunctionCallExpression: café (:0,0-0)\")*/" :=
  ⟨GenFunctionCallExpression_unknown Env.plain "frobnicate" [] .DynamicType none ""
      (by decide) (by decide),
    GenFunctionCallExpression_unknown Env.plain "café" [] .DynamicType none ""
      (by decide) (by decide), by decide, by decide, by decide⟩

/-- The verb `%q` of `genNYI` does not write every character as it is: in a
reason that holds a double quote, the quote comes out with a backslash before
it. -/
theorem genNYI_quotes_reason :
    print Env.plain (.FunctionCallExpression "a\"b" [] .DynamicType none) "" 0 =
      .ok "/* TODO (\"FunctionCallExpression: a\\\"b (:0,0-0)\")*/" ∧
    ¬ occursIn "a\"b" "/* TODO (\"FunctionCallExpression: a\\\"b (:0,0-0)\")*/" := by
  decide

/-! ## The function `entries` -/

/-- C19 fails on the code: for an `entries` call whose argument has a map or
object type the formatter does not print the placeholder alone: the text is the
placeholder `/* TODO ("MapOrObjectEntries")*/` followed by the projection code
` => new { Key = k, Value = v })`. -/
theorem GenFunctionCallExpression_entries_map (env : Env) (arg : Expression)
    (rest : List Expression) (returnType : Ty) (srcRange : Option Range) (indent : String)
    (hty : isMapOrObjectType arg.Type = true) :
    print env (.FunctionCallExpression "entries" (arg :: rest) returnType srcRange) indent 0 =
      .ok ("/* TODO (\"MapOrObjectEntries\")*/" ++ " => new \x7b Key = k, Value = v \x7d)") ∧
    "/* TODO (\"MapOrObjectEntries\")*/" ++ " => new \x7b Key = k, Value = v \x7d)" ≠
      "/* TODO (\"MapOrObjectEntries\")*/" := by
  refine ⟨?_, by decide⟩
  simp only [print]
  rw [Formatter.gen]
  simp only [GetPrecedence, GenFunctionCallExpression, IntrinsicConvert, IntrinsicApply,
    intrinsicAwait, intrinsicConstructor, Formatter.operands, index, List.get?_cons_zero]
  cases hT : arg.Type <;> simp [hT, isMapOrObjectType] at hty <;>
    simp [hT, bind, Except.bind, pure, Except.pure, parenthesise] <;> rfl

/-- C19 at a concrete input: `entries(m)` for a variable `m` that is a map of
strings. -/
theorem GenFunctionCallExpression_entries_map_witness :
    print Env.plain (.FunctionCallExpression "entries" [varRef "m" (.MapType .StringType)]
        .DynamicType none) "" 0 =
      .ok "/* TODO (\"MapOrObjectEntries\")*/ => new \x7b Key = k, Value = v \x7d)" :=
  (GenFunctionCallExpression_entries_map Env.plain (varRef "m" (.MapType .StringType)) []
    .DynamicType none "" rfl).1

/-- C20 fails on the code: for an `entries` call over an argument of a sequence
type that is not itself a call of `range`, the printed text is the argument
followed by `.Select((v, k) => new { Key = k, Value = v })`, and
`genFunctionUsings` returns no namespace for the call: the table has no entry
for `entries`, so `System.Linq` is not among them, whereas for `readDir` it
is. -/
theorem genFunctionUsings_entries (env : Env) (arg : Expression) (rest : List Expression)
    (returnType : Ty) (srcRange : Option Range) (indent : String)
    (hty : isSequenceType arg.Type = true) (hcall : isRangeCall arg = false) :
    print env (.FunctionCallExpression "entries" (arg :: rest) returnType srcRange) indent 0 =
      (do
        let t ← print env arg indent 20
        pure (t ++ ".Select((v, k)" ++ " => new \x7b Key = k, Value = v \x7d)")) ∧
    genFunctionUsings env "entries" (arg :: rest) = .ok [] ∧
    "System.Linq" ∉ functionNamespaces "entries" ∧
    genFunctionUsings env "readDir" (arg :: rest) = .ok ["System.IO", "System.Linq"] := by
  refine ⟨?_, rfl, by decide, rfl⟩
  simp only [print]
  rw [Formatter.gen]
  simp only [GetPrecedence, GenFunctionCallExpression, IntrinsicConvert, IntrinsicApply,
    intrinsicAwait, intrinsicConstructor, Formatter.operands, index, List.get?_cons_zero,
    String.reduceEq, if_false, if_true]
  cases hT : arg.Type <;> simp [hT, isSequenceType] at hty <;>
    (simp only [hT, bind, Except.bind, pure, Except.pure, parenthesise]
     split
     next err heq =>
       split at heq
       · simp [isRangeCall] at hcall
       · exact heq.symm
     next v heq =>
       split at heq
       · simp [isRangeCall] at hcall
       · rw [heq]
         rfl)

/-- C20 at a concrete input: `entries(xs)` for a variable `xs` that is a list of
strings, alone in a program. -/
theorem genFunctionUsings_entries_witness :
    print Env.plain (.FunctionCallExpression "entries" [varRef "xs" (.ListType .StringType)]
        .DynamicType none) "" 0 =
      .ok "xs.Select((v, k) => new \x7b Key = k, Value = v \x7d)" ∧
    genFunctionUsings Env.plain "entries" [varRef "xs" (.ListType .StringType)] = .ok [] ∧
    genPreamble.imports Env.plain
        ⟨[.LocalVariable "e" (.FunctionCallExpression "entries"
            [varRef "xs" (.ListType .StringType)] .DynamicType none)], []⟩ = .ok [] ∧
    genPreamble.imports Env.plain
        ⟨[.LocalVariable "e" (.FunctionCallExpression "readDir"
            [.LiteralValueExpression (.string "d")] .DynamicType none)], []⟩ =
      .ok ["using System.IO;", "using System.Linq;"] :=
  have h := genFunctionUsings_entries Env.plain (varRef "xs" (.ListType .StringType)) []
    .DynamicType none "" rfl rfl
  ⟨h.1, h.2.1, by decide, by decide⟩

/-! ## The contextual name of `applyConstructorCalls` -/

theorem applyConstructorCalls.visit_tuple (env : Env) (es : List Expression) (ty : Ty)
    (currentName : String) :
    applyConstructorCalls.visit env (.TupleConsExpression es ty) currentName =
      (do
        let (es2, currentName) ← applyConstructorCalls.visitAll env es currentName
        pure (.TupleConsExpression es2 ty, currentName)) := by
  rw [applyConstructorCalls.visit]
  rfl

theorem applyConstructorCalls.visit_token (env : Env) (token currentName : String) :
    applyConstructorCalls.visit env (tokenArgument token) currentName =
      .ok (tokenArgument token, currentName) := by
  rw [tokenArgument, applyConstructorCalls.visit]
  simp only [applyConstructorCalls.pre, applyConstructorCalls.visitAll, bind, Except.bind,
    pure, Except.pure]
  rw [applyConstructorCalls.visit]
  rfl

theorem applyConstructorCalls.visit_invoke (env : Env) (token currentName pkg module fn : String)
    (hfn : functionName env (tokenArgument token) = .ok (pkg, module, fn, [])) :
    applyConstructorCalls.visit env (invokeCall token []) currentName =
      .ok (invokeCall token [],
        pkg ++ (if module ≠ "" then "." ++ Title module else module) ++ "." ++ fn) := by
  rw [invokeCall, applyConstructorCalls.visit]
  simp only [applyConstructorCalls.pre, index, List.get?_cons_zero, hfn, bind, Except.bind,
    pure, Except.pure, if_true, List.length_nil, ne_eq, not_true_eq_false, if_false,
    applyConstructorCalls.visitAll, applyConstructorCalls.visit_token,
    applyConstructorCalls.post]

/-- C21 fails on the code: the contextual name is not restored after an
`invoke` call. In the tuple of the call `invoke(token)` and a later element,
the later element is rewritten under the qualified function name of the
`invoke`, not under `name`: an object construction there is wrapped in a
`__constructor` marker whose name is that function name + `Args`. -/
theorem applyConstructorCalls_name_kept (env : Env) (token name pkg module fn : String)
    (later : Expression) (ty : Ty)
    (hfn : functionName env (tokenArgument token) = .ok (pkg, module, fn, [])) :
    applyConstructorCalls env (.TupleConsExpression [invokeCall token [], later] ty) name =
      (do
        let later2 ← applyConstructorCalls env later
          (pkg ++ (if module ≠ "" then "." ++ Title module else module) ++ "." ++ fn)
        pure (.TupleConsExpression [invokeCall token [], later2] ty)) := by
  simp only [applyConstructorCalls, applyConstructorCalls.visit_tuple,
    applyConstructorCalls.visitAll, applyConstructorCalls.visit_invoke env token name pkg module
      fn hfn, bind, Except.bind, pure, Except.pure]
  cases applyConstructorCalls.visit env later
    (pkg ++ (if module ≠ "" then "." ++ Title module else module) ++ "." ++ fn) <;> rfl

/-- C21 at a concrete input: under the name `Pkg.Thing`, the tuple of
`invoke("pkg:index:getThing")` and an object construction: the object
construction is marked `Pkg.GetThingArgs`, not `Pkg.ThingArgs`; alone, it is
marked `Pkg.ThingArgs`. -/
theorem applyConstructorCalls_name_kept_witness :
    applyConstructorCalls Env.withNamespaces
        (.TupleConsExpression
          [invokeCall "pkg:index:getThing" [], .ObjectConsExpression [] .DynamicType]
          .DynamicType) "Pkg.Thing" =
      .ok (.TupleConsExpression
        [invokeCall "pkg:index:getThing" [],
          newConstructorCall (.ObjectConsExpression [] .DynamicType) "Pkg.GetThingArgs"]
        .DynamicType) ∧
    applyConstructorCalls Env.withNamespaces (.ObjectConsExpression [] .DynamicType)
        "Pkg.Thing" =
      .ok (newConstructorCall (.ObjectConsExpression [] .DynamicType) "Pkg.ThingArgs") ∧
    "Pkg.GetThingArgs" ≠ "Pkg.Thing" ++ "Args" :=
  ⟨(applyConstructorCalls_name_kept Env.withNamespaces "pkg:index:getThing" "Pkg.Thing" "Pkg"
      "" "GetThing" (.ObjectConsExpression [] .DynamicType) .DynamicType rfl).trans rfl,
    rfl, by decide⟩

/-! ## Malformed tokens -/

theorem resourceTypeName_diagnostics (env : Env) (r : Resource) :
    (resourceTypeName env r).2.2.2 = (env.DecomposeToken r.token).2.2.2 := by
  rcases h : env.DecomposeToken r.token with ⟨pkg, module, member, diags⟩
  simp only [resourceTypeName, h]

theorem genResource_diagnostics (env : Env) (diagnostics : List String) (indent : String)
    (r : Resource) (res : String × List String × Resource)
    (h : genResource env diagnostics indent r = .ok res) :
    res.2.1 = diagnostics ++ (resourceTypeName env r).2.2.2 ∧
    res.2.2 = { r with inputs := genResource.convertInputs env r.inputType r.inputs } := by
  rcases hn : resourceTypeName env r with ⟨pkg, module, member, diags⟩
  simp only [genResource, hn, bind, Except.bind, pure, Except.pure] at h
  repeat' split at h
  all_goals first | (cases h; exact ⟨rfl, rfl⟩) | cases h

theorem functionName_token (env : Env) (token : String) :
    functionName env (tokenArgument token) =
      .ok (env.namespaceName (env.namespaces (env.DecomposeToken token).1)
          (env.DecomposeToken token).1,
        env.namespaceName (env.namespaces (env.DecomposeToken token).1)
          (replaceSlashes (env.DecomposeToken token).2.1),
        Title (env.DecomposeToken token).2.2.1, (env.DecomposeToken token).2.2.2) := by
  rcases h : env.DecomposeToken token with ⟨pkg, module, member, diags⟩
  simp only [functionName, tokenArgument, index, List.get?_cons_zero, Value.AsString, h, bind,
    Except.bind, pure, Except.pure]

theorem genPreamble.visit_append (env : Env) (xs ys : List Expression) :
    ∀ importSet : List String,
      genPreamble.visit env importSet (xs ++ ys) =
        (do
          let importSet ← genPreamble.visit env importSet xs
          genPreamble.visit env importSet ys) := by
  induction xs with
  | nil => intro importSet; rfl
  | cons x xs ih =>
    intro importSet
    cases x with
    | FunctionCallExpression name args rt rng =>
      simp only [List.cons_append, genPreamble.visit, bind, Except.bind]
      cases genFunctionUsings env name args with
      | error err => rfl
      | ok usings =>
        simp only []
        exact ih _
    | _ =>
      simp only [List.cons_append, genPreamble.visit]
      exact ih _

/-- C23 fails on the code: when the token argument of an `invoke` call does not
decompose (the decomposition returns diagnostics), printing the call,
`genFunctionUsings` and `applyConstructorCalls` fail on the assertion that
there are none, and so does the generation of a program that holds the call;
nothing is appended to the diagnostics. Only for a resource are the
diagnostics of the decomposition appended to those of the generator. -/
theorem invoke_malformed_token (env : Env) (token : String) (args : List Expression)
    (returnType : Ty) (srcRange : Option Range) (indent name : String) (precision : Nat)
    (hdiag : (env.DecomposeToken token).2.2.2 ≠ []) :
    print env (.FunctionCallExpression "invoke" (tokenArgument token :: args) returnType
      srcRange) indent precision = .error .assertion ∧
    genFunctionUsings env "invoke" (tokenArgument token :: args) = .error .assertion ∧
    applyConstructorCalls env (.FunctionCallExpression "invoke" (tokenArgument token :: args)
      returnType srcRange) name = .error .assertion ∧
    (∀ (x : String) (linearized : List Node), ∃ p : Panic,
      GenerateProgram env
        ⟨[.LocalVariable x (.FunctionCallExpression "invoke" (tokenArgument token :: args)
          returnType srcRange)], linearized⟩ = .error p) ∧
    (∀ (r : Resource) (diagnostics : List String) (res : String × List String × Resource),
      genResource env diagnostics indent r = .ok res →
      res.2.1 = diagnostics ++ (env.DecomposeToken r.token).2.2.2) := by
  have hlen : ¬ (env.DecomposeToken token).2.2.2.length = 0 := by
    intro h
    exact hdiag (List.length_eq_zero.1 h)
  have husings : genFunctionUsings env "invoke" (tokenArgument token :: args) =
      .error .assertion := by
    simp only [genFunctionUsings, ne_eq, not_true_eq_false, if_false, index,
      List.get?_cons_zero, functionName_token, bind, Except.bind, pure, Except.pure, hlen,
      not_false_eq_true, if_true]
  refine ⟨?_, husings, ?_, ?_, ?_⟩
  · simp only [print]
    rw [Formatter.gen]
    simp only [GetPrecedence, GenFunctionCallExpression, IntrinsicConvert, IntrinsicApply,
      intrinsicAwait, intrinsicConstructor, String.reduceEq, if_false, if_true,
      Formatter.operands, index, List.get?_cons_zero, functionName_token, bind, Except.bind,
      pure, Except.pure, ne_eq, hlen, not_false_eq_true]
  · rw [applyConstructorCalls, applyConstructorCalls.visit]
    simp only [applyConstructorCalls.pre, if_true, index, List.get?_cons_zero,
      functionName_token, bind, Except.bind, pure, Except.pure, ne_eq, hlen,
      not_false_eq_true]
  · intro x linearized
    have hvisit : ∀ importSet : List String, ∃ p : Panic,
        genPreamble.visit env importSet
          (subexpressionsAll [.FunctionCallExpression "invoke" (tokenArgument token :: args)
            returnType srcRange]) = .error p := by
      intro importSet
      simp only [subexpressionsAll, subexpressions, List.append_nil]
      rw [genPreamble.visit_append]
      simp only [bind, Except.bind]
      generalize genPreamble.visit env importSet _ = res
      cases res with
      | error err => exact ⟨err, rfl⟩
      | ok set2 =>
        simp only [genPreamble.visit, husings, bind, Except.bind]
        exact ⟨_, rfl⟩
    obtain ⟨p, hp⟩ := hvisit (genPreamble.resourceImports env (NewStringSet "Pulumi")
      (.LocalVariable x (.FunctionCallExpression "invoke" (tokenArgument token :: args)
        returnType srcRange)))
    refine ⟨p, ?_⟩
    simp only [GenerateProgram, genPreamble, genPreamble.imports, genPreamble.importSet,
      Node.expressions, hp, bind, Except.bind]
  · intro r diagnostics res h
    rw [(genResource_diagnostics env diagnostics indent r res h).1,
      resourceTypeName_diagnostics]

/-- C23 at a concrete input: the token `bad`, which has no colon. -/
theorem invoke_malformed_token_witness :
    print Env.plain (.FunctionCallExpression "invoke"
      [tokenArgument "bad", .ObjectConsExpression [] .DynamicType] .DynamicType none) "" 0 =
      .error .assertion ∧
    genFunctionUsings Env.plain "invoke"
      [tokenArgument "bad", .ObjectConsExpression [] .DynamicType] = .error .assertion ∧
    GenerateProgram Env.plain
      ⟨[.LocalVariable "x" (.FunctionCallExpression "invoke"
          [tokenArgument "bad", .ObjectConsExpression [] .DynamicType] .DynamicType none)],
        [.LocalVariable "x" (.FunctionCallExpression "invoke"
          [tokenArgument "bad", .ObjectConsExpression [] .DynamicType] .DynamicType none)]⟩ =
      .error .assertion :=
  have h := invoke_malformed_token Env.plain "bad"
    [.ObjectConsExpression [] .DynamicType] .DynamicType none "" "" 0 (by decide)
  ⟨h.1, h.2.1, rfl⟩

/-! ## The inputs of a resource after `genResource` -/

theorem genResource.convertInputs_get (env : Env) (inputType : Ty) (inputs : List Attribute)
    (k : Nat) (a : Attribute) (h : inputs.get? k = some a) :
    (genResource.convertInputs env inputType inputs).get? k =
      some { a with value := env.RewriteConversions a.value (env.Traverse inputType a.name) } := by
  induction inputs generalizing k with
  | nil => simp at h
  | cons b rest ih =>
    cases k with
    | zero =>
      simp only [List.get?_cons_zero, Option.some.injEq] at h
      subst h
      rfl
    | succ k =>
      simp only [List.get?_cons_succ] at h
      rw [genResource.convertInputs, List.get?_cons_succ]
      exact ih k h

/-- C24, amended: after `genResource` has run on a resource, each of its inputs
holds the conversion of its former value to the type its name has in the input
type of the resource (what `RewriteConversions` returns), and the rest of the
resource is as before. -/
theorem genResource_rewrites_inputs (env : Env) (diagnostics : List String) (indent : String)
    (r : Resource) (res : String × List String × Resource)
    (h : genResource env diagnostics indent r = .ok res) :
    res.2.2 = { r with inputs := genResource.convertInputs env r.inputType r.inputs } ∧
    res.2.2.inputs.length = r.inputs.length ∧
    ∀ (k : Nat) (a : Attribute), r.inputs.get? k = some a →
      res.2.2.inputs.get? k =
        some { a with
          value := env.RewriteConversions a.value (env.Traverse r.inputType a.name) } := by
  have hres := (genResource_diagnostics env diagnostics indent r res h).2
  refine ⟨hres, ?_, ?_⟩
  · rw [hres]
    simp only []
    generalize r.inputs = inputs
    induction inputs with
    | nil => rfl
    | cons a rest ih => simp only [genResource.convertInputs, List.length_cons, ih]
  · intro k a ha
    rw [hres]
    exact genResource.convertInputs_get env r.inputType r.inputs k a ha

/-- C24 at a concrete input: the resource whose input `value` is the number `1`
where a string is wanted; afterwards the input holds the call of the convert
intrinsic on `1`, which is another expression. -/
theorem genResource_rewrites_inputs_witness :
    ∃ res : String × List String × Resource,
      genResource Env.converting [] "" Resource.numbered = .ok res ∧
      res.1 = "var thing = new pkg.index.Thing(\"thing\", new pkg.index.ThingArgs\n\x7b\n" ++
        "    Value = 1,\n\x7d);\n" ∧
      Attribute.values res.2.2.inputs =
        [.FunctionCallExpression IntrinsicConvert [.LiteralValueExpression (.number 1)]
          .StringType none] ∧
      Attribute.values Resource.numbered.inputs = [.LiteralValueExpression (.number 1)] ∧
      Attribute.values res.2.2.inputs ≠ Attribute.values Resource.numbered.inputs :=
  ⟨_, rfl, rfl,
    congrArg (fun r : Resource => Attribute.values r.inputs)
      (genResource_rewrites_inputs Env.converting [] "" Resource.numbered _ rfl).1,
    rfl, fun h => Expression.noConfusion (List.cons.inj h).1⟩

/-- C24 fails as worded: for the resource whose input `value` is the number `1`
where a string is wanted, `genResource` returns, and afterwards the input does
not hold the expression it held before: it holds the call of the convert
intrinsic on `1`. -/
theorem genResource_input_converted :
    ∃ res : String × List String × Resource,
      genResource Env.converting [] "" Resource.numbered = .ok res ∧
      Attribute.values Resource.numbered.inputs = [.LiteralValueExpression (.number 1)] ∧
      Attribute.values res.2.2.inputs =
        [.FunctionCallExpression IntrinsicConvert [.LiteralValueExpression (.number 1)]
          .StringType none] ∧
      Attribute.values res.2.2.inputs ≠ Attribute.values Resource.numbered.inputs :=
  ⟨_, rfl, rfl, rfl, fun h => Expression.noConfusion (List.cons.inj h).1⟩

/-! ## The type name of a resource -/

theorem namespaceName_resolvedIn (namespaces : String → Option String) (name : String) :
    resolvedIn namespaces name (namespaceName namespaces name) := by
  unfold resolvedIn namespaceName
  constructor
  · intro ns h
    rw [h]
  · intro h
    rw [h]

/-- C25: for a token that decomposes into `pulumi`, `providers` and `X`,
`resourceTypeName` returns what `namespaceName` gives for `X` and for the empty
module in the namespace table of the package `X`, and the member `Provider`; for
any other token `package:module:member` it returns what `namespaceName` gives
in the table of the package for the package and for the module with every `/`
replaced by `.`, and the title-cased member; in both cases with the diagnostics
of the decomposition. When `namespaceName` is the lookup of the specification,
the package and the module returned are each the entry of the table for that
name when the table has one, and otherwise the name itself. -/
theorem resourceTypeName_spec (env : Env) (r : Resource) (pkg module member : String)
    (diags : List String) (h : env.DecomposeToken r.token = (pkg, module, member, diags)) :
    (pkg = "pulumi" ∧ module = "providers" →
      resourceTypeName env r =
        (env.namespaceName (env.namespaces member) member,
          env.namespaceName (env.namespaces member) "", "Provider", diags)) ∧
    (¬ (pkg = "pulumi" ∧ module = "providers") →
      resourceTypeName env r =
        (env.namespaceName (env.namespaces pkg) pkg,
          env.namespaceName (env.namespaces pkg) (replaceSlashes module), Title member,
          diags)) ∧
    (replaceSlashes module).data = module.data.map (fun c => if c = '/' then '.' else c) ∧
    '/' ∉ (replaceSlashes module).data ∧
    ((∀ (namespaces : String → Option String) (name : String),
        env.namespaceName namespaces name = namespaceName namespaces name) →
      (pkg = "pulumi" ∧ module = "providers" →
        resolvedIn (env.namespaces member) member (resourceTypeName env r).1 ∧
        resolvedIn (env.namespaces member) "" (resourceTypeName env r).2.1 ∧
        (resourceTypeName env r).2.2.1 = "Provider") ∧
      (¬ (pkg = "pulumi" ∧ module = "providers") →
        resolvedIn (env.namespaces pkg) pkg (resourceTypeName env r).1 ∧
        resolvedIn (env.namespaces pkg) (replaceSlashes module) (resourceTypeName env r).2.1 ∧
        (resourceTypeName env r).2.2.1 = Title member)) := by
  have hprov : pkg = "pulumi" ∧ module = "providers" →
      resourceTypeName env r =
        (env.namespaceName (env.namespaces member) member,
          env.namespaceName (env.namespaces member) "", "Provider", diags) := by
    intro hp
    simp only [resourceTypeName, h, hp, and_self, if_true]
    rfl
  have hother : ¬ (pkg = "pulumi" ∧ module = "providers") →
      resourceTypeName env r =
        (env.namespaceName (env.namespaces pkg) pkg,
          env.namespaceName (env.namespaces pkg) (replaceSlashes module), Title member,
          diags) := by
    intro hp
    simp only [resourceTypeName, h, hp, if_false]
  refine ⟨hprov, hother, rfl, ?_, ?_⟩
  · simp only [replaceSlashes, List.mem_map, not_exists, not_and]
    intro c _ hc
    by_cases hs : c = '/'
    · simp [hs] at hc
    · simp [hs] at hc
  · intro hns
    constructor
    · intro hp
      rw [hprov hp]
      simp only [hns]
      exact ⟨namespaceName_resolvedIn _ _, namespaceName_resolvedIn _ _, trivial⟩
    · intro hp
      rw [hother hp]
      simp only [hns]
      exact ⟨namespaceName_resolvedIn _ _, namespaceName_resolvedIn _ _, trivial⟩

/-- C25 at concrete inputs: a provider token and a token with a module path,
under the namespace table of the package `pkg`, which has an entry for `pkg`
and none for the empty module or for `a.b`. -/
theorem resourceTypeName_spec_witness :
    resourceTypeName Env.withNamespaces { Resource.provider with token := "pulumi:providers:pkg" } =
      ("Pkg", "", "Provider", []) ∧
    resourceTypeName Env.withNamespaces { Resource.provider with token := "pkg:a/b:thing" } =
      ("Pkg", "a.b", "Thing", []) ∧
    resolvedIn (Env.withNamespaces.namespaces "pkg") "pkg"
      (resourceTypeName Env.withNamespaces
        { Resource.provider with token := "pkg:a/b:thing" }).1 ∧
    resolvedIn (Env.withNamespaces.namespaces "pkg") (replaceSlashes "a/b")
      (resourceTypeName Env.withNamespaces
        { Resource.provider with token := "pkg:a/b:thing" }).2.1 ∧
    Env.withNamespaces.namespaces "pkg" "pkg" = some "Pkg" ∧
    Env.withNamespaces.namespaces "pkg" "a.b" = none :=
  have hother := resourceTypeName_spec Env.withNamespaces
    { Resource.provider with token := "pkg:a/b:thing" } "pkg" "a/b" "thing" [] rfl
  have hres := (hother.2.2.2.2 (fun _ _ => rfl)).2 (by decide)
  ⟨((resourceTypeName_spec Env.withNamespaces
      { Resource.provider with token := "pulumi:providers:pkg" } "pulumi" "providers" "pkg" []
      rfl).1 ⟨rfl, rfl⟩).trans rfl,
    (hother.2.1 (by decide)).trans rfl, hres.1, hres.2.1, rfl, rfl⟩

/-! ## The alias of a package -/

theorem alias_ne_Pulumi (name : String) : name ++ " = Pulumi." ++ name ≠ "Pulumi" := by
  intro h
  have hl := congrArg String.length h
  simp only [String.length_append] at hl
  have h1 : " = Pulumi.".length = 10 := by decide
  have h2 : "Pulumi".length = 6 := by decide
  omega

theorem usingLines_sortStrings_pair (a : String) (ha : a ≠ "Pulumi") :
    genPreamble.usingLines (sortStrings [a, "Pulumi"]) = ["using " ++ a ++ ";"] := by
  simp only [sortStrings, List.insertionSort, List.orderedInsert]
  split <;> simp [genPreamble.usingLines, ha]

/-- C26 fails on the code: for a resource (here without inputs and without a
range, alone in its program) whose token decomposes into `package`, `module`
and `member`, the one alias line of the preamble is
`using T = Pulumi.T;` with `T` the title-cased package of the token, whereas
the package that qualifies the type name in the instantiation is what
`namespaceName` gives in the namespace table, for the member when the token is
a provider token `pulumi:providers:X` and for the package otherwise. -/
theorem genPreamble_alias (env : Env) (r : Resource) (linearized : List Node)
    (pkg module member : String) (diags : List String)
    (h : env.DecomposeToken r.token = (pkg, module, member, diags))
    (hinputs : r.inputs = []) (hrange : r.range = none) :
    genPreamble.imports env ⟨[.Resource r], linearized⟩ =
      .ok ["using " ++ (Title pkg ++ " = Pulumi." ++ Title pkg) ++ ";"] ∧
    (resourceTypeName env r).1 =
      (if pkg = "pulumi" ∧ module = "providers" then
        env.namespaceName (env.namespaces member) member
      else env.namespaceName (env.namespaces pkg) pkg) := by
  constructor
  · have hne := alias_ne_Pulumi (Title pkg)
    have hmem : ¬ (Title pkg ++ " = Pulumi." ++ Title pkg ∈ ["Pulumi"]) := by
      simpa using hne
    simp only [genPreamble.imports, genPreamble.importSet, genPreamble.resourceImports, h,
      hrange, hinputs, Node.expressions, Attribute.values, List.append_nil, subexpressionsAll,
      genPreamble.visit, NewStringSet, StringSet.Add, hmem, if_false, StringSet.SortedValues,
      bind, Except.bind, pure, Except.pure, usingLines_sortStrings_pair _ hne]
    rfl
  · simp only [resourceTypeName, h]
    split <;> rfl

/-- C26 at concrete inputs: the provider resource of token
`pulumi:providers:aws`. The preamble has the one alias line
`using Pulumi = Pulumi.Pulumi;`, and the instantiation is qualified by `aws`,
for which the preamble has no alias. -/
theorem genPreamble_alias_witness :
    genPreamble.imports Env.plain ⟨[.Resource Resource.provider], []⟩ =
      .ok ["using Pulumi = Pulumi.Pulumi;"] ∧
    (resourceTypeName Env.plain Resource.provider).1 = "aws" ∧
    Prod.fst <$> genResource Env.plain [] "" Resource.provider =
      .ok "var prov = new aws.Provider(\"prov\", new aws.ProviderArgs\n\x7b\n\x7d);\n" ∧
    (resourceTypeName Env.withNamespaces
      { Resource.provider with token := "pulumi:providers:pkg" }).1 = "Pkg" ∧
    genPreamble.imports Env.withNamespaces
        ⟨[.Resource { Resource.provider with token := "pulumi:providers:pkg" }], []⟩ =
      .ok ["using Pulumi = Pulumi.Pulumi;"] :=
  have h := genPreamble_alias Env.plain Resource.provider [] "pulumi" "providers" "aws" []
    rfl rfl rfl
  ⟨h.1.trans rfl, h.2.trans rfl, rfl, rfl, rfl⟩

/-! ## Operators without a table entry -/

/-- C22: for a binary operation whose operator has no entry in the operator
table, `GetPrecedence` fails, and so do `GenBinaryOpExpression`, before it
prints an operand, and the formatter, all with the same internal error; hence
whenever `GenBinaryOpExpression` returns a text the operator has an entry: the
branch that prints `,` with precedence 1 is never the one that produced it. -/
theorem GenBinaryOpExpression_unknown_operator (env : Env) (op : Operation)
    (l r : Expression) (ty : Ty) (indent : String) (precision : Nat)
    (hop : binaryOperatorText op = none) :
    GetPrecedence (.BinaryOpExpression op l r ty) =
      .error (.failf "unexpected binary expression") ∧
    (∀ leftOperand rightOperand : Printer,
      GenBinaryOpExpression (.BinaryOpExpression op l r ty) op leftOperand rightOperand
        indent = .error (.failf "unexpected binary expression")) ∧
    print env (.BinaryOpExpression op l r ty) indent precision =
      .error (.failf "unexpected binary expression") ∧
    (∀ (op2 : Operation) (leftOperand rightOperand : Printer) (text : String),
      GenBinaryOpExpression (.BinaryOpExpression op2 l r ty) op2 leftOperand rightOperand
        indent = .ok text →
      ∃ opstr : String, binaryOperatorText op2 = some opstr) := by
  have hp : ∀ o : Operation, binaryOperatorText o = none →
      GetPrecedence (.BinaryOpExpression o l r ty) =
        .error (.failf "unexpected binary expression") := by
    intro o ho
    cases o <;> first | rfl | simp [binaryOperatorText] at ho
  refine ⟨hp op hop, ?_, ?_, ?_⟩
  · intro lp rp
    simp only [GenBinaryOpExpression, hp op hop, bind, Except.bind]
  · simp only [print]
    rw [Formatter.gen]
    simp only [hp op hop, bind, Except.bind]
  · intro op2 lp rp text h
    cases hop2 : binaryOperatorText op2 with
    | some s => exact ⟨s, rfl⟩
    | none =>
      simp only [GenBinaryOpExpression, hp op2 hop2, bind, Except.bind] at h
      cases h

/-- C22 at concrete inputs: the operators `OpNegate` and `OpLogicalNot`, which
are unary, in a binary operation. -/
theorem GenBinaryOpExpression_unknown_operator_witness :
    (∀ env : Env,
      print env (.BinaryOpExpression .OpNegate (varRef "a" .NumberType)
        (varRef "b" .NumberType) .NumberType) "" 0 =
        .error (.failf "unexpected binary expression")) ∧
    (∀ leftOperand rightOperand : Printer,
      GenBinaryOpExpression (.BinaryOpExpression .OpLogicalNot (varRef "a" .BoolType)
        (varRef "b" .BoolType) .BoolType) .OpLogicalNot leftOperand rightOperand "" =
        .error (.failf "unexpected binary expression")) :=
  ⟨fun env => (GenBinaryOpExpression_unknown_operator env .OpNegate (varRef "a" .NumberType)
      (varRef "b" .NumberType) .NumberType "" 0 rfl).2.2.1,
    (GenBinaryOpExpression_unknown_operator Env.plain .OpLogicalNot (varRef "a" .BoolType)
      (varRef "b" .BoolType) .BoolType "" 0 rfl).2.1⟩

/-! ## Anonymous functions without parameters -/

/-- C27: for an anonymous function without parameters,
`GenAnonymousFunctionExpression` emits exactly `()` whatever the body is, and
so does the formatter: the body is not printed, and two such functions with
different bodies print the same text. -/
theorem GenAnonymousFunctionExpression_no_parameters (env : Env) (body body2 : Expression)
    (bodyPrinter : Printer) (indent : String) :
    GenAnonymousFunctionExpression [] bodyPrinter indent = .ok "()" ∧
    print env (.AnonymousFunctionExpression [] body) indent 0 = .ok "()" ∧
    print env (.AnonymousFunctionExpression [] body) indent 0 =
      print env (.AnonymousFunctionExpression [] body2) indent 0 := by
  have h : ∀ b : Expression,
      print env (.AnonymousFunctionExpression [] b) indent 0 = .ok "()" := by
    intro b
    simp only [print]
    rw [Formatter.gen]
    rfl
  exact ⟨rfl, h body, (h body).trans (h body2).symm⟩

/-- C27 at a concrete input: the body is an expression whose own printing
aborts, and the text is still `()`. -/
theorem GenAnonymousFunctionExpression_no_parameters_witness :
    print Env.plain (.AnonymousFunctionExpression []
      (.BinaryOpExpression .other (varRef "a" .NumberType) (varRef "b" .NumberType)
        .NumberType)) "" 0 = .ok "()" ∧
    print Env.plain (.AnonymousFunctionExpression [] (varRef "a" .NumberType)) "" 0 =
      .ok "()" :=
  ⟨(GenAnonymousFunctionExpression_no_parameters Env.plain
      (.BinaryOpExpression .other (varRef "a" .NumberType) (varRef "b" .NumberType)
        .NumberType) (varRef "a" .NumberType) (fun _ _ _ => .ok "") "").2.1,
    (GenAnonymousFunctionExpression_no_parameters Env.plain (varRef "a" .NumberType)
      (varRef "a" .NumberType) (fun _ _ _ => .ok "") "").2.1⟩

/-! ## The text of a template between its quotes -/

theorem GenTemplateExpression.body_cons (env : Env) (multiLine : Bool) (indent : String)
    (part : Expression) (ops : List Operand) :
    GenTemplateExpression.body multiLine indent
        (⟨part, Formatter.gen env part, Formatter.consAs env part⟩ :: ops) =
      (do
        let t ← templatePartText env multiLine indent part
        let more ← GenTemplateExpression.body multiLine indent ops
        pure (t ++ more)) := by
  cases part with
  | LiteralValueExpression value =>
    cases value <;>
      simp only [GenTemplateExpression.body, stringLiteralPart, templatePartText, print, bind,
        Except.bind, pure, Except.pure] <;>
      (generalize Formatter.gen env _ indent Verb.v 0 = res
       cases res <;> rfl)
  | _ =>
    simp only [GenTemplateExpression.body, stringLiteralPart, templatePartText, print, bind,
      Except.bind, pure, Except.pure]
    generalize Formatter.gen env _ indent Verb.v 0 = res
    cases res <;> rfl

theorem GenTemplateExpression.body_eq (env : Env) (multiLine : Bool) (indent : String)
    (parts : List Expression) :
    GenTemplateExpression.body multiLine indent (Formatter.operands env parts) =
      (do
        let texts ← templatePartTexts env multiLine indent parts
        pure (concatLines texts)) := by
  induction parts with
  | nil => rfl
  | cons part rest ih =>
    rw [Formatter.operands, GenTemplateExpression.body_cons, ih]
    simp only [templatePartTexts, bind, Except.bind, pure, Except.pure]
    cases templatePartText env multiLine indent part with
    | error err => rfl
    | ok t =>
      simp only []
      cases templatePartTexts env multiLine indent rest <;> rfl

theorem insertEscapes_count (special : Char → Bool) (esc c : Char) (v : List Char)
    (hc : c ≠ esc) : (insertEscapes special esc v).count c = v.count c := by
  induction v with
  | nil => rfl
  | cons d ds ih =>
    have hstep : insertEscapes special esc (d :: ds) =
        (if special d then [esc, d] else [d]) ++ insertEscapes special esc ds := by
      simp [insertEscapes]
    rw [hstep, List.count_append, ih]
    by_cases hd : special d = true
    · have hne : (esc == c) = false := by
        simp only [beq_eq_false_iff_ne, ne_eq]
        exact fun h => hc h.symm
      simp only [hd, if_true, List.count_cons, List.count_nil, hne]
      simp only [beq_iff_eq, Bool.false_eq_true, if_false, Nat.zero_add, Nat.add_zero]
      exact Nat.add_comm _ _
    · simp only [hd, if_false, List.count_cons, List.count_nil, Bool.false_eq_true]
      simp only [beq_iff_eq, Nat.zero_add]
      exact Nat.add_comm _ _

theorem insertEscapes_plain (special : Char → Bool) (esc : Char) (v : List Char)
    (h : ∀ c ∈ v, special c = false) : insertEscapes special esc v = v := by
  induction v with
  | nil => rfl
  | cons d ds ih =>
    have hstep : insertEscapes special esc (d :: ds) =
        (if special d then [esc, d] else [d]) ++ insertEscapes special esc ds := by
      simp [insertEscapes]
    rw [hstep, ih (fun c hc => h c (List.mem_cons_of_mem _ hc)),
      h d (List.mem_cons_self _ _)]
    rfl

/-- C28: the text `GenTemplateExpression` emits for a template is its markers,
the opening quote, then for each part in order the fragment escaped by
`escapeString` in the mode of the template (verbatim exactly when a fragment
has a newline) for a string literal and `{` + print(part) + `}` for any other
part, then the closing quote. `escapeString` leaves every character other than
the quote and the backslash as it is and adds none of them: a fragment has as
many `{` and as many `}` after it as before, none is doubled, and a fragment
without a quote or a backslash is emitted unchanged. -/
theorem GenTemplateExpression_parts (env : Env) (parts : List Expression) (indent : String) :
    (∃ multiLine hasExpressions : Bool,
      (multiLine = true ↔ hasNewlineFragment parts) ∧
      (hasExpressions = true ↔ hasNonLiteralPart parts) ∧
      GenTemplateExpression (Formatter.operands env parts) indent =
        (do
          let texts ← templatePartTexts env multiLine indent parts
          pure ((if multiLine = true then "@" else "") ++
            (if hasExpressions = true then "$" else "") ++ "\"" ++ concatLines texts ++
            "\""))) ∧
    (∀ (fragment : String) (verbatim : Bool),
      (escapeString fragment verbatim).data.count '\x7b' = fragment.data.count '\x7b' ∧
      (escapeString fragment verbatim).data.count '\x7d' = fragment.data.count '\x7d') ∧
    (∀ (fragment : String) (verbatim : Bool),
      (∀ c ∈ fragment.data, c ≠ '"' ∧ c ≠ '\\') → escapeString fragment verbatim = fragment) := by
  refine ⟨⟨(GenTemplateExpression.flags (Formatter.operands env parts)).1,
    (GenTemplateExpression.flags (Formatter.operands env parts)).2,
    GenTemplateExpression.flags_newline env parts,
    GenTemplateExpression.flags_expressions env parts, ?_⟩, ?_, ?_⟩
  · rw [GenTemplateExpression_eq, GenTemplateExpression.body_eq]
    simp only [bind, Except.bind, pure, Except.pure, Except.map]
    cases templatePartTexts env (GenTemplateExpression.flags (Formatter.operands env parts)).1
      indent parts <;> rfl
  · intro fragment verbatim
    cases verbatim with
    | false =>
      rw [escapeString_regular_data]
      exact ⟨insertEscapes_count _ _ _ _ (by decide), insertEscapes_count _ _ _ _ (by decide)⟩
    | true =>
      rw [escapeString_verbatim_data]
      exact ⟨insertEscapes_count _ _ _ _ (by decide), insertEscapes_count _ _ _ _ (by decide)⟩
  · intro fragment verbatim h
    apply String.ext
    cases verbatim with
    | false =>
      rw [escapeString_regular_data]
      apply insertEscapes_plain
      intro c hc
      have := h c hc
      simp [regularSpecial, this.1, this.2]
    | true =>
      rw [escapeString_verbatim_data]
      apply insertEscapes_plain
      intro c hc
      have := h c hc
      simp [verbatimSpecial, this.1]

/-- C28 at concrete inputs: the fragment `{a}` before the variable `x`, in a
template of one line and in a template with a newline. -/
theorem GenTemplateExpression_parts_witness :
    (∀ env : Env,
      print env (.TemplateExpression
        [.LiteralValueExpression (.string "\x7ba\x7d"), varRef "x" .StringType]
        .StringType) "" 0 = .ok "$\"\x7ba\x7d\x7bx\x7d\"") ∧
    (∀ env : Env,
      print env (.TemplateExpression
        [.LiteralValueExpression (.string "\x7ba\x7d\n"), varRef "x" .StringType]
        .StringType) "" 0 = .ok "@$\"\x7ba\x7d\n\x7bx\x7d\"") :=
  ⟨fun _ => rfl, fun _ => rfl⟩

end Dotnet
